import Mathlib

/-!
# Verification of the abysmal compiler against its specification

This file gives a shallow embedding, in Lean 4, of the parts of the
`abysmal` compiler (`src/abysmal/compiler.py`) and coverage helper
(`src/abysmal/coverage.py`) that the specification's claims are about,
together with theorems settling each claim.

Modelling conventions:

* Python `Decimal` values carried by AST literals are modelled as exact
  rationals (`ℚ`).  The decimal context's 28-significant-digit rounding is
  not modelled; no theorem below depends on a result that would be rounded.
* Python strings of decimal digits are modelled as `List ℕ` of digit
  values; Python's dynamically typed instruction parameters (which can be
  `None`, an `int` label or a `str`) are modelled by the `PyVal` type.
* Shallowly embedded functions keep the source's names (snake_case turned
  into camelCase where Lean style demands it).
-/

namespace Abysmal

/-! ## Number literals (`Parser._number_from_match`, `Parser.parse_number`)

`DECIMAL_TOKEN_SUFFIX_SHIFT_AMOUNTS = {'%': -2, 'k': 3, 'm': 6, 'b': 9}`,
looked up on the lower-cased suffix character. -/

/-- `Parser.DECIMAL_TOKEN_SUFFIX_SHIFT_AMOUNTS`, applied to the lower-cased
suffix character.  The regex guarantees the suffix is one of `%kKmMbB`, so
the catch-all branch is never reached on matched input. -/
def suffixShiftAmount (c : Char) : ℤ :=
  if c.toLower = '%' then -2
  else if c.toLower = 'k' then 3
  else if c.toLower = 'm' then 6
  else if c.toLower = 'b' then 9
  else 0

/-- Base-10 value of a digit string (digits as `List ℕ`, most significant
first). -/
def digitsVal (ds : List ℕ) : ℕ :=
  ds.foldl (fun a d => 10 * a + d) 0

/-- Value of the decimal string `intPart ++ "." ++ fracPart` (the string the
source hands to `Decimal(s)`). -/
def decStringVal (intPart fracPart : List ℕ) : ℚ :=
  (digitsVal intPart : ℚ) + (digitsVal fracPart : ℚ) / (10 : ℚ) ^ fracPart.length

/-- Python's `str.rstrip('0')` on a digit string. -/
def trimTrailingZeros (l : List ℕ) : List ℕ :=
  (l.reverse.dropWhile (· = 0)).reverse

/-- The suffix shift used by `_number_from_match` (`suffix` may be absent). -/
def optSuffixShift : Option Char → ℤ
  | some c => suffixShiftAmount c
  | none => 0

/-- The zero-padding step of `_number_from_match`: given the concatenated
digit string and the (possibly negative or overlong) decimal-point
position, produce the padded digit string and clamped decimal point:

```
if decimal_point <= 0:
    digits = ('0' * -decimal_point) + digits
    decimal_point = 0
elif decimal_point > len(digits):
    digits = digits + ('0' * (decimal_point - len(digits)))
    decimal_point = len(digits)
```
-/
def adjustDigits (digits₀ : List ℕ) (dp₀ : ℤ) : List ℕ × ℕ :=
  if dp₀ ≤ 0 then
    (List.replicate (-dp₀).toNat 0 ++ digits₀, 0)
  else if (digits₀.length : ℤ) < dp₀ then
    (digits₀ ++ List.replicate (dp₀ - digits₀.length).toNat 0,
     digits₀.length + (dp₀ - digits₀.length).toNat)
  else
    (digits₀, dp₀.toNat)

/-- The final step of `_number_from_match`:
`s = digits[:dp].lstrip('0') + '.' + digits[dp:].rstrip('0')`, handed to
`Decimal(s)`, with the all-stripped string `"."` special-cased to
`DECIMAL_ZERO`. -/
def numberCore (digits : List ℕ) (dp : ℕ) : ℚ :=
  if (digits.take dp).dropWhile (· = 0) = [] ∧
      trimTrailingZeros (digits.drop dp) = [] then 0
  else decStringVal ((digits.take dp).dropWhile (· = 0))
         (trimTrailingZeros (digits.drop dp))

/-- `Parser._number_from_match`.  The match groups are the digits of the
whole part, the digits of the optional fraction (without its leading `.`),
and the optional suffix character.  The digit string is
`decimal_whole ++ decimal_fraction` and the initial decimal point sits
after the whole part, shifted by the suffix amount. -/
def numberFromMatch (whole : List ℕ) (fraction : Option (List ℕ))
    (suffix : Option Char) : ℚ :=
  numberCore
    (adjustDigits (whole ++ fraction.getD [])
      ((whole.length : ℤ) + optSuffixShift suffix)).1
    (adjustDigits (whole ++ fraction.getD [])
      ((whole.length : ℤ) + optSuffixShift suffix)).2

/-- Matcher for `Parser.DECIMAL_TOKEN_REGEX`, i.e. the anchored pattern
`^[0-9]+(\.[0-9]+)?([%kKmMbB])?$`, returning the three capture groups
(whole digits, fraction digits, suffix). -/
def matchDecimalToken (s : String) :
    Option (List ℕ × Option (List ℕ) × Option Char) :=
  let cs := s.toList
  let whole := cs.takeWhile (·.isDigit)
  let rest := cs.dropWhile (·.isDigit)
  if whole = [] then none else
  match rest with
  | '.' :: cs' =>
    let f := cs'.takeWhile (·.isDigit)
    if f = [] then none
    else finishMatch (digitValues whole) (some (digitValues f))
           (cs'.dropWhile (·.isDigit))
  | _ => finishMatch (digitValues whole) none rest
where
  /-- Digit characters to digit values. -/
  digitValues (l : List Char) : List ℕ := l.map (fun c => c.toNat - '0'.toNat)
  /-- Consume the optional suffix and require end of input. -/
  finishMatch (whole : List ℕ) (fraction : Option (List ℕ)) :
      List Char → Option (List ℕ × Option (List ℕ) × Option Char)
  | [] => some (whole, fraction, none)
  | [c] => if c ∈ ['%', 'k', 'K', 'm', 'M', 'b', 'B']
           then some (whole, fraction, some c) else none
  | _ => none

/-- `Parser.parse_number`: regex match, then `_number_from_match`. -/
def parseNumber (s : String) : Option ℚ :=
  (matchDecimalToken s).map fun (w, f, suf) => numberFromMatch w f suf

/-! ### Arithmetic facts about digit strings -/

theorem foldl_digit (l : List ℕ) (x : ℕ) :
    l.foldl (fun a d => 10 * a + d) x
      = x * 10 ^ l.length + l.foldl (fun a d => 10 * a + d) 0 := by
  induction l generalizing x with
  | nil => simp
  | cons h t ih =>
    simp only [List.foldl_cons, List.length_cons]
    rw [ih (10 * x + h), ih (10 * 0 + h)]
    ring

theorem digitsVal_foldl (l : List ℕ) (x : ℕ) :
    l.foldl (fun a d => 10 * a + d) x = x * 10 ^ l.length + digitsVal l :=
  foldl_digit l x

theorem digitsVal_append (a b : List ℕ) :
    digitsVal (a ++ b) = digitsVal a * 10 ^ b.length + digitsVal b := by
  rw [digitsVal, List.foldl_append, digitsVal_foldl]
  rfl

theorem digitsVal_replicate_zero (k : ℕ) :
    digitsVal (List.replicate k 0) = 0 := by
  induction k with
  | zero => rfl
  | succ n ih =>
    rw [List.replicate_succ, digitsVal, List.foldl_cons]
    simpa [digitsVal] using ih

theorem digitsVal_of_all_zero {l : List ℕ} (h : ∀ x ∈ l, x = 0) :
    digitsVal l = 0 := by
  have : l = List.replicate l.length 0 := List.eq_replicate_length.mpr h
  rw [this, digitsVal_replicate_zero]

theorem digitsVal_dropWhile_zero (l : List ℕ) :
    digitsVal (l.dropWhile (· = 0)) = digitsVal l := by
  induction l with
  | nil => rfl
  | cons h t ih =>
    by_cases h0 : h = 0
    · subst h0
      rw [List.dropWhile_cons_of_pos (by simp), ih]
      simp [digitsVal]
    · rw [List.dropWhile_cons_of_neg (by simp [h0])]

theorem digitsVal_replicate_zero_prepend (k : ℕ) (l : List ℕ) :
    digitsVal (List.replicate k 0 ++ l) = digitsVal l := by
  rw [digitsVal_append, digitsVal_replicate_zero]; ring

/-- `rstrip('0')` writes the string as the trimmed part plus trailing
zeros. -/
theorem trimTrailingZeros_spec (l : List ℕ) :
    ∃ k, l = trimTrailingZeros l ++ List.replicate k 0 := by
  refine ⟨(l.reverse.takeWhile (· = 0)).length, ?_⟩
  have htk : (l.reverse.takeWhile (· = 0)).reverse
      = List.replicate (l.reverse.takeWhile (· = 0)).length 0 := by
    have h1 : l.reverse.takeWhile (· = 0)
        = List.replicate (l.reverse.takeWhile (· = 0)).length 0 :=
      List.eq_replicate_length.mpr (by
        intro x hx
        simpa using List.mem_takeWhile_imp hx)
    conv_lhs => rw [h1]
    rw [List.reverse_replicate]
  conv_lhs => rw [← l.reverse_reverse,
    ← List.takeWhile_append_dropWhile (· = 0) l.reverse,
    List.reverse_append]
  rw [htk]
  rfl

theorem decStringVal_trim (i f : List ℕ) :
    decStringVal i (trimTrailingZeros f) = decStringVal i f := by
  obtain ⟨k, hk⟩ := trimTrailingZeros_spec f
  rw [decStringVal, decStringVal]
  conv_rhs => rw [hk]
  rw [digitsVal_append, digitsVal_replicate_zero, List.length_append,
    List.length_replicate]
  have h10 : (10 : ℚ) ^ k ≠ 0 := by positivity
  field_simp
  ring

theorem decStringVal_dropWhile (i f : List ℕ) :
    decStringVal (i.dropWhile (· = 0)) f = decStringVal i f := by
  rw [decStringVal, decStringVal, digitsVal_dropWhile_zero]

/-- Core computation of `_number_from_match` once the digit string and the
decimal point position have been fixed: the produced value is the digit
string divided by `10 ^ (#digits - dp)`. -/
theorem numberCore_eq (digits : List ℕ) (dp : ℕ) :
    numberCore digits dp
      = (digitsVal digits : ℚ) / 10 ^ (digits.length - dp) := by
  have hsplit : digits = digits.take dp ++ digits.drop dp :=
    (List.take_append_drop dp digits).symm
  have hlen : (digits.drop dp).length = digits.length - dp := by simp
  rw [numberCore]
  by_cases hz : (digits.take dp).dropWhile (· = 0) = [] ∧
      trimTrailingZeros (digits.drop dp) = []
  · rw [if_pos hz]
    obtain ⟨hz1, hz2⟩ := hz
    have h1 : digitsVal (digits.take dp) = 0 := by
      rw [← digitsVal_dropWhile_zero, hz1]; rfl
    have h2 : digitsVal (digits.drop dp) = 0 := by
      obtain ⟨k, hk⟩ := trimTrailingZeros_spec (digits.drop dp)
      rw [hk, hz2, List.nil_append, digitsVal_replicate_zero]
    have hdv : digitsVal digits = 0 := by
      conv_lhs => rw [hsplit]
      rw [digitsVal_append, h1, h2]; ring
    rw [hdv]
    simp
  · rw [if_neg hz, decStringVal_dropWhile, decStringVal_trim, decStringVal]
    conv_rhs => rw [hsplit]
    rw [digitsVal_append, hlen]
    have h10 : (10 : ℚ) ^ (digits.length - dp) ≠ 0 := by positivity
    field_simp

/-- Value form of the zero-padding step: the padded digit string divided by
`10 ^ (#digits - dp)` equals the original digit string times
`10 ^ (dp₀ - #digits₀)`. -/
theorem adjustDigits_val (d₀ : List ℕ) (dp₀ : ℤ) :
    (digitsVal (adjustDigits d₀ dp₀).1 : ℚ)
        / 10 ^ ((adjustDigits d₀ dp₀).1.length - (adjustDigits d₀ dp₀).2)
      = (digitsVal d₀ : ℚ) * (10 : ℚ) ^ (dp₀ - (d₀.length : ℤ)) := by
  have h10 : (10 : ℚ) ≠ 0 := by norm_num
  have key : ∀ (x : ℚ) (n : ℕ) (e : ℤ), (n : ℤ) = -e → x / 10 ^ n = x * (10 : ℚ) ^ e := by
    intro x n e he
    have : e = -(n : ℤ) := by omega
    rw [this, zpow_neg, zpow_natCast, div_eq_mul_inv]
  rw [adjustDigits]
  by_cases hA : dp₀ ≤ 0
  · rw [if_pos hA]
    simp only [List.length_append, List.length_replicate, Nat.sub_zero]
    rw [digitsVal_replicate_zero_prepend]
    exact key _ _ _ (by omega)
  · rw [if_neg hA]
    by_cases hB : (d₀.length : ℤ) < dp₀
    · rw [if_pos hB]
      simp only [List.length_append, List.length_replicate]
      rw [digitsVal_append, digitsVal_replicate_zero, List.length_replicate,
        Nat.sub_self, pow_zero, div_one]
      push_cast
      rw [← zpow_natCast (10 : ℚ) ((dp₀ - (d₀.length : ℤ)).toNat)]
      rw [add_zero,
        Int.toNat_of_nonneg (show (0:ℤ) ≤ dp₀ - (d₀.length : ℤ) by omega)]
    · rw [if_neg hB]
      dsimp only
      exact key _ _ _ (by omega)

/-- `decStringVal` as a single division. -/
theorem decStringVal_eq_div (a b : List ℕ) :
    decStringVal a b = (digitsVal (a ++ b) : ℚ) / 10 ^ b.length := by
  have hpow : (10 : ℚ) ^ b.length ≠ 0 := by positivity
  rw [decStringVal, digitsVal_append]
  field_simp

/-- Master lemma: `_number_from_match` computes the plain (unsuffixed)
decimal value scaled by ten to the power of the suffix shift. -/
theorem numberFromMatch_eq (w : List ℕ) (f : Option (List ℕ))
    (s : Option Char) :
    numberFromMatch w f s
      = decStringVal w (f.getD []) * (10 : ℚ) ^ (optSuffixShift s) := by
  have h10 : (10 : ℚ) ≠ 0 := by norm_num
  have hpow : (10 : ℚ) ^ (f.getD []).length ≠ 0 := by positivity
  rw [numberFromMatch, numberCore_eq, adjustDigits_val, decStringVal_eq_div]
  rw [div_mul_eq_mul_div, eq_div_iff hpow]
  have hexp : ((w.length : ℤ) + optSuffixShift s - ((w ++ f.getD []).length : ℤ))
      + (((f.getD []).length : ℕ) : ℤ) = optSuffixShift s := by
    have hlen : (w ++ f.getD []).length = w.length + (f.getD []).length := by
      simp
    rw [hlen]
    push_cast
    omega
  rw [← zpow_natCast (10 : ℚ) (f.getD []).length, mul_assoc,
    ← zpow_add₀ h10, hexp]

/-- **C7**: for every numeric literal token, a suffix shifts the implicit
decimal point: `%` by −2, `k`/`K` by +3, `m`/`M` by +6, `b`/`B` by +9, and
the parsed value is canonicalized so that `42k` equals `42000`, `5%`
equals `0.05`, and `0.0` equals `0`. -/
theorem claim_C7_literal_suffix_shift :
    (∀ w f, numberFromMatch w f (some '%')
        = numberFromMatch w f none * (10 : ℚ) ^ (-2 : ℤ)) ∧
    (∀ w f c, c = 'k' ∨ c = 'K' → numberFromMatch w f (some c)
        = numberFromMatch w f none * (10 : ℚ) ^ (3 : ℤ)) ∧
    (∀ w f c, c = 'm' ∨ c = 'M' → numberFromMatch w f (some c)
        = numberFromMatch w f none * (10 : ℚ) ^ (6 : ℤ)) ∧
    (∀ w f c, c = 'b' ∨ c = 'B' → numberFromMatch w f (some c)
        = numberFromMatch w f none * (10 : ℚ) ^ (9 : ℤ)) ∧
    parseNumber "42k" = some 42000 ∧
    parseNumber "42000" = some 42000 ∧
    parseNumber "5%" = some (5 / 100) ∧
    parseNumber "0.0" = some 0 ∧
    parseNumber "0" = some 0 := by
  have hshift : ∀ w f (c : Char),
      numberFromMatch w f (some c)
        = numberFromMatch w f none * (10 : ℚ) ^ (suffixShiftAmount c) := by
    intro w f c
    rw [numberFromMatch_eq, numberFromMatch_eq]
    simp [optSuffixShift]
  have hval : ∀ w f c v, suffixShiftAmount c = v →
      numberFromMatch w f (some c)
        = numberFromMatch w f none * (10 : ℚ) ^ v := by
    intro w f c v hc
    rw [hshift, hc]
  refine ⟨fun w f => hval w f '%' _ (by decide),
          fun w f c hc => ?_, fun w f c hc => ?_, fun w f c hc => ?_,
          ?_, ?_, ?_, ?_, ?_⟩
  · rcases hc with rfl | rfl
    · exact hval w f 'k' _ (by decide)
    · exact hval w f 'K' _ (by decide)
  · rcases hc with rfl | rfl
    · exact hval w f 'm' _ (by decide)
    · exact hval w f 'M' _ (by decide)
  · rcases hc with rfl | rfl
    · exact hval w f 'b' _ (by decide)
    · exact hval w f 'B' _ (by decide)
  · rw [parseNumber,
      show matchDecimalToken "42k" = some ([4, 2], none, some 'k') from by
        decide]
    rw [Option.map_some']
    dsimp only
    rw [numberFromMatch_eq,
      show optSuffixShift (some 'k') = 3 from by decide]
    norm_num [decStringVal, digitsVal]
  · rw [parseNumber,
      show matchDecimalToken "42000" = some ([4, 2, 0, 0, 0], none, none)
        from by decide]
    rw [Option.map_some']
    dsimp only
    rw [numberFromMatch_eq]
    norm_num [decStringVal, digitsVal, optSuffixShift]
  · rw [parseNumber,
      show matchDecimalToken "5%" = some ([5], none, some '%') from by
        decide]
    rw [Option.map_some']
    dsimp only
    rw [numberFromMatch_eq,
      show optSuffixShift (some '%') = -2 from by decide]
    norm_num [decStringVal, digitsVal]
  · rw [parseNumber,
      show matchDecimalToken "0.0" = some ([0], some [0], none) from by
        decide]
    rw [Option.map_some']
    dsimp only
    rw [numberFromMatch_eq]
    norm_num [decStringVal, digitsVal, optSuffixShift]
  · rw [parseNumber,
      show matchDecimalToken "0" = some ([0], none, none) from by decide]
    rw [Option.map_some']
    dsimp only
    rw [numberFromMatch_eq]
    norm_num [decStringVal, digitsVal, optSuffixShift]

/-! ## AST expression nodes

One constructor per AST node class of the source.  `Literal` carries its
`Decimal` value (modelled as `ℚ`); the `token` fields, which only feed
error messages, are dropped. -/

inductive Node where
  | var (name : String)
  | lit (value : ℚ)
  | randomValue
  | unOp (op : String) (operand : Node)
  | logicalOp (op : String) (predicates : List Node)
  | binOp (left : Node) (op : String) (right : Node)
  | terOp (question yes no : Node)
  | rangeMembership (operand low high : Node) (lowInclusive highInclusive : Bool)
  | setMembership (operand : Node) (members : List Node)
  | functionCall (function : String) (params : List Node)
  deriving Repr

/-- `isinstance(node, Literal)`, returning the literal's value. -/
def litValue? : Node → Option ℚ
  | .lit v => some v
  | _ => none

/-! ## `BinOp.fold_constants` (claim C1)

Python `Decimal` division and power raise exceptions in some cases; the
bare `except:` clauses in `BinOp.fold_constants` turn any such exception
into `return self`.  We model the two partial operations with `Option`. -/

/-- `Decimal` division: `DivisionByZero` / `InvalidOperation` is raised
exactly when the divisor is zero.  (Exact rational value; context rounding
of inexact quotients is not modelled.) -/
def decDiv (a b : ℚ) : Option ℚ :=
  if b = 0 then none else some (a / b)

/-- Stand-in for the context-rounded value of `Decimal.__pow__` for a
positive base and a non-integer exponent.  This inexact value is outside
the scope of the embedding; no theorem depends on it. -/
def decPowInexact (_a _b : ℚ) : ℚ := 0

/-- `Decimal.__pow__ a b` raises exactly when: the exponent is integral
and the base is zero with non-positive exponent (`0 ** 0`, `0 ** -n`), or
the exponent is non-integral and the base is negative (fractional power of
a negative), or the exponent is non-integral, the base is zero and the
exponent negative.  Otherwise it yields a value (exact for integral
exponents). -/
def decPow (a b : ℚ) : Option ℚ :=
  if b.den = 1 then
    if a = 0 ∧ b ≤ 0 then none else some (a ^ b.num)
  else if a < 0 then none
  else if a = 0 then
    if b < 0 then none else some 0
  else some (decPowInexact a b)

/-- `BinOp.fold_constants`: fold when both operands are literals, with the
`/` and `^` exception paths returning the node unchanged. -/
def foldConstantsBinOp (left : Node) (op : String) (right : Node) : Node :=
  match litValue? left, litValue? right with
  | some a, some b =>
    if op = "+" then .lit (a + b)
    else if op = "-" then .lit (a - b)
    else if op = "*" then .lit (a * b)
    else if op = "/" then
      match decDiv a b with
      | some v => .lit v
      | none => .binOp left op right
    else if op = "^" then
      match decPow a b with
      | some v => .lit v
      | none => .binOp left op right
    else if op = "==" then .lit (if a = b then 1 else 0)
    else if op = "!=" then .lit (if a ≠ b then 1 else 0)
    else if op = "<" then .lit (if a < b then 1 else 0)
    else if op = "<=" then .lit (if a ≤ b then 1 else 0)
    else if op = ">" then .lit (if a > b then 1 else 0)
    else .lit (if a ≥ b then 1 else 0)
  | _, _ => .binOp left op right

/-- **C1**: on a binary expression with two literal operands, `/` with a
zero right literal and a raising `^` (in particular a fractional power of
a negative base) leave the node unchanged, deferring the error to runtime;
every other arithmetic or relational operator folds to the literal
result. -/
theorem claim_C1_binop_fold_exceptions (a b : ℚ) (op : String) :
    (op = "/" → b = 0 →
      foldConstantsBinOp (.lit a) op (.lit b) = .binOp (.lit a) op (.lit b)) ∧
    (op = "^" → decPow a b = none →
      foldConstantsBinOp (.lit a) op (.lit b) = .binOp (.lit a) op (.lit b)) ∧
    (a < 0 → b.den ≠ 1 → decPow a b = none) ∧
    (op = "+" → foldConstantsBinOp (.lit a) op (.lit b) = .lit (a + b)) ∧
    (op = "-" → foldConstantsBinOp (.lit a) op (.lit b) = .lit (a - b)) ∧
    (op = "*" → foldConstantsBinOp (.lit a) op (.lit b) = .lit (a * b)) ∧
    (op = "/" → b ≠ 0 →
      foldConstantsBinOp (.lit a) op (.lit b) = .lit (a / b)) ∧
    (op = "^" → ∀ v, decPow a b = some v →
      foldConstantsBinOp (.lit a) op (.lit b) = .lit v) ∧
    (op = "==" →
      foldConstantsBinOp (.lit a) op (.lit b) = .lit (if a = b then 1 else 0)) ∧
    (op = "!=" →
      foldConstantsBinOp (.lit a) op (.lit b) = .lit (if a ≠ b then 1 else 0)) ∧
    (op = "<" →
      foldConstantsBinOp (.lit a) op (.lit b) = .lit (if a < b then 1 else 0)) ∧
    (op = "<=" →
      foldConstantsBinOp (.lit a) op (.lit b) = .lit (if a ≤ b then 1 else 0)) ∧
    (op = ">" →
      foldConstantsBinOp (.lit a) op (.lit b) = .lit (if a > b then 1 else 0)) ∧
    (op = ">=" →
      foldConstantsBinOp (.lit a) op (.lit b) = .lit (if a ≥ b then 1 else 0)) := by
  refine ⟨?_, ?_, ?_, ?_, ?_, ?_, ?_, ?_, ?_, ?_, ?_, ?_, ?_, ?_⟩
  · rintro rfl hb
    simp [foldConstantsBinOp, litValue?, decDiv, hb]
  · rintro rfl hp
    simp [foldConstantsBinOp, litValue?, hp]
  · intro ha hd
    rw [decPow, if_neg hd, if_pos ha]
  · rintro rfl; rfl
  · rintro rfl; rfl
  · rintro rfl; rfl
  · rintro rfl hb
    simp [foldConstantsBinOp, litValue?, decDiv, hb]
  · rintro rfl v hv
    simp [foldConstantsBinOp, litValue?, hv]
  · rintro rfl; rfl
  · rintro rfl; rfl
  · rintro rfl; rfl
  · rintro rfl; rfl
  · rintro rfl; rfl
  · rintro rfl; rfl

/-- Witness for C1: `(-1) ^ (1/2)` (a fractional power of a negative base)
and `1 / 0` are left unfolded; `2 + 3` folds to `5`. -/
theorem claim_C1_binop_fold_exceptions_witness :
    foldConstantsBinOp (.lit (-1)) "^" (.lit (Rat.mk' 1 2 (by norm_num)
        (Nat.coprime_one_left 2)))
      = .binOp (.lit (-1)) "^" (.lit (Rat.mk' 1 2 (by norm_num)
        (Nat.coprime_one_left 2))) ∧
    foldConstantsBinOp (.lit 1) "/" (.lit 0) = .binOp (.lit 1) "/" (.lit 0) ∧
    foldConstantsBinOp (.lit 2) "+" (.lit 3) = .lit 5 := by
  refine ⟨?_, ?_, ?_⟩
  · have h := claim_C1_binop_fold_exceptions (-1)
      (Rat.mk' 1 2 (by norm_num) (Nat.coprime_one_left 2)) "^"
    exact h.2.1 rfl (h.2.2.1 (by norm_num) (by norm_num))
  · exact (claim_C1_binop_fold_exceptions 1 0 "/").1 rfl rfl
  · have := (claim_C1_binop_fold_exceptions 2 3 "+").2.2.2.1 rfl
    rw [this]
    norm_num

/-! ## `LogicalOp.fold_constants` (claim C9)

The `'||'` branch walks the predicates, returning `Literal(1)` as soon as
a truthy literal is seen, dropping falsy literals and keeping the rest;
dually for `'&&'`.  A `Decimal` is truthy iff it is nonzero. -/

/-- The `'||'` loop of `LogicalOp.fold_constants` (`kept` accumulates the
non-literal predicates seen so far). -/
def foldOrLoop (kept : List Node) : List Node → Node
  | [] => if kept.isEmpty then .lit 0 else .logicalOp "||" kept
  | p :: rest =>
    match litValue? p with
    | some v => if v ≠ 0 then .lit 1 else foldOrLoop kept rest
    | none => foldOrLoop (kept ++ [p]) rest

/-- The `'&&'` loop of `LogicalOp.fold_constants`. -/
def foldAndLoop (kept : List Node) : List Node → Node
  | [] => if kept.isEmpty then .lit 1 else .logicalOp "&&" kept
  | p :: rest =>
    match litValue? p with
    | some v => if v = 0 then .lit 0 else foldAndLoop kept rest
    | none => foldAndLoop (kept ++ [p]) rest

/-- `LogicalOp.fold_constants` (the `else` branch asserts `op == '&&'`). -/
def foldConstantsLogicalOp (op : String) (predicates : List Node) : Node :=
  if op = "||" then foldOrLoop [] predicates else foldAndLoop [] predicates

/-! ## Emission (opcode streams)

`emitOpcodes` is the opcode projection of the `emit` methods: the exact
sequence of opcodes each node emits, with jump / load parameters and label
bookkeeping omitted (they do not affect which opcodes appear). -/

/-- The opcode a non-comparison-swapped `BinOp` emits last. -/
def binOpOpcode (op : String) : String :=
  if op = "+" then "Ad"
  else if op = "-" then "Sb"
  else if op = "*" then "Ml"
  else if op = "/" then "Dv"
  else if op = "^" then "Pw"
  else if op = "==" then "Eq"
  else if op = "!=" then "Ne"
  else if op = ">" then "Gt"
  else "Ge"

/-- The opcode emitted for a single-parameter function call. -/
def funOpcode (f : String) : String :=
  if f = "ABS" then "Ab"
  else if f = "CEILING" then "Cl"
  else if f = "FLOOR" then "Fl"
  else "Rd"

mutual

/-- Opcode stream of `node.emit(code_generator)`. -/
def emitOpcodes : Node → List String
  | .var _ => ["Lv"]
  | .lit _ => ["Lc"]
  | .randomValue => ["Lr"]
  | .unOp op o =>
    emitOpcodes o ++
      (if op = "!" then ["Nt"] else if op = "-" then ["Ng"] else [])
  | .logicalOp op preds =>
    if op = "||" then emitJumpList preds "Jn" ++ ["Lz", "Ju", "Lo"]
    else emitJumpList preds "Jz" ++ ["Lo", "Ju", "Lz"]
  | .binOp l op r =>
    if op = "<" then emitOpcodes r ++ emitOpcodes l ++ ["Gt"]
    else if op = "<=" then emitOpcodes r ++ emitOpcodes l ++ ["Ge"]
    else emitOpcodes l ++ emitOpcodes r ++ [binOpOpcode op]
  | .terOp q y n =>
    emitOpcodes q ++ ["Jn"] ++ emitOpcodes n ++ ["Ju"] ++ emitOpcodes y
  | .rangeMembership o lo hi loInc hiInc =>
    emitOpcodes o ++ ["Cp"] ++ emitOpcodes lo ++
      [if loInc then "Ge" else "Gt", "Jz"] ++ emitOpcodes hi ++
      [if hiInc then "Gt" else "Ge", "Nt", "Ju", "Pp", "Lz"]
  | .setMembership o ms =>
    emitOpcodes o ++ emitMembers ms ++ ["Pp", "Lz", "Ju", "Pp", "Lo"]
  | .functionCall f ps =>
    if f = "MAX" then emitFoldChain ps "Mx"
    else if f = "MIN" then emitFoldChain ps "Mn"
    else
      (match ps with
       | p :: _ => emitOpcodes p ++ [funOpcode f]
       | [] => [funOpcode f])

/-- Predicates of a `LogicalOp`: each one is emitted followed by the
branch opcode. -/
def emitJumpList : List Node → String → List String
  | [], _ => []
  | p :: rest, jop => emitOpcodes p ++ [jop] ++ emitJumpList rest jop

/-- Members of a `SetMembership`: `Cp`, member, `Eq`, `Jn` each. -/
def emitMembers : List Node → List String
  | [] => []
  | m :: rest => ["Cp"] ++ emitOpcodes m ++ ["Eq", "Jn"] ++ emitMembers rest

/-- `MIN`/`MAX` parameters: the first plain, each later one followed by
the fold opcode. -/
def emitFoldChain : List Node → String → List String
  | [], _ => []
  | p :: rest, oc => emitOpcodes p ++ emitFoldRest rest oc

/-- The tail of a `MIN`/`MAX` parameter list. -/
def emitFoldRest : List Node → String → List String
  | [], _ => []
  | p :: rest, oc => emitOpcodes p ++ [oc] ++ emitFoldRest rest oc

end

theorem foldOrLoop_absorbs (v : ℚ) (hv : v ≠ 0) :
    ∀ (ps : List Node) (kept : List Node), Node.lit v ∈ ps →
      foldOrLoop kept ps = .lit 1 := by
  intro ps
  induction ps with
  | nil => intro kept h; cases h
  | cons p rest ih =>
    intro kept h
    rcases List.mem_cons.mp h with hp | hmem
    · rw [foldOrLoop, ← hp]
      simp [litValue?, hv]
    · rw [foldOrLoop]
      cases hlv : litValue? p with
      | some w =>
        by_cases hw : w = 0
        · simp only [hw, ne_eq, not_true_eq_false, if_neg, ite_false,
            not_not]
          exact ih kept hmem
        · simp [hw]
      | none => exact ih _ hmem

theorem foldAndLoop_absorbs :
    ∀ (ps : List Node) (kept : List Node), Node.lit 0 ∈ ps →
      foldAndLoop kept ps = .lit 0 := by
  intro ps
  induction ps with
  | nil => intro kept h; cases h
  | cons p rest ih =>
    intro kept h
    rcases List.mem_cons.mp h with hp | hmem
    · rw [foldAndLoop, ← hp]
      simp [litValue?]
    · rw [foldAndLoop]
      cases hlv : litValue? p with
      | some w =>
        by_cases hw : w = 0
        · simp [hw]
        · simp only [hw, if_neg, ite_false]
          exact ih kept hmem
      | none => exact ih _ hmem

theorem lr_mem_emitJumpList {ps : List Node} (jop : String)
    (h : Node.randomValue ∈ ps) : "Lr" ∈ emitJumpList ps jop := by
  induction ps with
  | nil => cases h
  | cons p rest ih =>
    rw [emitJumpList]
    rcases List.mem_cons.mp h with hp | hmem
    · apply List.mem_append_left
      apply List.mem_append_left
      rw [← hp, emitOpcodes]
      exact List.mem_singleton_self _
    · exact List.mem_append_right _ (ih hmem)

/-- **C9**: a `'||'` with a truthy literal predicate anywhere folds to the
literal 1 (dually `'&&'` with a falsy literal folds to 0), discarding all
other predicates — including a preceding `random!` — and the folded
literal's emitted code contains no `Lr`, so no random number is ever drawn
for it at runtime (whereas the unfolded `'||'` would emit an `Lr`). -/
theorem claim_C9_logical_absorber (ps : List Node) (v : ℚ) :
    (Node.lit v ∈ ps → v ≠ 0 → foldConstantsLogicalOp "||" ps = .lit 1) ∧
    (Node.lit 0 ∈ ps → foldConstantsLogicalOp "&&" ps = .lit 0) ∧
    (∀ w : ℚ, emitOpcodes (.lit w) = ["Lc"]) ∧
    (Node.randomValue ∈ ps → "Lr" ∈ emitOpcodes (.logicalOp "||" ps)) ∧
    "Lr" ∉ emitOpcodes (.lit v) := by
  refine ⟨?_, ?_, ?_, ?_, ?_⟩
  · intro hmem hv
    rw [foldConstantsLogicalOp, if_pos rfl]
    exact foldOrLoop_absorbs v hv ps [] hmem
  · intro hmem
    rw [foldConstantsLogicalOp, if_neg (by decide)]
    exact foldAndLoop_absorbs ps [] hmem
  · intro w; rfl
  · intro hmem
    rw [emitOpcodes, if_pos rfl]
    exact List.mem_append_left _ (lr_mem_emitJumpList "Jn" hmem)
  · rw [emitOpcodes]
    decide

/-- Witness for C9: `random! || 1` folds to the literal 1, whose emission
is a single `Lc` with no `Lr`; the unfolded expression would emit an
`Lr`. -/
theorem claim_C9_logical_absorber_witness :
    foldConstantsLogicalOp "||" [.randomValue, .lit 1] = .lit 1 ∧
    foldConstantsLogicalOp "&&" [.randomValue, .lit 0] = .lit 0 ∧
    "Lr" ∈ emitOpcodes (.logicalOp "||" [.randomValue, .lit 1]) ∧
    "Lr" ∉ emitOpcodes (.lit (1 : ℚ)) := by
  have h := claim_C9_logical_absorber [Node.randomValue, Node.lit 1] 1
  have h0 := claim_C9_logical_absorber [Node.randomValue, Node.lit 0] 1
  refine ⟨?_, ?_, ?_, ?_⟩
  · exact h.1 (by simp) one_ne_zero
  · exact h0.2.1 (by simp)
  · exact h.2.2.2.1 (by simp)
  · exact h.2.2.2.2

/-! ## IR instructions and `CodeGenerator.generate_code` slot assignment

Instruction parameters and labels are dynamically typed in the source:
`None`, an `int` (label allocated by `allocate_label`) or a `str` (state
label, variable name, or constant string). -/

/-- A Python value as found in `IRInstruction.param` and in labels. -/
inductive PyVal where
  | none
  | int (n : ℕ)
  | str (s : String)
  deriving DecidableEq, Repr

/-- `IRInstruction`; the `line_number` field, which only feeds the source
map, is omitted. -/
structure IRInstruction where
  opcode : String
  param : PyVal
  labels : List PyVal
  deriving DecidableEq, Repr

/-- The sort key `lambda v: (-use_counts[v], v)` turned into a `≤` test:
`a` sorts no later than `b` iff `a` is used more often, or equally often
and lexicographically no greater.  Python compares strings
lexicographically by code point, modelled here on the character lists. -/
def keyLE (count : String → ℕ) (a b : String) : Bool :=
  decide (count b < count a ∨ (count a = count b ∧ a.data ≤ b.data))

theorem keyLE_trans (count : String → ℕ) (a b c : String)
    (hab : keyLE count a b) (hbc : keyLE count b c) : keyLE count a c := by
  simp only [keyLE, decide_eq_true_eq] at *
  rcases hab with h1 | ⟨h1, h2⟩ <;> rcases hbc with h3 | ⟨h3, h4⟩
  · exact Or.inl (by omega)
  · exact Or.inl (by omega)
  · exact Or.inl (by omega)
  · exact Or.inr ⟨by omega, le_trans h2 h4⟩

theorem keyLE_total (count : String → ℕ) (a b : String) :
    keyLE count a b || keyLE count b a := by
  simp only [keyLE, Bool.or_eq_true, decide_eq_true_eq]
  rcases Nat.lt_trichotomy (count b) (count a) with h | h | h
  · exact Or.inl (Or.inl h)
  · rcases le_total a.data b.data with hs | hs
    · exact Or.inl (Or.inr ⟨h.symm, hs⟩)
    · exact Or.inr (Or.inr ⟨h, hs⟩)
  · exact Or.inr (Or.inl h)

theorem keyLE_antisymm (count : String → ℕ) (a b : String)
    (hab : keyLE count a b) (hba : keyLE count b a) : a = b := by
  simp only [keyLE, decide_eq_true_eq] at *
  rcases hab with h1 | ⟨h1, h2⟩ <;> rcases hba with h3 | ⟨h3, h4⟩
  · omega
  · omega
  · omega
  · exact String.ext (le_antisymm h2 h4)

/-- Number of `Lv`/`St` instructions referencing variable `v`
(`variable_use_counts`). -/
def variableUseCount (instrs : List IRInstruction) (v : String) : ℕ :=
  (instrs.filter fun ins =>
    (ins.opcode = "Lv" ∨ ins.opcode = "St") ∧ ins.param = .str v).length

/-- `variable_slots = sorted(variable_names, key=lambda v:
(-variable_use_counts[v], v))`.  Python's `sorted` is a stable merge sort;
the key is total, so stability does not matter. -/
def variableSlots (variableNames : List String)
    (instrs : List IRInstruction) : List String :=
  variableNames.mergeSort (keyLE (variableUseCount instrs))

/-- `variable_slot_assignments = {v: str(slot) for slot, v in
enumerate(variable_slots)}`. -/
def variableSlotAssignments (variableNames : List String)
    (instrs : List IRInstruction) : List (String × String) :=
  (variableSlots variableNames instrs).enum.map fun p => (p.2, toString p.1)

/-- An `enumerate`-style dictionary read off its slot column: the slots
are `str(0) .. str(V-1)` in order. -/
theorem enum_map_snd_toString (l : List String) :
    ((l.enum.map fun p => (p.2, toString p.1)).map Prod.snd)
      = (List.range l.length).map toString := by
  rw [List.map_map]
  have : (Prod.snd ∘ fun p : ℕ × String => (p.2, toString p.1))
      = (toString ∘ Prod.fst) := rfl
  rw [this, ← List.map_map, List.enum_map_fst]

/-- A sorted permutation characterizes the output of `variableSlots`. -/
theorem variableSlots_eq_of_sorted {names : List String}
    (out : List String)
    {instrs : List IRInstruction} (hperm : names.Perm out)
    (hsorted : out.Pairwise
      (fun a b => keyLE (variableUseCount instrs) a b = true)) :
    variableSlots names instrs = out := by
  haveI : IsAntisymm String
      (fun a b => keyLE (variableUseCount instrs) a b = true) :=
    ⟨fun a b => keyLE_antisymm _ a b⟩
  exact List.eq_of_perm_of_sorted
    ((List.mergeSort_perm names _).trans hperm)
    (List.sorted_mergeSort (keyLE_trans _) (keyLE_total _) names) hsorted

/-- IR of a program that loads `a` once and loads and stores `b`
(so `a` is used once, `b` twice). -/
def usageExampleOneTwo : List IRInstruction :=
  [⟨"Lv", .str "a", []⟩, ⟨"Lv", .str "b", []⟩, ⟨"St", .str "b", []⟩,
   ⟨"Xx", .none, []⟩]

/-- IR of a program that loads `a` and `b` once each. -/
def usageExampleEqual : List IRInstruction :=
  [⟨"Lv", .str "a", []⟩, ⟨"Lv", .str "b", []⟩, ⟨"Xx", .none, []⟩]

/-- **C2**: variable slots are assigned by sorting variable names by
descending `Lv`/`St` use count with ascending lexicographic tiebreak,
producing slots `0..V-1`; with `a` used once and `b` twice the slots are
`b=0, a=1`, and with equal usage `a=0, b=1`. -/
theorem claim_C2_variable_slot_assignment :
    (∀ (names : List String) (instrs : List IRInstruction),
      (variableSlots names instrs).Perm names ∧
      (variableSlots names instrs).Pairwise
        (fun a b => keyLE (variableUseCount instrs) a b) ∧
      (variableSlotAssignments names instrs).map Prod.snd
        = (List.range names.length).map toString) ∧
    variableSlotAssignments ["a", "b"] usageExampleOneTwo
      = [("b", "0"), ("a", "1")] ∧
    variableSlotAssignments ["a", "b"] usageExampleEqual
      = [("a", "0"), ("b", "1")] := by
  refine ⟨fun names instrs => ⟨List.mergeSort_perm names _,
    List.sorted_mergeSort (keyLE_trans _) (keyLE_total _) names, ?_⟩,
    ?_, ?_⟩
  · rw [variableSlotAssignments, enum_map_snd_toString, variableSlots,
      (List.mergeSort_perm names (keyLE (variableUseCount instrs))).length_eq]
  · rw [variableSlotAssignments,
      variableSlots_eq_of_sorted ["b", "a"] (by decide) (by decide)]
    rfl
  · rw [variableSlotAssignments,
      variableSlots_eq_of_sorted ["a", "b"] (by decide) (by decide)]
    rfl

/-! ## Constant slot assignment and the `Lz`/`Lo` rewrite (claim C3)

```
if instruction.opcode == 'Lc':
    if instruction.param == '0':   # string comparison!
        instruction.opcode = 'Lz'; instruction.param = None
    elif instruction.param == '1':
        instruction.opcode = 'Lo'; instruction.param = None
    else:
        constant_use_counts[instruction.param] += 1
```
-/

/-- The in-place rewrite applied to each instruction while counting
constants: `Lc` with param string exactly `"0"` becomes `Lz`, exactly
`"1"` becomes `Lo`; anything else (including other spellings of zero such
as `"0.0"`) is untouched. -/
def rewriteLcInstruction (ins : IRInstruction) : IRInstruction :=
  if ins.opcode = "Lc" then
    if ins.param = .str "0" then { ins with opcode := "Lz", param := .none }
    else if ins.param = .str "1" then
      { ins with opcode := "Lo", param := .none }
    else ins
  else ins

/-- The instruction list after the constant-counting loop. -/
def rewriteConstants (instrs : List IRInstruction) : List IRInstruction :=
  instrs.map rewriteLcInstruction

/-- `constant_use_counts[c]`: `Lc` references counted only for params not
rewritten to `Lz`/`Lo`. -/
def constantUseCount (instrs : List IRInstruction) (c : String) : ℕ :=
  if c = "0" ∨ c = "1" then 0
  else (instrs.filter fun ins =>
    ins.opcode = "Lc" ∧ ins.param = .str c).length

/-- The key set of `constant_use_counts`: the distinct `Lc` param strings
other than `"0"`/`"1"`.  (`defaultdict` iterates keys in first-insertion
order; the sort key below is total, so the order taken here does not
affect `constantSlots`.) -/
def constantsUsed (instrs : List IRInstruction) : List String :=
  (instrs.filterMap fun ins =>
    if ins.opcode = "Lc" then
      match ins.param with
      | .str s => if s = "0" ∨ s = "1" then none else some s
      | _ => none
    else none).dedup

/-- `constant_slots = sorted(constant_use_counts.keys(), key=lambda c:
(-constant_use_counts[c], c))`. -/
def constantSlots (instrs : List IRInstruction) : List String :=
  (constantsUsed instrs).mergeSort (keyLE (constantUseCount instrs))

/-- `constant_slot_assignments = {c: str(slot) for slot, c in
enumerate(constant_slots)}`. -/
def constantSlotAssignments (instrs : List IRInstruction) :
    List (String × String) :=
  (constantSlots instrs).enum.map fun p => (p.2, toString p.1)

theorem mem_constantsUsed {s : String} {instrs : List IRInstruction}
    (h : s ∈ constantsUsed instrs) : s ≠ "0" ∧ s ≠ "1" := by
  rw [constantsUsed, List.mem_dedup] at h
  obtain ⟨ins, _, heq⟩ := List.mem_filterMap.mp h
  by_cases hop : ins.opcode = "Lc"
  · rw [if_pos hop] at heq
    cases hp : ins.param with
    | str t =>
      rw [hp] at heq
      by_cases h01 : t = "0" ∨ t = "1"
      · simp [h01] at heq
      · simp only [h01, ite_false, if_neg, Option.some.injEq] at heq
        subst heq
        exact ⟨fun h0 => h01 (Or.inl h0), fun h1 => h01 (Or.inr h1)⟩
    | none => rw [hp] at heq; cases heq
    | int n => rw [hp] at heq; cases heq
  · rw [if_neg hop] at heq; cases heq

/-- Counterexample to C3 as stated: the rewrite compares the param
*string* against `'0'`, so an `Lc` whose constant is the zero-valued
decimal string `"0.0"` (which constant folding produces, e.g. for
`1.5 - 1.5`, since `str(Decimal('1.5') - Decimal('1.5')) == '0.0'`) is
not rewritten to `Lz` and the value zero occupies constant slot 0. -/
theorem claim_C3_counterexample :
    parseNumber "0.0" = some 0 ∧
    rewriteConstants [⟨"Lc", .str "0.0", []⟩, ⟨"Xx", .none, []⟩]
      = [⟨"Lc", .str "0.0", []⟩, ⟨"Xx", .none, []⟩] ∧
    constantSlots [⟨"Lc", .str "0.0", []⟩, ⟨"Xx", .none, []⟩] = ["0.0"] ∧
    constantSlotAssignments [⟨"Lc", .str "0.0", []⟩, ⟨"Xx", .none, []⟩]
      = [("0.0", "0")] := by
  have hslots : constantSlots [⟨"Lc", .str "0.0", []⟩, ⟨"Xx", .none, []⟩]
      = ["0.0"] := by
    have hused : constantsUsed [⟨"Lc", .str "0.0", []⟩, ⟨"Xx", .none, []⟩]
        = ["0.0"] := by decide
    have hperm := List.mergeSort_perm
      (constantsUsed [⟨"Lc", .str "0.0", []⟩, ⟨"Xx", .none, []⟩])
      (keyLE (constantUseCount [⟨"Lc", .str "0.0", []⟩, ⟨"Xx", .none, []⟩]))
    rw [hused] at hperm
    exact List.perm_singleton.mp hperm
  refine ⟨?_, by decide, hslots, ?_⟩
  · rw [parseNumber,
      show matchDecimalToken "0.0" = some ([0], some [0], none) from by
        decide]
    rw [Option.map_some']
    dsimp only
    rw [numberFromMatch_eq]
    norm_num [decStringVal, digitsVal, optSuffixShift]
  · rw [constantSlotAssignments, hslots]
    rfl

/-- **C3 (amended)**: before constant counting, every `Lc` whose param
string is exactly `"0"` is rewritten to `Lz` and exactly `"1"` to `Lo`
(zero/one under any other spelling, such as `"0.0"`, keeps its `Lc` and a
slot); afterwards no `Lc "0"`/`Lc "1"` remains, the strings `"0"`/`"1"`
get no constant slot, and the used constants are sorted by (descending
use count, ascending lexicographic string) into slots `0..C-1`. -/
theorem claim_C3_constant_slots (instrs : List IRInstruction) :
    (∀ ins ∈ instrs, ins.opcode = "Lc" →
      (ins.param = .str "0" →
        rewriteLcInstruction ins
          = { ins with opcode := "Lz", param := .none }) ∧
      (ins.param = .str "1" →
        rewriteLcInstruction ins
          = { ins with opcode := "Lo", param := .none }) ∧
      (ins.param ≠ .str "0" → ins.param ≠ .str "1" →
        rewriteLcInstruction ins = ins)) ∧
    (∀ ins ∈ rewriteConstants instrs, ins.opcode = "Lc" →
      ins.param ≠ .str "0" ∧ ins.param ≠ .str "1") ∧
    "0" ∉ constantSlots instrs ∧
    "1" ∉ constantSlots instrs ∧
    (constantSlots instrs).Perm (constantsUsed instrs) ∧
    (constantSlots instrs).Pairwise
      (fun a b => keyLE (constantUseCount instrs) a b) ∧
    (constantSlotAssignments instrs).map Prod.snd
      = (List.range (constantsUsed instrs).length).map toString := by
  refine ⟨?_, ?_, ?_, ?_, List.mergeSort_perm _ _,
    List.sorted_mergeSort (keyLE_trans _) (keyLE_total _) _, ?_⟩
  · intro ins _ hop
    refine ⟨fun h0 => ?_, fun h1 => ?_, fun h0 h1 => ?_⟩
    · rw [rewriteLcInstruction, if_pos hop, if_pos h0]
    · rw [rewriteLcInstruction, if_pos hop, if_neg (by rw [h1]; decide),
        if_pos h1]
    · rw [rewriteLcInstruction, if_pos hop, if_neg h0, if_neg h1]
  · intro ins hins hop
    obtain ⟨o, _, rfl⟩ := List.mem_map.mp hins
    rw [rewriteLcInstruction] at hop ⊢
    by_cases ho : o.opcode = "Lc"
    · rw [if_pos ho] at hop ⊢
      by_cases h0 : o.param = .str "0"
      · rw [if_pos h0] at hop; simp at hop
      · rw [if_neg h0] at hop ⊢
        by_cases h1 : o.param = .str "1"
        · rw [if_pos h1] at hop; simp at hop
        · rw [if_neg h1] at hop ⊢
          exact ⟨h0, h1⟩
    · rw [if_neg ho] at hop
      exact absurd hop ho
  · intro hmem
    rw [constantSlots, List.mem_mergeSort] at hmem
    exact (mem_constantsUsed hmem).1 rfl
  · intro hmem
    rw [constantSlots, List.mem_mergeSort] at hmem
    exact (mem_constantsUsed hmem).2 rfl
  · rw [constantSlotAssignments, enum_map_snd_toString, constantSlots,
      (List.mergeSort_perm (constantsUsed instrs)
        (keyLE (constantUseCount instrs))).length_eq]

/-- Witness for C3 (amended): a program with constants `"0"` (rewritten
to `Lz`) and `"2.5"` (kept, slot 0). -/
theorem claim_C3_constant_slots_witness :
    rewriteLcInstruction ⟨"Lc", .str "0", []⟩ = ⟨"Lz", .none, []⟩ ∧
    "0" ∉ constantSlots
      [⟨"Lc", .str "0", []⟩, ⟨"Lc", .str "2.5", []⟩, ⟨"Xx", .none, []⟩] ∧
    (∀ ins ∈ rewriteConstants
        [⟨"Lc", .str "0", []⟩, ⟨"Lc", .str "2.5", []⟩, ⟨"Xx", .none, []⟩],
      ins.opcode = "Lc" → ins.param ≠ .str "0" ∧ ins.param ≠ .str "1") := by
  have h := claim_C3_constant_slots
    [⟨"Lc", .str "0", []⟩, ⟨"Lc", .str "2.5", []⟩, ⟨"Xx", .none, []⟩]
  refine ⟨?_, h.2.2.1, h.2.1⟩
  have := (h.1 ⟨"Lc", .str "0", []⟩ (by simp) rfl).1 rfl
  simpa using this

/-! ## `compile` constant validation (claim C10)

`compile` first intersects the external variable names with the constant
names and then validates / converts the constant values, both before
constructing the `Parser`; each failure is a plain `ValueError` (not a
`CompilationError`, which is the `ValueError` subclass carrying an
optional source position). -/

/-- The two error classes relevant to C10. -/
inductive CompileError where
  | valueError (msg : String)
  | compilationError (msg : String) (lineNumber charNumber : Option ℕ)
  deriving Repr, DecidableEq

/-- A Python value passed as a constant to `compile`.  A `float` is
modelled by its `str()` (shortest round-trip repr) string, which is the
only aspect of a float the code observes; a value of any other type
carries its `repr` for the error message. -/
inductive PyConst where
  | int (n : ℤ)
  | bool (b : Bool)
  | float (reprStr : String)
  | dec (value : ℚ)
  | other (reprStr : String)
  deriving Repr

/-- `Decimal(str(value))` on a float's repr string.  Only plain decimal
reprs (optional sign, digits, optional fraction) are modelled; Python
also accepts exponent-notation reprs, which no claim exercises (such
strings fall to the default `0` here). -/
def decimalOfFloatRepr (r : String) : ℚ :=
  (match r.toList with
   | '-' :: rest => (parseNumber (String.mk rest)).map Neg.neg
   | _ => parseNumber r).getD 0

/-- Conversion of an accepted constant value to `Decimal`: `int` and
`bool` via `Decimal(value)`, `float` via `Decimal(str(value))`, `Decimal`
kept.  The `.other` branch is never consulted (`convertConstants` raises
first). -/
def convertConstant : PyConst → ℚ
  | .int n => (n : ℚ)
  | .bool b => if b then 1 else 0
  | .float r => decimalOfFloatRepr r
  | .dec v => v
  | .other _ => 0

/-- The constant-validation loop of `compile`, in dictionary (insertion)
order. -/
def convertConstants :
    List (String × PyConst) → Except CompileError (List (String × ℚ))
  | [] => .ok []
  | (name, .other r) :: _ =>
    .error (.valueError ("the value of constant \"" ++ name ++ "\" ("
      ++ r ++ ") is not an int, float, or Decimal"))
  | (name, v) :: rest =>
    (convertConstants rest).map fun out => (name, convertConstant v) :: out

/-- The shared-names check: `variable_names & set(constants.keys())`,
with the reported name modelled as the first shared one in variable-list
order (the set iteration order of `next(iter(shared_names))` is a hash
implementation detail). -/
def sharedName? (variableNames : List String)
    (constants : List (String × PyConst)) : Option String :=
  variableNames.find? fun v => constants.any fun c => c.1 = v

/-- The part of `compile` that runs before the `Parser` is constructed:
the shared-name check, then constant validation and conversion.  The
source text is not consulted. -/
def compileValidate (_sourceCode : String) (variableNames : List String)
    (constants : List (String × PyConst)) :
    Except CompileError (List (String × ℚ)) :=
  match sharedName? variableNames constants with
  | some n =>
    .error (.valueError ("\"" ++ n
      ++ "\" cannot be both a variable and a constant"))
  | none => convertConstants constants

theorem convertConstants_error_of_other {consts : List (String × PyConst)}
    {name r} (h : (name, PyConst.other r) ∈ consts) :
    ∃ msg, convertConstants consts = .error (.valueError msg) := by
  induction consts with
  | nil => cases h
  | cons c rest ih =>
    obtain ⟨cn, cv⟩ := c
    rcases List.mem_cons.mp h with heq | hmem
    · obtain ⟨rfl, rfl⟩ := Prod.mk.injEq .. ▸ And.intro
        (congrArg Prod.fst heq.symm) (congrArg Prod.snd heq.symm)
      exact ⟨_, rfl⟩
    · cases cv with
      | other s => exact ⟨_, rfl⟩
      | int n =>
        obtain ⟨msg, hmsg⟩ := ih hmem
        refine ⟨msg, ?_⟩
        show (convertConstants rest).map _ = _
        rw [hmsg]
        rfl
      | bool b =>
        obtain ⟨msg, hmsg⟩ := ih hmem
        refine ⟨msg, ?_⟩
        show (convertConstants rest).map _ = _
        rw [hmsg]
        rfl
      | float s =>
        obtain ⟨msg, hmsg⟩ := ih hmem
        refine ⟨msg, ?_⟩
        show (convertConstants rest).map _ = _
        rw [hmsg]
        rfl
      | dec v =>
        obtain ⟨msg, hmsg⟩ := ih hmem
        refine ⟨msg, ?_⟩
        show (convertConstants rest).map _ = _
        rw [hmsg]
        rfl

/-- **C10**: `compile` raises a plain `ValueError` — not a
`CompilationError`, with no line or character position — before any
parsing of the source text when a name is both a variable and a constant
or when a constant's value is not an int, bool, float or Decimal; float
constants are converted through `str()`, so `0.1` becomes exactly
`Decimal('0.1') = 1/10`. -/
theorem claim_C10_compile_validation :
    (∀ src src' names consts,
      compileValidate src names consts = compileValidate src' names consts) ∧
    (∀ src names consts n, sharedName? names consts = some n →
      compileValidate src names consts
        = .error (.valueError ("\"" ++ n
            ++ "\" cannot be both a variable and a constant"))) ∧
    (∀ src names consts name r,
      sharedName? names consts = none → (name, PyConst.other r) ∈ consts →
      ∃ msg, compileValidate src names consts
        = .error (.valueError msg)) ∧
    (∀ src names name r rest, sharedName? names ((name, .other r) :: rest) = none →
      compileValidate src names ((name, .other r) :: rest)
        = .error (.valueError ("the value of constant \"" ++ name ++ "\" ("
            ++ r ++ ") is not an int, float, or Decimal"))) ∧
    convertConstant (.float "0.1") = 1 / 10 ∧
    (∀ n : ℤ, convertConstant (.int n) = (n : ℚ)) ∧
    (∀ b, convertConstant (.bool b) = if b then 1 else 0) ∧
    (∀ v : ℚ, convertConstant (.dec v) = v) := by
  refine ⟨fun src src' names consts => rfl, ?_, ?_, ?_, ?_,
    fun n => rfl, fun b => rfl, fun v => rfl⟩
  · intro src names consts n h
    rw [compileValidate, h]
  · intro src names consts name r hnone hmem
    obtain ⟨msg, hmsg⟩ := convertConstants_error_of_other hmem
    exact ⟨msg, by rw [compileValidate, hnone, hmsg]⟩
  · intro src names name r rest hnone
    rw [compileValidate, hnone]
    rfl
  · have h0 : convertConstant (.float "0.1")
        = (parseNumber "0.1").getD 0 := rfl
    rw [h0, show parseNumber "0.1"
        = some (numberFromMatch [0] (some [1]) none) from by
      rw [parseNumber, show matchDecimalToken "0.1"
          = some ([0], some [1], none) from by decide]
      rfl]
    rw [Option.getD_some, numberFromMatch_eq]
    norm_num [decStringVal, digitsVal, optSuffixShift]

/-- Witness for C10, with the messages of the repository's own tests. -/
theorem claim_C10_compile_validation_witness :
    compileValidate "@start:" ["scoops"] [("scoops", .int 1)]
      = .error (.valueError
          "\"scoops\" cannot be both a variable and a constant") ∧
    compileValidate "@start:" ["scoops"] [("WAFFLE", .other "None")]
      = .error (.valueError
          "the value of constant \"WAFFLE\" (None) is not an int, float, or Decimal") := by
  constructor
  · exact (claim_C10_compile_validation.2.1 "@start:" ["scoops"]
      [("scoops", .int 1)] "scoops" (by decide))
  · exact (claim_C10_compile_validation.2.2.2.1 "@start:" ["scoops"]
      "WAFFLE" "None" [] (by decide))

/-! ## The AST level: actions, states, and declared-variable inlining
(claim C6)

`Assignment` and `Branch` line-number fields, and `State` labels' line
numbers, only feed diagnostics and the source map and are dropped. -/

/-- `Assignment(target, value)`. -/
structure Assignment where
  target : String
  value : Node
  deriving Repr

/-- `Branch(condition, destination)`; `condition` is `None` for an
unconditional branch. -/
structure Branch where
  condition : Option Node
  destination : String
  deriving Repr

/-- A state body action: an assignment or a branch. -/
inductive Action where
  | assignment (a : Assignment)
  | branch (b : Branch)
  deriving Repr

/-- `State(label, actions)`. -/
structure StateNode where
  label : String
  actions : List Action
  deriving Repr

/-- `AST(declared_variable_names, initializations, states)`.  The
declared-name set is modelled as a duplicate-free list. -/
structure AST where
  declaredVariableNames : List String
  initializations : List Assignment
  states : List StateNode
  deriving Repr

mutual

/-- `Node.rewrite(fn)`: bottom-up map, applying `fn` to every rebuilt
node. -/
def Node.rewrite (fn : Node → Node) : Node → Node
  | .var name => fn (.var name)
  | .lit v => fn (.lit v)
  | .randomValue => fn .randomValue
  | .unOp op o => fn (.unOp op (Node.rewrite fn o))
  | .logicalOp op preds => fn (.logicalOp op (Node.rewriteList fn preds))
  | .binOp l op r => fn (.binOp (Node.rewrite fn l) op (Node.rewrite fn r))
  | .terOp q y n =>
    fn (.terOp (Node.rewrite fn q) (Node.rewrite fn y) (Node.rewrite fn n))
  | .rangeMembership o lo hi li hi' =>
    fn (.rangeMembership (Node.rewrite fn o) (Node.rewrite fn lo)
      (Node.rewrite fn hi) li hi')
  | .setMembership o ms =>
    fn (.setMembership (Node.rewrite fn o) (Node.rewriteList fn ms))
  | .functionCall f ps => fn (.functionCall f (Node.rewriteList fn ps))

/-- `rewrite` mapped over child lists. -/
def Node.rewriteList (fn : Node → Node) : List Node → List Node
  | [] => []
  | p :: rest => Node.rewrite fn p :: Node.rewriteList fn rest

end

/-- `Assignment.rewrite(fn)` rewrites the value (the target name is a
plain string, untouched). -/
def Assignment.rewrite (fn : Node → Node) (a : Assignment) : Assignment :=
  { a with value := a.value.rewrite fn }

/-- `Branch.rewrite(fn)` returns the branch unchanged when the condition
is `None`. -/
def Branch.rewrite (fn : Node → Node) (b : Branch) : Branch :=
  match b.condition with
  | some c => { b with condition := some (c.rewrite fn) }
  | none => b

/-- Action-level rewrite.  (In the source, `fn` is additionally applied
to the rewritten `Assignment`/`Branch` object itself; for the
variable-replacement `fn` of C6 that application is the identity on
non-`Variable` objects and is omitted here.) -/
def Action.rewrite (fn : Node → Node) : Action → Action
  | .assignment a => .assignment (a.rewrite fn)
  | .branch b => .branch (b.rewrite fn)

/-- `State.rewrite(fn)` (no action rewrites to `None` under the C6
`fn`). -/
def StateNode.rewrite (fn : Node → Node) (st : StateNode) : StateNode :=
  { st with actions := st.actions.map (Action.rewrite fn) }

/-- `replace_variable` from `convert_declared_variables_to_literals`. -/
def replaceVariable (target : String) (value : Node) : Node → Node :=
  fun node =>
    match node with
    | .var name => if name = target then value else .var name
    | n => n

/-- `{assignment.target for state in ast.states for assignment in
state.assignments}` (as a list; only membership is used). -/
def assignmentTargets (states : List StateNode) : List String :=
  states.flatMap fun st =>
    st.actions.filterMap fun a =>
      match a with
      | .assignment asg => some asg.target
      | .branch _ => none

/-- The index loop of `convert_declared_variables_to_literals`: walk the
initializations in order; when one has a literal value and its target is
never assigned in a state, substitute the literal into all later
initializations and all states, drop it and remove its declaration;
otherwise keep it. -/
def convertLoop (targets : List String) (inits : List Assignment)
    (states : List StateNode) (decls : List String) :
    List Assignment × List StateNode × List String :=
  match inits with
  | [] => ([], states, decls)
  | init :: rest =>
    if (litValue? init.value).isSome ∧ init.target ∉ targets then
      convertLoop targets
        (rest.map (Assignment.rewrite (replaceVariable init.target init.value)))
        (states.map (StateNode.rewrite (replaceVariable init.target init.value)))
        (decls.erase init.target)
    else
      let r := convertLoop targets rest states decls
      (init :: r.1, r.2.1, r.2.2)
termination_by inits.length
decreasing_by
  · simp
  · simp

/-- `AST.optimize.convert_declared_variables_to_literals` (the
`assignment_targets` set is computed once, from the incoming states). -/
def convertDeclaredVariablesToLiterals (ast : AST) : AST :=
  let r := convertLoop (assignmentTargets ast.states) ast.initializations
    ast.states ast.declaredVariableNames
  { declaredVariableNames := r.2.2, initializations := r.1, states := r.2.1 }

mutual

/-- Does variable `x` occur in the expression? -/
def occursIn (x : String) : Node → Bool
  | .var name => name = x
  | .lit _ => false
  | .randomValue => false
  | .unOp _ o => occursIn x o
  | .logicalOp _ preds => occursInList x preds
  | .binOp l _ r => occursIn x l || occursIn x r
  | .terOp q y n => occursIn x q || occursIn x y || occursIn x n
  | .rangeMembership o lo hi _ _ =>
    occursIn x o || occursIn x lo || occursIn x hi
  | .setMembership o ms => occursIn x o || occursInList x ms
  | .functionCall _ ps => occursInList x ps

/-- `occursIn` over child lists. -/
def occursInList (x : String) : List Node → Bool
  | [] => false
  | p :: rest => occursIn x p || occursInList x rest

end

/-- Does variable `x` occur in an action's expression? -/
def occursInAction (x : String) : Action → Bool
  | .assignment a => occursIn x a.value
  | .branch b =>
    match b.condition with
    | some c => occursIn x c
    | none => false

/-- Does variable `x` occur anywhere in a state body? -/
def occursInState (x : String) (st : StateNode) : Bool :=
  st.actions.any (occursInAction x)

/-- Does variable `x` occur anywhere in a list of states? -/
def occursInStates (x : String) (states : List StateNode) : Bool :=
  states.any (occursInState x)

/-- Does variable `x` occur in any initialization value? -/
def occursInInits (x : String) (inits : List Assignment) : Bool :=
  inits.any fun a => occursIn x a.value

/-- Is the node a `Literal` or a `Variable` (the only constructors a
variable substitution can turn into a `Literal`)? -/
def isLitOrVar : Node → Bool
  | .lit _ => true
  | .var _ => true
  | _ => false

/-! ### Substitution lemmas for C6 -/

theorem litValue?_eq_some {n : Node} {w : ℚ} (h : litValue? n = some w) :
    n = .lit w := by
  cases n <;> simp [litValue?] at h
  rw [h]

theorem isLitOrVar_of_isSome {n : Node} (h : (litValue? n).isSome) :
    isLitOrVar n = true := by
  cases n <;> simp [litValue?, isLitOrVar] at h ⊢

theorem occursIn_of_litValue?_isSome {x : String} {n : Node}
    (h : (litValue? n).isSome) : occursIn x n = false := by
  cases n
  case lit => simp [occursIn]
  all_goals simp [litValue?] at h

mutual

theorem occursIn_rewrite_replace (x y : String) (v : Node)
    (hv : occursIn x v = false) :
    ∀ n, occursIn x (Node.rewrite (replaceVariable y v) n)
      = if x = y then false else occursIn x n
  | .var name => by
    rw [Node.rewrite]
    show occursIn x (if name = y then v else .var name) = _
    by_cases hny : name = y
    · rw [if_pos hny, hv]
      by_cases hxy : x = y
      · rw [if_pos hxy]
      · rw [if_neg hxy]
        have : ¬ name = x := fun h => hxy (h ▸ hny ▸ rfl)
        simp [occursIn, this]
    · rw [if_neg hny]
      by_cases hxy : x = y
      · rw [if_pos hxy]
        have : ¬ name = x := fun h => hny (h.trans hxy)
        simp [occursIn, this]
      · rw [if_neg hxy]
  | .lit w => by simp [Node.rewrite, replaceVariable, occursIn]
  | .randomValue => by simp [Node.rewrite, replaceVariable, occursIn]
  | .unOp op o => by
    rw [Node.rewrite]
    show occursIn x (Node.unOp op (Node.rewrite (replaceVariable y v) o)) = _
    rw [occursIn, occursIn_rewrite_replace x y v hv o]
    by_cases hxy : x = y <;> simp [occursIn, hxy]
  | .logicalOp op preds => by
    rw [Node.rewrite]
    show occursIn x
      (Node.logicalOp op (Node.rewriteList (replaceVariable y v) preds)) = _
    rw [occursIn, occursInList_rewrite_replace x y v hv preds]
    by_cases hxy : x = y <;> simp [occursIn, hxy]
  | .binOp l op r => by
    rw [Node.rewrite]
    show occursIn x (Node.binOp (Node.rewrite (replaceVariable y v) l) op
      (Node.rewrite (replaceVariable y v) r)) = _
    rw [occursIn, occursIn_rewrite_replace x y v hv l,
      occursIn_rewrite_replace x y v hv r]
    by_cases hxy : x = y <;> simp [occursIn, hxy]
  | .terOp q yy n => by
    rw [Node.rewrite]
    show occursIn x (Node.terOp (Node.rewrite (replaceVariable y v) q)
      (Node.rewrite (replaceVariable y v) yy)
      (Node.rewrite (replaceVariable y v) n)) = _
    rw [occursIn, occursIn_rewrite_replace x y v hv q,
      occursIn_rewrite_replace x y v hv yy,
      occursIn_rewrite_replace x y v hv n]
    by_cases hxy : x = y <;> simp [occursIn, hxy]
  | .rangeMembership o lo hi li hi' => by
    rw [Node.rewrite]
    show occursIn x
      (Node.rangeMembership (Node.rewrite (replaceVariable y v) o)
        (Node.rewrite (replaceVariable y v) lo)
        (Node.rewrite (replaceVariable y v) hi) li hi') = _
    rw [occursIn, occursIn_rewrite_replace x y v hv o,
      occursIn_rewrite_replace x y v hv lo,
      occursIn_rewrite_replace x y v hv hi]
    by_cases hxy : x = y <;> simp [occursIn, hxy]
  | .setMembership o ms => by
    rw [Node.rewrite]
    show occursIn x (Node.setMembership (Node.rewrite (replaceVariable y v) o)
      (Node.rewriteList (replaceVariable y v) ms)) = _
    rw [occursIn, occursIn_rewrite_replace x y v hv o,
      occursInList_rewrite_replace x y v hv ms]
    by_cases hxy : x = y <;> simp [occursIn, hxy]
  | .functionCall f ps => by
    rw [Node.rewrite]
    show occursIn x
      (Node.functionCall f (Node.rewriteList (replaceVariable y v) ps)) = _
    rw [occursIn, occursInList_rewrite_replace x y v hv ps]
    by_cases hxy : x = y <;> simp [occursIn, hxy]

theorem occursInList_rewrite_replace (x y : String) (v : Node)
    (hv : occursIn x v = false) :
    ∀ ps, occursInList x (Node.rewriteList (replaceVariable y v) ps)
      = if x = y then false else occursInList x ps
  | [] => by by_cases hxy : x = y <;> simp [Node.rewriteList, occursInList, hxy]
  | p :: rest => by
    rw [Node.rewriteList, occursInList, occursIn_rewrite_replace x y v hv p,
      occursInList_rewrite_replace x y v hv rest]
    by_cases hxy : x = y <;> simp [occursInList, hxy]

end

theorem occursInAction_rewrite_replace (x y : String) (v : Node)
    (hv : occursIn x v = false) (a : Action) :
    occursInAction x (Action.rewrite (replaceVariable y v) a)
      = if x = y then false else occursInAction x a := by
  cases a with
  | assignment asg =>
    rw [Action.rewrite, occursInAction, Assignment.rewrite]
    show occursIn x (asg.value.rewrite (replaceVariable y v)) = _
    rw [occursIn_rewrite_replace x y v hv asg.value]
    rfl
  | branch b =>
    rw [Action.rewrite, occursInAction, Branch.rewrite]
    cases hc : b.condition with
    | none =>
      rw [occursInAction, hc]
      by_cases hxy : x = y <;> simp [hxy]
    | some c =>
      rw [occursInAction, hc]
      show occursIn x (Node.rewrite (replaceVariable y v) c) = _
      rw [occursIn_rewrite_replace x y v hv c]

theorem occursInState_rewrite_replace (x y : String) (v : Node)
    (hv : occursIn x v = false) (st : StateNode) :
    occursInState x (StateNode.rewrite (replaceVariable y v) st)
      = if x = y then false else occursInState x st := by
  rw [StateNode.rewrite, occursInState]
  show (st.actions.map (Action.rewrite (replaceVariable y v))).any _ = _
  rw [List.any_map]
  by_cases hxy : x = y
  · subst hxy
    rw [if_pos rfl, List.any_eq_false]
    intro a _
    rw [Function.comp_apply, occursInAction_rewrite_replace x x v hv a,
      if_pos rfl]
    simp
  · rw [if_neg hxy, occursInState]
    have hfun : (occursInAction x ∘ Action.rewrite (replaceVariable y v))
        = occursInAction x := by
      funext a
      rw [Function.comp_apply, occursInAction_rewrite_replace x y v hv a,
        if_neg hxy]
    rw [hfun]

theorem occursInStates_rewrite_replace (x y : String) (v : Node)
    (hv : occursIn x v = false) (states : List StateNode) :
    occursInStates x (states.map (StateNode.rewrite (replaceVariable y v)))
      = if x = y then false else occursInStates x states := by
  rw [occursInStates, List.any_map]
  by_cases hxy : x = y
  · subst hxy
    rw [if_pos rfl, List.any_eq_false]
    intro st _
    rw [Function.comp_apply, occursInState_rewrite_replace x x v hv st,
      if_pos rfl]
    simp
  · rw [if_neg hxy, occursInStates]
    have hfun : (occursInState x ∘ StateNode.rewrite (replaceVariable y v))
        = occursInState x := by
      funext st
      rw [Function.comp_apply, occursInState_rewrite_replace x y v hv st,
        if_neg hxy]
    rw [hfun]

theorem occursInInits_rewrite_replace (x y : String) (v : Node)
    (hv : occursIn x v = false) (inits : List Assignment) :
    occursInInits x (inits.map (Assignment.rewrite (replaceVariable y v)))
      = if x = y then false else occursInInits x inits := by
  rw [occursInInits, List.any_map]
  by_cases hxy : x = y
  · subst hxy
    rw [if_pos rfl, List.any_eq_false]
    intro a _
    simp only [Function.comp_apply, Assignment.rewrite]
    rw [occursIn_rewrite_replace x x v hv a.value, if_pos rfl]
    simp
  · rw [if_neg hxy, occursInInits]
    have hfun : ((fun a : Assignment => occursIn x a.value)
          ∘ Assignment.rewrite (replaceVariable y v))
        = fun a : Assignment => occursIn x a.value := by
      funext a
      simp only [Function.comp_apply, Assignment.rewrite]
      rw [occursIn_rewrite_replace x y v hv a.value, if_neg hxy]
    rw [hfun]

theorem isLitOrVar_rewrite_replace (y : String) (v : Node) {n : Node}
    (h : isLitOrVar n = false) :
    isLitOrVar (Node.rewrite (replaceVariable y v) n) = false := by
  cases n <;> simp [isLitOrVar] at h ⊢ <;>
    simp [Node.rewrite, replaceVariable, isLitOrVar]

theorem litValue?_isSome_rewrite_replace (y : String) (v : Node) {n : Node}
    (h : (litValue? n).isSome) :
    (litValue? (Node.rewrite (replaceVariable y v) n)).isSome := by
  cases n
  case lit => simp [Node.rewrite, replaceVariable, litValue?]
  all_goals simp [litValue?] at h

theorem Assignment.rewrite_target (fn : Node → Node) (a : Assignment) :
    (a.rewrite fn).target = a.target := rfl

/-! ### The inlining loop: invariant lemmas -/

theorem convertLoop_preserves_absent (targets : List String) (x : String) :
    ∀ (inits : List Assignment) (states : List StateNode)
      (decls : List String),
      occursInStates x states = false →
      occursInInits x inits = false →
      x ∉ decls →
      (∀ a ∈ inits, a.target ≠ x) →
      occursInStates x (convertLoop targets inits states decls).2.1 = false ∧
      occursInInits x (convertLoop targets inits states decls).1 = false ∧
      x ∉ (convertLoop targets inits states decls).2.2 ∧
      (∀ a ∈ (convertLoop targets inits states decls).1, a.target ≠ x)
  | [], states, decls => by
    intro hst _ hd _
    rw [convertLoop]
    exact ⟨hst, rfl, hd, by intro a ha; cases ha⟩
  | init :: rest, states, decls => by
    intro hst hin hd ht
    rw [convertLoop]
    have hin0 : occursIn x init.value = false := by
      rw [occursInInits, List.any_cons] at hin
      exact (Bool.or_eq_false_iff.mp hin).1
    have hinrest : occursInInits x rest = false := by
      rw [occursInInits, List.any_cons] at hin
      exact (Bool.or_eq_false_iff.mp hin).2
    by_cases hc : (litValue? init.value).isSome ∧ init.target ∉ targets
    · rw [if_pos hc]
      have hvfree : occursIn x init.value = false :=
        occursIn_of_litValue?_isSome hc.1
      have hxt : x ≠ init.target := fun h =>
        ht init (List.mem_cons_self _ _) h.symm
      refine convertLoop_preserves_absent targets x _ _ _ ?_ ?_ ?_ ?_
      · rw [occursInStates_rewrite_replace x init.target init.value hvfree,
          if_neg hxt, hst]
      · rw [occursInInits_rewrite_replace x init.target init.value hvfree,
          if_neg hxt, hinrest]
      · intro hmem
        exact hd (List.mem_of_mem_erase hmem)
      · intro a hmem
        obtain ⟨a₀, ha₀, rfl⟩ := List.mem_map.mp hmem
        rw [Assignment.rewrite_target]
        exact ht a₀ (List.mem_cons_of_mem _ ha₀)
    · rw [if_neg hc]
      have ih := convertLoop_preserves_absent targets x rest states decls
        hst hinrest hd (fun a ha => ht a (List.mem_cons_of_mem _ ha))
      refine ⟨ih.1, ?_, ih.2.2.1, ?_⟩
      · rw [occursInInits, List.any_cons, hin0, Bool.false_or]
        exact ih.2.1
      · intro a hmem
        rcases List.mem_cons.mp hmem with rfl | hmem'
        · exact ht a (List.mem_cons_self _ _)
        · exact ih.2.2.2 a hmem'
termination_by inits => inits.length
decreasing_by
  · simp
  · simp

theorem convertLoop_inline_removes (targets : List String) (x : String) :
    ∀ (pre : List Assignment) (init : Assignment) (post : List Assignment)
      (states : List StateNode) (decls : List String),
      init.target = x →
      (litValue? init.value).isSome →
      x ∉ targets →
      (∀ a ∈ pre, a.target ≠ x) →
      (∀ a ∈ post, a.target ≠ x) →
      (∀ a ∈ pre, occursIn x a.value = false) →
      decls.Nodup →
      occursInStates x
        (convertLoop targets (pre ++ init :: post) states decls).2.1
          = false ∧
      occursInInits x
        (convertLoop targets (pre ++ init :: post) states decls).1 = false ∧
      x ∉ (convertLoop targets (pre ++ init :: post) states decls).2.2 ∧
      (∀ a ∈ (convertLoop targets (pre ++ init :: post) states decls).1,
        a.target ≠ x)
  | [], init, post, states, decls => by
    intro htx hlit hxt _ hpost _ hnodup
    rw [List.nil_append, convertLoop, if_pos ⟨hlit, htx ▸ hxt⟩]
    have hvfree : occursIn x init.value = false :=
      occursIn_of_litValue?_isSome hlit
    refine convertLoop_preserves_absent targets x _ _ _ ?_ ?_ ?_ ?_
    · rw [occursInStates_rewrite_replace x init.target init.value hvfree,
        htx, if_pos rfl]
    · rw [occursInInits_rewrite_replace x init.target init.value hvfree,
        htx, if_pos rfl]
    · rw [htx]
      exact hnodup.not_mem_erase
    · intro a hmem
      obtain ⟨a₀, ha₀, rfl⟩ := List.mem_map.mp hmem
      rw [Assignment.rewrite_target]
      exact hpost a₀ ha₀
  | a :: pre, init, post, states, decls => by
    intro htx hlit hxt hpre hpost hpreo hnodup
    rw [List.cons_append, convertLoop]
    by_cases hc : (litValue? a.value).isSome ∧ a.target ∉ targets
    · rw [if_pos hc]
      have hafree : occursIn x a.value = false :=
        occursIn_of_litValue?_isSome hc.1
      have hmap : (pre ++ init :: post).map
          (Assignment.rewrite (replaceVariable a.target a.value))
          = pre.map (Assignment.rewrite (replaceVariable a.target a.value))
            ++ (init.rewrite (replaceVariable a.target a.value))
              :: post.map
                (Assignment.rewrite (replaceVariable a.target a.value)) := by
        rw [List.map_append, List.map_cons]
      rw [hmap]
      have hat : a.target ≠ x := hpre a (List.mem_cons_self _ _)
      have hxat : x ≠ a.target := fun h => hat h.symm
      refine convertLoop_inline_removes targets x _ _ _ _ _ ?_ ?_ hxt ?_ ?_ ?_ ?_
      · rw [Assignment.rewrite_target]; exact htx
      · exact litValue?_isSome_rewrite_replace a.target a.value hlit
      · intro b hmem
        obtain ⟨b₀, hb₀, rfl⟩ := List.mem_map.mp hmem
        rw [Assignment.rewrite_target]
        exact hpre b₀ (List.mem_cons_of_mem _ hb₀)
      · intro b hmem
        obtain ⟨b₀, hb₀, rfl⟩ := List.mem_map.mp hmem
        rw [Assignment.rewrite_target]
        exact hpost b₀ hb₀
      · intro b hmem
        obtain ⟨b₀, hb₀, rfl⟩ := List.mem_map.mp hmem
        show occursIn x (Node.rewrite (replaceVariable a.target a.value)
          b₀.value) = false
        rw [occursIn_rewrite_replace x a.target a.value hafree b₀.value,
          if_neg hxat]
        exact hpreo b₀ (List.mem_cons_of_mem _ hb₀)
      · exact hnodup.erase _
    · rw [if_neg hc]
      have ih := convertLoop_inline_removes targets x pre init post states
        decls htx hlit hxt (fun b hb => hpre b (List.mem_cons_of_mem _ hb))
        hpost (fun b hb => hpreo b (List.mem_cons_of_mem _ hb)) hnodup
      refine ⟨ih.1, ?_, ih.2.2.1, ?_⟩
      · rw [occursInInits, List.any_cons,
          hpreo a (List.mem_cons_self _ _), Bool.false_or]
        exact ih.2.1
      · intro b hmem
        rcases List.mem_cons.mp hmem with rfl | hmem'
        · exact hpre b (List.mem_cons_self _ _)
        · exact ih.2.2.2 b hmem'
termination_by pre => pre.length
decreasing_by
  · simp
  · simp

theorem convertLoop_decls_mem (targets : List String) (x : String)
    (hx : x ∈ targets) :
    ∀ (inits : List Assignment) (states : List StateNode)
      (decls : List String), x ∈ decls →
      x ∈ (convertLoop targets inits states decls).2.2
  | [], states, decls => by
    intro hd
    rw [convertLoop]
    exact hd
  | init :: rest, states, decls => by
    intro hd
    rw [convertLoop]
    by_cases hc : (litValue? init.value).isSome ∧ init.target ∉ targets
    · rw [if_pos hc]
      have hne : x ≠ init.target := fun h => hc.2 (h ▸ hx)
      exact convertLoop_decls_mem targets x hx _ _ _
        (List.mem_erase_of_ne hne |>.mpr hd)
    · rw [if_neg hc]
      exact convertLoop_decls_mem targets x hx rest states decls hd
termination_by inits => inits.length
decreasing_by
  · simp
  · simp

theorem convertLoop_keeps_target (targets : List String) (x : String)
    (hx : x ∈ targets) :
    ∀ (inits : List Assignment) (states : List StateNode)
      (decls : List String),
      (∃ a ∈ inits, a.target = x) →
      ∃ a ∈ (convertLoop targets inits states decls).1, a.target = x
  | [], states, decls => by
    rintro ⟨a, ha, _⟩
    cases ha
  | init :: rest, states, decls => by
    rintro ⟨a, ha, hat⟩
    rw [convertLoop]
    by_cases hc : (litValue? init.value).isSome ∧ init.target ∉ targets
    · rw [if_pos hc]
      have hne : a ≠ init := by
        rintro rfl
        exact hc.2 (hat ▸ hx)
      have hmem : a ∈ rest := (List.mem_cons.mp ha).resolve_left hne
      exact convertLoop_keeps_target targets x hx _ _ _
        ⟨a.rewrite (replaceVariable init.target init.value),
         List.mem_map_of_mem _ hmem, by rw [Assignment.rewrite_target, hat]⟩
    · rw [if_neg hc]
      rcases List.mem_cons.mp ha with rfl | hmem
      · exact ⟨a, List.mem_cons_self _ _, hat⟩
      · obtain ⟨b, hb, hbt⟩ :=
          convertLoop_keeps_target targets x hx rest states decls
            ⟨a, hmem, hat⟩
        exact ⟨b, List.mem_cons_of_mem _ hb, hbt⟩
termination_by inits => inits.length
decreasing_by
  · simp
  · simp

theorem convertLoop_keeps_nonliteral (targets : List String) (x : String) :
    ∀ (inits : List Assignment) (states : List StateNode)
      (decls : List String),
      (∃ a ∈ inits, a.target = x ∧ isLitOrVar a.value = false) →
      ∃ a ∈ (convertLoop targets inits states decls).1,
        a.target = x ∧ isLitOrVar a.value = false
  | [], states, decls => by
    rintro ⟨a, ha, _⟩
    cases ha
  | init :: rest, states, decls => by
    rintro ⟨a, ha, hat, hal⟩
    rw [convertLoop]
    by_cases hc : (litValue? init.value).isSome ∧ init.target ∉ targets
    · rw [if_pos hc]
      have hne : a ≠ init := by
        rintro rfl
        rw [isLitOrVar_of_isSome hc.1] at hal
        cases hal
      have hmem : a ∈ rest := (List.mem_cons.mp ha).resolve_left hne
      exact convertLoop_keeps_nonliteral targets x _ _ _
        ⟨a.rewrite (replaceVariable init.target init.value),
         List.mem_map_of_mem _ hmem,
         by rw [Assignment.rewrite_target]; exact hat,
         isLitOrVar_rewrite_replace init.target init.value hal⟩
    · rw [if_neg hc]
      rcases List.mem_cons.mp ha with rfl | hmem
      · exact ⟨a, List.mem_cons_self _ _, hat, hal⟩
      · obtain ⟨b, hb, hbt, hbl⟩ :=
          convertLoop_keeps_nonliteral targets x rest states decls
            ⟨a, hmem, hat, hal⟩
        exact ⟨b, List.mem_cons_of_mem _ hb, hbt, hbl⟩
termination_by inits => inits.length
decreasing_by
  · simp
  · simp

/-- **C6**: an initialization whose value is a literal and whose target is
never assigned in any state is inlined — the literal is substituted for
every occurrence of the variable in later initializations and all state
bodies, and the declaration and initialization are removed; a declared
variable that is reassigned in some state, or whose initializer is not
(yet) a literal, is not inlined. -/
theorem claim_C6_declared_variable_inlining (ast : AST) (x : String) :
    (∀ pre init post, ast.initializations = pre ++ init :: post →
      init.target = x →
      (litValue? init.value).isSome →
      x ∉ assignmentTargets ast.states →
      (∀ a ∈ pre, a.target ≠ x) →
      (∀ a ∈ post, a.target ≠ x) →
      (∀ a ∈ pre, occursIn x a.value = false) →
      ast.declaredVariableNames.Nodup →
      (∀ a ∈ (convertDeclaredVariablesToLiterals ast).initializations,
        a.target ≠ x) ∧
      x ∉ (convertDeclaredVariablesToLiterals ast).declaredVariableNames ∧
      occursInStates x (convertDeclaredVariablesToLiterals ast).states
        = false ∧
      occursInInits x (convertDeclaredVariablesToLiterals ast).initializations
        = false) ∧
    (x ∈ assignmentTargets ast.states →
      ((∃ a ∈ ast.initializations, a.target = x) →
        ∃ a ∈ (convertDeclaredVariablesToLiterals ast).initializations,
          a.target = x) ∧
      (x ∈ ast.declaredVariableNames →
        x ∈ (convertDeclaredVariablesToLiterals ast).declaredVariableNames)) ∧
    ((∃ a ∈ ast.initializations, a.target = x ∧ isLitOrVar a.value = false) →
      ∃ a ∈ (convertDeclaredVariablesToLiterals ast).initializations,
        a.target = x ∧ isLitOrVar a.value = false) := by
  refine ⟨?_, ?_, ?_⟩
  · intro pre init post hsplit htx hlit hxt hpre hpost hpreo hnodup
    have h := convertLoop_inline_removes (assignmentTargets ast.states) x
      pre init post ast.states ast.declaredVariableNames htx hlit hxt hpre
      hpost hpreo hnodup
    rw [← hsplit] at h
    exact ⟨h.2.2.2, h.2.2.1, h.1, h.2.1⟩
  · intro hx
    constructor
    · exact convertLoop_keeps_target (assignmentTargets ast.states) x hx
        ast.initializations ast.states ast.declaredVariableNames
    · exact convertLoop_decls_mem (assignmentTargets ast.states) x hx
        ast.initializations ast.states ast.declaredVariableNames
  · exact convertLoop_keeps_nonliteral (assignmentTargets ast.states) x
      ast.initializations ast.states ast.declaredVariableNames

/-- A concrete program for the C6 witness: `let t = 5` (inlinable),
`let u = t + random!` (not a literal), `let w = 3` (reassigned in state
`@s`). -/
def inlineExampleAst : AST :=
  { declaredVariableNames := ["t", "u", "w"],
    initializations :=
      [⟨"t", .lit 5⟩,
       ⟨"u", .binOp (.var "t") "+" .randomValue⟩,
       ⟨"w", .lit 3⟩],
    states :=
      [⟨"@s",
        [.assignment ⟨"w", .lit 9⟩,
         .assignment ⟨"price", .binOp (.var "t") "*" (.var "w")⟩,
         .branch ⟨none, "@end"⟩]⟩,
       ⟨"@end", []⟩] }

/-- Witness for C6: in the example, `t` is inlined away (no trace in the
output), while the reassigned `w` and the non-literal `u` are kept. -/
theorem claim_C6_declared_variable_inlining_witness :
    (∀ a ∈ (convertDeclaredVariablesToLiterals inlineExampleAst).initializations,
      a.target ≠ "t") ∧
    "t" ∉ (convertDeclaredVariablesToLiterals inlineExampleAst).declaredVariableNames ∧
    occursInStates "t"
      (convertDeclaredVariablesToLiterals inlineExampleAst).states = false ∧
    (∃ a ∈ (convertDeclaredVariablesToLiterals inlineExampleAst).initializations,
      a.target = "w") ∧
    "w" ∈ (convertDeclaredVariablesToLiterals inlineExampleAst).declaredVariableNames ∧
    (∃ a ∈ (convertDeclaredVariablesToLiterals inlineExampleAst).initializations,
      a.target = "u" ∧ isLitOrVar a.value = false) := by
  have ht := claim_C6_declared_variable_inlining inlineExampleAst "t"
  have hw := claim_C6_declared_variable_inlining inlineExampleAst "w"
  have hu := claim_C6_declared_variable_inlining inlineExampleAst "u"
  have hpos := ht.1 [] ⟨"t", .lit 5⟩
    [⟨"u", .binOp (.var "t") "+" .randomValue⟩, ⟨"w", .lit 3⟩]
    rfl rfl rfl (by decide) (by simp) (by decide) (by simp) (by decide)
  have hwkeep := hw.2.1 (by decide)
  refine ⟨hpos.1, hpos.2.1, hpos.2.2.1, ?_, hwkeep.2 (by decide), ?_⟩
  · exact hwkeep.1 ⟨⟨"w", .lit 3⟩,
      List.mem_cons_of_mem _ (List.mem_cons_of_mem _
        (List.mem_cons_self _ _)), rfl⟩
  · exact hu.2.2 ⟨⟨"u", .binOp (.var "t") "+" .randomValue⟩,
      List.mem_cons_of_mem _ (List.mem_cons_self _ _), rfl, rfl⟩

/-! ## Coverage reporting (`coverage.get_uncovered_lines`, claim C8) -/

/-- A non-null source-map entry: a single line number, or an inclusive
`(start, end)` range for a statement spanning line continuations. -/
inductive LineKey where
  | line (n : ℕ)
  | range (startLine endLine : ℕ)
  deriving DecidableEq, Repr

/-- The number of instructions the `zip` processes:
`zip((False,)*len(source_map), *coverage_tuples)` stops at the shortest
sequence. -/
def processedLength (sourceMap : List (Option LineKey))
    (coverageTuples : List (List Bool)) : ℕ :=
  coverageTuples.foldl (fun m t => min m t.length) sourceMap.length

/-- `any(covered)`: was instruction `i` hit in some run? -/
def instructionHit (coverageTuples : List (List Bool)) (i : ℕ) : Bool :=
  coverageTuples.any fun t => t.getD i false

/-- Overwrite the class stored for `key` (dictionary update). -/
def dictSet (d : List (LineKey × ℕ)) (key : LineKey) (v : ℕ) :
    List (LineKey × ℕ) :=
  d.map fun e => if e.1 = key then (e.1, v) else e

/-- One step of the `line_to_coverage_type` construction:

```
if line not in line_to_coverage_type:
    line_to_coverage_type[line] = 2 if hit else 0
elif (not hit and line_to_coverage_type[line] == 2) or
     (hit and line_to_coverage_type[line] == 0):
    line_to_coverage_type[line] = 1
```
-/
def updateLineDict (d : List (LineKey × ℕ)) (key : LineKey) (hit : Bool) :
    List (LineKey × ℕ) :=
  match d.lookup key with
  | none => d ++ [(key, if hit then 2 else 0)]
  | some cur =>
    if (hit = false ∧ cur = 2) ∨ (hit = true ∧ cur = 0) then
      dictSet d key 1
    else d

/-- The `line_to_coverage_type` insertion-ordered dictionary
(`0` = uncovered, `1` = partial, `2` = covered). -/
def lineToCoverageType (sourceMap : List (Option LineKey))
    (coverageTuples : List (List Bool)) : List (LineKey × ℕ) :=
  (List.range (processedLength sourceMap coverageTuples)).foldl
    (fun d i =>
      match sourceMap.getD i none with
      | some key => updateLineDict d key (instructionHit coverageTuples i)
      | none => d)
    []

/-- `range(line[0], line[1] + 1)` expansion of a dictionary key to source
lines. -/
def expandLineKey : LineKey → List ℕ
  | .line n => [n]
  | .range s e => List.range' s (e + 1 - s)

/-- `CoverageReport(partially_covered_line_numbers,
uncovered_line_numbers)`. -/
structure CoverageReport where
  partlyCoveredLineNumbers : List ℕ
  uncoveredLineNumbers : List ℕ
  deriving DecidableEq, Repr

/-- `get_uncovered_lines(source_map, coverage_tuples)`: totally-covered
entries (class 2) are skipped, class 0 goes to the uncovered list and any
other class to the partially-covered list; both lists are sorted. -/
def getUncoveredLines (sourceMap : List (Option LineKey))
    (coverageTuples : List (List Bool)) : CoverageReport :=
  let d := lineToCoverageType sourceMap coverageTuples
  CoverageReport.mk
    (((d.filter fun e => e.2 ≠ 2 ∧ e.2 ≠ 0).flatMap
        fun e => expandLineKey e.1).mergeSort (· ≤ ·))
    (((d.filter fun e => e.2 = 0).flatMap
        fun e => expandLineKey e.1).mergeSort (· ≤ ·))

/-! ### Characterizing the coverage dictionary -/

/-- The class transition a batch of instructions induces for one key:
`none` on no sighting, `2`/`0` on only-hit / only-unhit, `1` once both
kinds have been seen; classes other than `0`/`2` never change. -/
def dictTransition (c : Option ℕ) (hasHit hasUnhit : Bool) : Option ℕ :=
  match c with
  | none =>
    if hasHit && hasUnhit then some 1
    else if hasHit then some 2
    else if hasUnhit then some 0
    else none
  | some v =>
    if v = 2 ∧ hasUnhit = true then some 1
    else if v = 0 ∧ hasHit = true then some 1
    else some v

theorem dictTransition_id (c : Option ℕ) :
    dictTransition c false false = c := by
  cases c with
  | none => rfl
  | some v => simp [dictTransition]

theorem dictTransition_comp (c : Option ℕ) (h1 u1 h2 u2 : Bool) :
    dictTransition (dictTransition c h1 u1) h2 u2
      = dictTransition c (h1 || h2) (u1 || u2) := by
  cases c with
  | none =>
    cases h1 <;> cases u1 <;> cases h2 <;> cases u2 <;>
      simp [dictTransition]
  | some v =>
    by_cases hv2 : v = 2
    · subst hv2
      cases h1 <;> cases u1 <;> cases h2 <;> cases u2 <;>
        simp [dictTransition]
    · by_cases hv0 : v = 0
      · subst hv0
        cases h1 <;> cases u1 <;> cases h2 <;> cases u2 <;>
          simp [dictTransition]
      · cases h1 <;> cases u1 <;> cases h2 <;> cases u2 <;>
          simp [dictTransition, hv2, hv0]

theorem lookup_dictSet_self (d : List (LineKey × ℕ)) (k : LineKey) (v : ℕ)
    (h : (d.lookup k).isSome) : (dictSet d k v).lookup k = some v := by
  induction d with
  | nil => simp [List.lookup] at h
  | cons e es ih =>
    rw [dictSet, List.map_cons]
    by_cases he : e.1 = k
    · rw [if_pos he, he]
      simp [List.lookup]
    · rw [if_neg he]
      have hke : (k == e.1) = false := by
        simp [BEq.beq]
        exact fun hh => he hh.symm
      rw [List.lookup, hke]
      rw [List.lookup, hke] at h
      exact ih h

theorem lookup_dictSet_ne (d : List (LineKey × ℕ)) (k k' : LineKey) (v : ℕ)
    (hne : k' ≠ k) : (dictSet d k v).lookup k' = d.lookup k' := by
  induction d with
  | nil => rfl
  | cons e es ih =>
    rw [dictSet, List.map_cons]
    by_cases he : e.1 = k
    · rw [if_pos he]
      have hke : (k' == e.1) = false := by
        simp [BEq.beq]
        exact fun hh => hne (hh.trans he)
      rw [List.lookup, hke, List.lookup, hke]
      exact ih
    · rw [if_neg he]
      rw [List.lookup, List.lookup]
      cases hke : (k' == e.1) with
      | true => rfl
      | false => exact ih

theorem lookup_append_singleton (d : List (LineKey × ℕ)) (k₀ : LineKey)
    (v : ℕ) (k : LineKey) :
    (d ++ [(k₀, v)]).lookup k
      = match d.lookup k with
        | some w => some w
        | none => if k = k₀ then some v else none := by
  induction d with
  | nil =>
    simp only [List.nil_append, List.lookup]
    by_cases hk : k = k₀
    · subst hk
      simp [List.lookup]
    · have : (k == k₀) = false := by
        simp [BEq.beq]
        exact hk
      simp [List.lookup, this, hk]
  | cons e es ih =>
    rw [List.cons_append, List.lookup, List.lookup]
    cases hke : (k == e.1) with
    | true => rfl
    | false => exact ih

theorem lookup_updateLineDict_self (d : List (LineKey × ℕ)) (k : LineKey)
    (h : Bool) :
    (updateLineDict d k h).lookup k = dictTransition (d.lookup k) h (!h) := by
  rw [updateLineDict]
  cases hc : d.lookup k with
  | none =>
    rw [lookup_append_singleton, hc, if_pos rfl, dictTransition]
    cases h <;> simp
  | some cur =>
    rw [dictTransition]
    dsimp only
    by_cases hcond : (h = false ∧ cur = 2) ∨ (h = true ∧ cur = 0)
    · rw [if_pos hcond, lookup_dictSet_self d k 1 (by rw [hc]; rfl)]
      rcases hcond with ⟨rfl, rfl⟩ | ⟨rfl, rfl⟩ <;> simp
    · rw [if_neg hcond, hc]
      push_neg at hcond
      cases h with
      | false =>
        have : cur ≠ 2 := hcond.1 rfl
        simp [this]
      | true =>
        have : cur ≠ 0 := hcond.2 rfl
        simp [this]

theorem lookup_updateLineDict_ne (d : List (LineKey × ℕ)) (k k' : LineKey)
    (h : Bool) (hne : k' ≠ k) :
    (updateLineDict d k h).lookup k' = d.lookup k' := by
  rw [updateLineDict]
  cases hc : d.lookup k with
  | none =>
    rw [lookup_append_singleton]
    cases hl : d.lookup k' with
    | some w => rfl
    | none => simp [hne]
  | some cur =>
    dsimp only
    by_cases hcond : (h = false ∧ cur = 2) ∨ (h = true ∧ cur = 0)
    · rw [if_pos hcond]
      exact lookup_dictSet_ne d k k' 1 hne
    · rw [if_neg hcond]

/-- Did any processed instruction in `is` carrying key `k` get hit? -/
def keyHitIn (sm : List (Option LineKey)) (cov : List (List Bool))
    (is : List ℕ) (k : LineKey) : Bool :=
  is.any fun i => decide (sm.getD i none = some k) && instructionHit cov i

/-- Did any processed instruction in `is` carrying key `k` stay unhit? -/
def keyUnhitIn (sm : List (Option LineKey)) (cov : List (List Bool))
    (is : List ℕ) (k : LineKey) : Bool :=
  is.any fun i => decide (sm.getD i none = some k) && !instructionHit cov i

theorem foldDict_lookup (sm : List (Option LineKey))
    (cov : List (List Bool)) :
    ∀ (is : List ℕ) (d : List (LineKey × ℕ)) (k : LineKey),
      (is.foldl (fun d i =>
        match sm.getD i none with
        | some key => updateLineDict d key (instructionHit cov i)
        | none => d) d).lookup k
      = dictTransition (d.lookup k) (keyHitIn sm cov is k)
          (keyUnhitIn sm cov is k)
  | [], d, k => by
    rw [List.foldl_nil, keyHitIn, keyUnhitIn, List.any_nil, List.any_nil,
      dictTransition_id]
  | i :: is, d, k => by
    rw [List.foldl_cons, foldDict_lookup sm cov is _ k]
    rw [keyHitIn, keyHitIn, keyUnhitIn, keyUnhitIn,
      List.any_cons, List.any_cons]
    cases hsm : sm.getD i none with
    | none =>
      dsimp only
      rw [show (decide (Option.none = some k)) = false by simp]
      rw [Bool.false_and, Bool.false_or, Bool.false_and, Bool.false_or]
    | some key =>
      dsimp only
      by_cases hk : key = k
      · subst hk
        rw [show (decide (some key = some key)) = true by simp]
        rw [Bool.true_and, Bool.true_and,
          lookup_updateLineDict_self d key (instructionHit cov i),
          dictTransition_comp]
      · rw [show (decide (some key = some k)) = false by simp [hk]]
        rw [Bool.false_and, Bool.false_or, Bool.false_and, Bool.false_or,
          lookup_updateLineDict_ne d key k _ (fun h => hk h.symm)]

theorem lineToCoverageType_lookup (sm : List (Option LineKey))
    (cov : List (List Bool)) (k : LineKey) :
    (lineToCoverageType sm cov).lookup k
      = dictTransition none
          (keyHitIn sm cov (List.range (processedLength sm cov)) k)
          (keyUnhitIn sm cov (List.range (processedLength sm cov)) k) := by
  rw [lineToCoverageType, foldDict_lookup]
  rfl

theorem dictSet_map_fst (d : List (LineKey × ℕ)) (k : LineKey) (v : ℕ) :
    (dictSet d k v).map Prod.fst = d.map Prod.fst := by
  rw [dictSet, List.map_map]
  apply List.map_congr_left
  intro e _
  by_cases he : e.1 = k <;> simp [he]

theorem lookup_eq_none_not_mem_fst {d : List (LineKey × ℕ)} {k : LineKey}
    (h : d.lookup k = none) : k ∉ d.map Prod.fst := by
  induction d with
  | nil => simp
  | cons e es ih =>
    rw [List.lookup] at h
    cases hke : (k == e.1) with
    | true => rw [hke] at h; cases h
    | false =>
      rw [hke] at h
      rw [List.map_cons, List.mem_cons]
      rintro (rfl | hmem)
      · simp at hke
      · exact ih h hmem

theorem updateLineDict_keys_nodup {d : List (LineKey × ℕ)} (k : LineKey)
    (h : Bool) (hnd : (d.map Prod.fst).Nodup) :
    ((updateLineDict d k h).map Prod.fst).Nodup := by
  rw [updateLineDict]
  cases hc : d.lookup k with
  | none =>
    rw [List.map_append]
    rw [List.nodup_append]
    refine ⟨hnd, List.nodup_singleton _, ?_⟩
    intro a ha hb
    simp at hb
    subst hb
    exact lookup_eq_none_not_mem_fst hc ha
  | some cur =>
    dsimp only
    by_cases hcond : (h = false ∧ cur = 2) ∨ (h = true ∧ cur = 0)
    · rw [if_pos hcond, dictSet_map_fst]
      exact hnd
    · rw [if_neg hcond]
      exact hnd

theorem lineToCoverageType_keys_nodup (sm : List (Option LineKey))
    (cov : List (List Bool)) :
    ((lineToCoverageType sm cov).map Prod.fst).Nodup := by
  rw [lineToCoverageType]
  generalize List.range (processedLength sm cov) = is
  have : ∀ (is : List ℕ) (d : List (LineKey × ℕ)),
      (d.map Prod.fst).Nodup →
      ((is.foldl (fun d i =>
        match sm.getD i none with
        | some key => updateLineDict d key (instructionHit cov i)
        | none => d) d).map Prod.fst).Nodup := by
    intro is
    induction is with
    | nil => intro d hd; exact hd
    | cons i is ih =>
      intro d hd
      rw [List.foldl_cons]
      apply ih
      cases hsm : sm.getD i none with
      | none => exact hd
      | some key => exact updateLineDict_keys_nodup key _ hd
  exact this is [] (by simp)

theorem mem_iff_lookup {d : List (LineKey × ℕ)}
    (hnd : (d.map Prod.fst).Nodup) (k : LineKey) (c : ℕ) :
    (k, c) ∈ d ↔ d.lookup k = some c := by
  induction d with
  | nil => simp [List.lookup]
  | cons e es ih =>
    rw [List.map_cons, List.nodup_cons] at hnd
    obtain ⟨hnotmem, hndes⟩ := hnd
    rw [List.mem_cons, List.lookup]
    by_cases hk : k = e.1
    · rw [show (k == e.1) = true by simp [hk]]
      constructor
      · rintro (heq | hmem)
        · rw [← heq]
        · exfalso
          apply hnotmem
          rw [← hk]
          exact List.mem_map_of_mem Prod.fst hmem
      · intro hsome
        have hc2 : e.2 = c := Option.some.inj hsome
        left
        rw [hk, ← hc2]
    · rw [show (k == e.1) = false by simp [hk]]
      rw [← ih hndes]
      constructor
      · rintro (heq | hmem)
        · exact absurd (congrArg Prod.fst heq) hk
        · exact hmem
      · exact Or.inr

theorem processedLength_of_lengths (sm : List (Option LineKey))
    (cov : List (List Bool)) (hlen : ∀ t ∈ cov, t.length = sm.length) :
    processedLength sm cov = sm.length := by
  rw [processedLength]
  induction cov with
  | nil => rfl
  | cons t ts ih =>
    rw [List.foldl_cons, hlen t (List.mem_cons_self _ _), min_self]
    exact ih fun u hu => hlen u (List.mem_cons_of_mem _ hu)

theorem keyHitIn_range (sm : List (Option LineKey)) (cov : List (List Bool))
    (m : ℕ) (k : LineKey) :
    keyHitIn sm cov (List.range m) k = true
      ↔ ∃ i, i < m ∧ sm.getD i none = some k
          ∧ instructionHit cov i = true := by
  rw [keyHitIn, List.any_eq_true]
  constructor
  · rintro ⟨i, hmem, hb⟩
    rw [Bool.and_eq_true, decide_eq_true_eq] at hb
    exact ⟨i, List.mem_range.mp hmem, hb.1, hb.2⟩
  · rintro ⟨i, him, h1, h2⟩
    refine ⟨i, List.mem_range.mpr him, ?_⟩
    rw [Bool.and_eq_true, decide_eq_true_eq]
    exact ⟨h1, h2⟩

theorem keyUnhitIn_range (sm : List (Option LineKey))
    (cov : List (List Bool)) (m : ℕ) (k : LineKey) :
    keyUnhitIn sm cov (List.range m) k = true
      ↔ ∃ i, i < m ∧ sm.getD i none = some k
          ∧ instructionHit cov i = false := by
  rw [keyUnhitIn, List.any_eq_true]
  constructor
  · rintro ⟨i, hmem, hb⟩
    rw [Bool.and_eq_true, decide_eq_true_eq, Bool.not_eq_true'] at hb
    exact ⟨i, List.mem_range.mp hmem, hb.1, hb.2⟩
  · rintro ⟨i, him, h1, h2⟩
    refine ⟨i, List.mem_range.mpr him, ?_⟩
    rw [Bool.and_eq_true, decide_eq_true_eq, Bool.not_eq_true']
    exact ⟨h1, h2⟩

theorem mem_uncovered_iff (sm : List (Option LineKey))
    (cov : List (List Bool)) (l : ℕ) :
    l ∈ (getUncoveredLines sm cov).uncoveredLineNumbers
      ↔ ∃ k, (lineToCoverageType sm cov).lookup k = some 0
          ∧ l ∈ expandLineKey k := by
  rw [getUncoveredLines]
  dsimp only
  rw [List.mem_mergeSort, List.mem_flatMap]
  constructor
  · rintro ⟨e, he, hl⟩
    rw [List.mem_filter, decide_eq_true_eq] at he
    refine ⟨e.1, ?_, hl⟩
    rw [← he.2]
    exact (mem_iff_lookup (lineToCoverageType_keys_nodup sm cov)
      e.1 e.2).mp (by rw [Prod.mk.eta]; exact he.1)
  · rintro ⟨k, hlk, hl⟩
    refine ⟨(k, 0), List.mem_filter.mpr
      ⟨(mem_iff_lookup (lineToCoverageType_keys_nodup sm cov) k 0).mpr hlk,
       by simp⟩, hl⟩

theorem mem_partly_iff (sm : List (Option LineKey))
    (cov : List (List Bool)) (l : ℕ) :
    l ∈ (getUncoveredLines sm cov).partlyCoveredLineNumbers
      ↔ ∃ k c, (lineToCoverageType sm cov).lookup k = some c
          ∧ c ≠ 2 ∧ c ≠ 0 ∧ l ∈ expandLineKey k := by
  rw [getUncoveredLines]
  dsimp only
  rw [List.mem_mergeSort, List.mem_flatMap]
  constructor
  · rintro ⟨e, he, hl⟩
    rw [List.mem_filter, decide_eq_true_eq] at he
    refine ⟨e.1, e.2, ?_, he.2.1, he.2.2, hl⟩
    exact (mem_iff_lookup (lineToCoverageType_keys_nodup sm cov)
      e.1 e.2).mp (by rw [Prod.mk.eta]; exact he.1)
  · rintro ⟨k, c, hlk, hc2, hc0, hl⟩
    refine ⟨(k, c), List.mem_filter.mpr
      ⟨(mem_iff_lookup (lineToCoverageType_keys_nodup sm cov) k c).mpr hlk,
       by simp [hc2, hc0]⟩, hl⟩

theorem dictTransition_none_eq_zero (h u : Bool) :
    dictTransition none h u = some 0 ↔ h = false ∧ u = true := by
  cases h <;> cases u <;> simp [dictTransition]

theorem dictTransition_none_mid (h u : Bool) :
    (∃ c, dictTransition none h u = some c ∧ c ≠ 2 ∧ c ≠ 0)
      ↔ h = true ∧ u = true := by
  cases h <;> cases u <;> simp [dictTransition]

/-- **C8 (amended)**: when the per-run vectors all have the source map's
length and no source line is reachable from two *different* source-map
keys, `get_uncovered_lines` classifies each line as the claim states:
partially covered iff both a hit and an unhit instruction map to it, and
uncovered iff only unhit instructions map to it (a line only hit
instructions map to is not reported).  A `(start, end)` key maps each
line of the inclusive range. -/
theorem claim_C8_coverage_classification (sm : List (Option LineKey))
    (cov : List (List Bool)) (l : ℕ)
    (hlen : ∀ t ∈ cov, t.length = sm.length)
    (hcoh : ∀ i j ki kj, i < sm.length → j < sm.length →
      sm.getD i none = some ki → sm.getD j none = some kj →
      l ∈ expandLineKey ki → l ∈ expandLineKey kj → ki = kj) :
    (l ∈ (getUncoveredLines sm cov).partlyCoveredLineNumbers ↔
      ((∃ i, i < sm.length ∧ ∃ k, sm.getD i none = some k
          ∧ l ∈ expandLineKey k ∧ instructionHit cov i = true) ∧
       (∃ i, i < sm.length ∧ ∃ k, sm.getD i none = some k
          ∧ l ∈ expandLineKey k ∧ instructionHit cov i = false))) ∧
    (l ∈ (getUncoveredLines sm cov).uncoveredLineNumbers ↔
      ((∃ i, i < sm.length ∧ ∃ k, sm.getD i none = some k
          ∧ l ∈ expandLineKey k ∧ instructionHit cov i = false) ∧
       ¬(∃ i, i < sm.length ∧ ∃ k, sm.getD i none = some k
          ∧ l ∈ expandLineKey k ∧ instructionHit cov i = true))) := by
  have hm := processedLength_of_lengths sm cov hlen
  constructor
  · rw [mem_partly_iff]
    constructor
    · rintro ⟨k, c, hlk, hc2, hc0, hl⟩
      rw [lineToCoverageType_lookup, hm] at hlk
      have := (dictTransition_none_mid _ _).mp ⟨c, hlk, hc2, hc0⟩
      obtain ⟨hH, hU⟩ := this
      obtain ⟨i, him, hik, hihit⟩ :=
        (keyHitIn_range sm cov sm.length k).mp hH
      obtain ⟨j, hjm, hjk, hjun⟩ :=
        (keyUnhitIn_range sm cov sm.length k).mp hU
      exact ⟨⟨i, him, k, hik, hl, hihit⟩, ⟨j, hjm, k, hjk, hl, hjun⟩⟩
    · rintro ⟨⟨i, him, ki, hik, hil, hihit⟩, ⟨j, hjm, kj, hjk, hjl, hjun⟩⟩
      have hkk : ki = kj := hcoh i j ki kj him hjm hik hjk hil hjl
      subst hkk
      have hH : keyHitIn sm cov (List.range sm.length) ki = true :=
        (keyHitIn_range sm cov sm.length ki).mpr ⟨i, him, hik, hihit⟩
      have hU : keyUnhitIn sm cov (List.range sm.length) ki = true :=
        (keyUnhitIn_range sm cov sm.length ki).mpr ⟨j, hjm, hjk, hjun⟩
      obtain ⟨c, hc, hc2, hc0⟩ :=
        (dictTransition_none_mid _ _).mpr ⟨hH, hU⟩
      refine ⟨ki, c, ?_, hc2, hc0, hil⟩
      rw [lineToCoverageType_lookup, hm, hc]
  · rw [mem_uncovered_iff]
    constructor
    · rintro ⟨k, hlk, hl⟩
      rw [lineToCoverageType_lookup, hm] at hlk
      obtain ⟨hH, hU⟩ := (dictTransition_none_eq_zero _ _).mp hlk
      obtain ⟨j, hjm, hjk, hjun⟩ :=
        (keyUnhitIn_range sm cov sm.length k).mp hU
      refine ⟨⟨j, hjm, k, hjk, hl, hjun⟩, ?_⟩
      rintro ⟨i, him, ki, hik, hil, hihit⟩
      have : ki = k := hcoh i j ki k him hjm hik hjk hil hl
      subst this
      rw [(keyHitIn_range sm cov sm.length ki).mpr ⟨i, him, hik, hihit⟩]
        at hH
      cases hH
    · rintro ⟨⟨j, hjm, kj, hjk, hjl, hjun⟩, hnohit⟩
      have hU : keyUnhitIn sm cov (List.range sm.length) kj = true :=
        (keyUnhitIn_range sm cov sm.length kj).mpr ⟨j, hjm, hjk, hjun⟩
      have hH : keyHitIn sm cov (List.range sm.length) kj = false := by
        cases hH : keyHitIn sm cov (List.range sm.length) kj with
        | false => rfl
        | true =>
          obtain ⟨i, him, hik, hihit⟩ :=
            (keyHitIn_range sm cov sm.length kj).mp hH
          exact absurd ⟨i, him, kj, hik, hjl, hihit⟩ hnohit
      refine ⟨kj, ?_, hjl⟩
      rw [lineToCoverageType_lookup, hm,
        (dictTransition_none_eq_zero _ _).mpr ⟨hH, hU⟩]

/-- Counterexample to C8 as stated: with source map
`[line 5, range (5,6)]` and one run hitting only instruction 0, a hit
instruction *and* an unhit instruction both map to line 5, so the claim
says line 5 is partially covered — but the code classifies per source-map
*key* and reports line 5 as uncovered. -/
theorem claim_C8_counterexample :
    (5 ∈ expandLineKey (.line 5)
      ∧ instructionHit [[true, false]] 0 = true) ∧
    (5 ∈ expandLineKey (.range 5 6)
      ∧ instructionHit [[true, false]] 1 = false) ∧
    5 ∉ (getUncoveredLines [some (.line 5), some (.range 5 6)]
      [[true, false]]).partlyCoveredLineNumbers ∧
    5 ∈ (getUncoveredLines [some (.line 5), some (.range 5 6)]
      [[true, false]]).uncoveredLineNumbers := by
  refine ⟨⟨by decide, rfl⟩, ⟨by decide, rfl⟩, ?_, ?_⟩
  · rw [getUncoveredLines]
    dsimp only
    rw [List.mem_mergeSort]
    decide
  · rw [getUncoveredLines]
    dsimp only
    rw [List.mem_mergeSort]
    decide

/-- Witness for C8 (amended), on a coherent source map: line 2 partially
covered, lines 5–6 uncovered, line 3 (only hit) unreported. -/
theorem claim_C8_coverage_classification_witness :
    2 ∈ (getUncoveredLines
      [some (.line 2), some (.range 5 6), none, some (.line 2),
       some (.line 3)]
      [[true, false, false, false, true]]).partlyCoveredLineNumbers ∧
    5 ∈ (getUncoveredLines
      [some (.line 2), some (.range 5 6), none, some (.line 2),
       some (.line 3)]
      [[true, false, false, false, true]]).uncoveredLineNumbers ∧
    3 ∉ (getUncoveredLines
      [some (.line 2), some (.range 5 6), none, some (.line 2),
       some (.line 3)]
      [[true, false, false, false, true]]).uncoveredLineNumbers := by
  have hco : ∀ l : ℕ, ∀ i j ki kj,
      i < ([some (.line 2), some (.range 5 6), none, some (.line 2),
            some (.line 3)] : List (Option LineKey)).length →
      j < ([some (.line 2), some (.range 5 6), none, some (.line 2),
            some (.line 3)] : List (Option LineKey)).length →
      ([some (.line 2), some (.range 5 6), none, some (.line 2),
        some (.line 3)] : List (Option LineKey)).getD i none = some ki →
      ([some (.line 2), some (.range 5 6), none, some (.line 2),
        some (.line 3)] : List (Option LineKey)).getD j none = some kj →
      l ∈ expandLineKey ki → l ∈ expandLineKey kj → ki = kj := by
    intro l i j ki kj hi hj hik hjk hil hjl
    have hi5 : i < 5 := by
      simp only [List.length_cons, List.length_nil] at hi; omega
    have hj5 : j < 5 := by
      simp only [List.length_cons, List.length_nil] at hj; omega
    have step : ∀ m km, m < 5 →
        ([some (.line 2), some (.range 5 6), none, some (.line 2),
          some (.line 3)] : List (Option LineKey)).getD m none = some km →
        km = .line 2 ∨ km = .range 5 6 ∨ km = .line 3 := by
      intro m km hm hmk
      interval_cases m
      · injection hmk with h
        exact Or.inl h.symm
      · injection hmk with h
        exact Or.inr (Or.inl h.symm)
      · exact Option.noConfusion hmk
      · injection hmk with h
        exact Or.inl h.symm
      · injection hmk with h
        exact Or.inr (Or.inr h.symm)
    rcases step i ki hi5 hik with rfl | rfl | rfl <;>
      rcases step j kj hj5 hjk with rfl | rfl | rfl <;>
      first
        | rfl
        | (simp only [expandLineKey, List.range', List.mem_cons,
             List.mem_singleton, List.not_mem_nil, or_false]
             at hil hjl
           omega)
  have h2 := claim_C8_coverage_classification
    [some (.line 2), some (.range 5 6), none, some (.line 2),
     some (.line 3)] [[true, false, false, false, true]] 2
    (by decide) (hco 2)
  have h5 := claim_C8_coverage_classification
    [some (.line 2), some (.range 5 6), none, some (.line 2),
     some (.line 3)] [[true, false, false, false, true]] 5
    (by decide) (hco 5)
  have h3 := claim_C8_coverage_classification
    [some (.line 2), some (.range 5 6), none, some (.line 2),
     some (.line 3)] [[true, false, false, false, true]] 3
    (by decide) (hco 3)
  refine ⟨?_, ?_, ?_⟩
  · exact h2.1.mpr ⟨⟨0, by decide, .line 2, rfl, by decide, rfl⟩,
      ⟨3, by decide, .line 2, rfl, by decide, rfl⟩⟩
  · refine h5.2.mpr ⟨⟨1, by decide, .range 5 6, rfl, by decide, rfl⟩, ?_⟩
    rintro ⟨i, him, ki, hik, hil, hihit⟩
    have hi5 : i < 5 := by
      simp only [List.length_cons, List.length_nil] at him; omega
    interval_cases i
    · injection hik with h
      subst h
      revert hil hihit
      decide
    · injection hik with h
      subst h
      revert hil hihit
      decide
    · exact Option.noConfusion hik
    · injection hik with h
      subst h
      revert hil hihit
      decide
    · injection hik with h
      subst h
      revert hil hihit
      decide
  · intro hmem
    obtain ⟨⟨j, hjm, kj, hjk, hjl, hjun⟩, _⟩ := h3.2.mp hmem
    have hj5 : j < 5 := by
      simp only [List.length_cons, List.length_nil] at hjm; omega
    interval_cases j
    · injection hjk with h
      subst h
      revert hjl hjun
      decide
    · injection hjk with h
      subst h
      revert hjl hjun
      decide
    · exact Option.noConfusion hjk
    · injection hjk with h
      subst h
      revert hjl hjun
      decide
    · injection hjk with h
      subst h
      revert hjl hjun
      decide

/-! ## Cycle rejection: self-branches at parse time, larger cycles via
Tarjan strongly connected components (claim C5)

```
def _make_branch(self, condition, destination):
    if destination == self.current_state_label_token.value:
        raise CompilationError('branch to itself in state "{0}"'.format(destination), ...)
    return Branch(condition, destination, self.line_number_or_range)
```

and, at the end of `Parser.parse`, `_strongly_connected_components`
(adapted from Wikipedia's Tarjan algorithm) followed by

```
cycle = next((component for component in ... if len(component) > 1), None)
if cycle:
    cycle_states = ', '.join('"' + label + '"' for label in cycle)
    raise CompilationError('cycle exists between states ' + cycle_states)
```
-/

/-- A parsed state reduced to what cycle detection consults: its label
and the destinations of its branches, in source order. -/
structure TState where
  label : String
  dests : List String
  deriving Repr

/-- Python dict assignment `d[k] = n`: overwrite in place if the key is
present, else append. -/
def setKV : List (String × ℕ) → String → ℕ → List (String × ℕ)
  | [], k, n => [(k, n)]
  | (k', v) :: rest, k, n =>
    if k' = k then (k, n) :: rest else (k', v) :: setKV rest k n

/-- The mutable state threaded through `strongconnect`: the explicit
`stack` (head is the top; the `stack_set` mirror is just stack
membership), the `indices` and `lowlinks` dicts, the `available_index`
counter and the accumulated `components` list. -/
structure TarjanSt where
  stack : List String
  indices : List (String × ℕ)
  lowlinks : List (String × ℕ)
  counter : ℕ
  components : List (List String)
  deriving Repr

/-- The pop loop generating one component: pop until `v` inclusive,
returning the component in pop order and the remaining stack. -/
def popComponent : List String → String → List String × List String
  | [], _ => ([], [])
  | w :: rest, v =>
    if w = v then ([w], rest)
    else
      let p := popComponent rest v
      (w :: p.1, p.2)

/-- `strongconnect(v)`, with an explicit recursion-depth fuel: each
nested call is on a node not yet in `lowlinks` and immediately inserts
it, so any fuel exceeding the number of labels reachable through the
successor function computes the same result as the unbounded Python
recursion. -/
def strongconnect : ℕ → (String → List String) → String → TarjanSt → TarjanSt
  | 0, _, _, st => st
  | fuel + 1, dict, v, st0 =>
    let st1 : TarjanSt :=
      { stack := v :: st0.stack
        indices := setKV st0.indices v st0.counter
        lowlinks := setKV st0.lowlinks v st0.counter
        counter := st0.counter + 1
        components := st0.components }
    let st2 := (dict v).foldl
      (fun st w =>
        if (List.lookup w st.lowlinks).isNone then
          let st' := strongconnect fuel dict w st
          let m := min ((List.lookup v st'.lowlinks).getD 0)
            ((List.lookup w st'.lowlinks).getD 0)
          { st' with lowlinks := setKV st'.lowlinks v m }
        else if w ∈ st.stack then
          let m := min ((List.lookup v st.lowlinks).getD 0)
            ((List.lookup w st.indices).getD 0)
          { st with lowlinks := setKV st.lowlinks v m }
        else st) st1
    if List.lookup v st2.lowlinks = List.lookup v st2.indices then
      let p := popComponent st2.stack v
      { st2 with stack := p.2, components := st2.components ++ [p.1] }
    else st2

/-- `self.state_dict[v].branches`: the destinations of the state whose
label is `v` (dict assignment makes the last state with a given label
win; a missing key cannot occur on inputs that pass the preceding
undefined-label check). -/
def stateDests (states : List TState) (v : String) : List String :=
  ((states.reverse.find? (fun s => s.label = v)).map
    (fun s => s.dests)).getD []

/-- Fuel exceeding any possible `strongconnect` recursion depth on this
graph: every visited label is a state label or some branch
destination. -/
def tarjanFuel (states : List TState) : ℕ :=
  states.length + (states.map (fun s => s.dests.length)).sum + 1

/-- `Parser._strongly_connected_components`: visit each state in
declaration order, starting `strongconnect` from every label not yet
visited, and return the accumulated components. -/
def tarjanComponents (states : List TState) : List (List String) :=
  (states.foldl
    (fun st s =>
      if (List.lookup s.label st.lowlinks).isNone then
        strongconnect (tarjanFuel states) (stateDests states) s.label st
      else st)
    ⟨[], [], [], 0, []⟩).components

/-- `'cycle exists between states ' + ', '.join('"' + label + '"' for
label in cycle)`. -/
def cycleMessage (comp : List String) : String :=
  "cycle exists between states "
    ++ String.intercalate ", " (comp.map (fun l => "\"" ++ l ++ "\""))

/-- The cycle check at the end of `Parser.parse`: the first strongly
connected component with more than one member (Python's `next(...)`
over the generator) is a fatal `CompilationError` carrying no
position. -/
def checkCycles (states : List TState) : Except CompileError Unit :=
  ((tarjanComponents states).find? (fun comp => 1 < comp.length)).elim
    (Except.ok ())
    (fun cycle =>
      Except.error (.compilationError (cycleMessage cycle) none none))

/-- `Parser._make_branch`: a branch whose destination is the state being
parsed is rejected immediately with the parser's current line
number. -/
def makeBranch (currentLabel : String) (condition : Option Node)
    (destination : String) (lineNumber : ℕ) :
    Except CompileError Branch :=
  if destination = currentLabel then
    .error (.compilationError
      ("branch to itself in state \"" ++ destination ++ "\"")
      (some lineNumber) none)
  else
    .ok { condition := condition, destination := destination }

/-- The spec's three-state cycle A→B, B→C, C→A. -/
def triangleStates : List TState :=
  [⟨"@A", ["@B"]⟩, ⟨"@B", ["@C"]⟩, ⟨"@C", ["@A"]⟩]

/-- The repository test graph (`test_compiler.py`): a→{b,c}, b→{d,e},
c→d, d→e, e→c, whose only non-trivial component is {c, d, e}. -/
def repoCycleStates : List TState :=
  [⟨"@a", ["@b", "@c"]⟩, ⟨"@b", ["@d", "@e"]⟩, ⟨"@c", ["@d"]⟩,
   ⟨"@d", ["@e"]⟩, ⟨"@e", ["@c"]⟩]

/-- **C5**: a branch to the parsing state's own label fails immediately
with `branch to itself in state "..."` (and only then); after parsing,
if any strongly connected component has more than one member,
compilation fails with `cycle exists between states ...` listing
exactly the labels of a size->1 component (the first one Tarjan
produced), and succeeds when every component is a singleton.  On the
spec's triangle A→B→C→A the reported component is exactly the three
labels, and on the repository's test graph the error is exactly
`cycle exists between states "@c", "@e", "@d"`. -/
theorem claim_C5_cycle_rejection :
    (∀ (currentLabel : String) (condition : Option Node)
        (destination : String) (ln : ℕ),
      (destination = currentLabel →
        makeBranch currentLabel condition destination ln =
          .error (.compilationError
            ("branch to itself in state \"" ++ destination ++ "\"")
            (some ln) none)) ∧
      (destination ≠ currentLabel →
        makeBranch currentLabel condition destination ln =
          .ok { condition := condition, destination := destination })) ∧
    (∀ (states : List TState) (comp : List String),
      comp ∈ tarjanComponents states → 1 < comp.length →
      ∃ c, c ∈ tarjanComponents states ∧ 1 < c.length ∧
        checkCycles states =
          .error (.compilationError (cycleMessage c) none none)) ∧
    (∀ states : List TState,
      (∀ c ∈ tarjanComponents states, c.length ≤ 1) →
      checkCycles states = .ok ()) ∧
    (∃ c, checkCycles triangleStates =
        .error (.compilationError (cycleMessage c) none none) ∧
      c.Perm ["@A", "@B", "@C"]) ∧
    checkCycles repoCycleStates =
      .error (.compilationError
        "cycle exists between states \"@c\", \"@e\", \"@d\"" none none) := by
  refine ⟨?_, ?_, ?_, ⟨["@C", "@B", "@A"], rfl, by decide⟩, rfl⟩
  · intro currentLabel condition destination ln
    constructor
    · intro h
      simp only [makeBranch]
      rw [if_pos h]
    · intro h
      simp only [makeBranch]
      rw [if_neg h]
  · intro states comp hmem hlen
    cases hfind : (tarjanComponents states).find?
        (fun comp => 1 < comp.length) with
    | none =>
      have h := List.find?_eq_none.mp hfind comp hmem
      rw [decide_eq_true_eq] at h
      exact absurd hlen h
    | some c =>
      refine ⟨c, List.mem_of_find?_eq_some hfind, ?_, ?_⟩
      · have hc := List.find?_some hfind
        rwa [decide_eq_true_eq] at hc
      · unfold checkCycles
        rw [hfind]
        rfl
  · intro states hall
    have hfind : (tarjanComponents states).find?
        (fun comp => 1 < comp.length) = none := by
      rw [List.find?_eq_none]
      intro c hc hp
      rw [decide_eq_true_eq] at hp
      have := hall c hc
      omega
    unfold checkCycles
    rw [hfind]
    rfl

/-- Witness for C5: a concrete self-branch is rejected with the exact
message, and a concrete acyclic two-state graph passes the cycle
check. -/
theorem claim_C5_cycle_rejection_witness :
    makeBranch "@x" none "@x" 7 =
      .error (.compilationError ("branch to itself in state \"@x\"")
        (some 7) none) ∧
    checkCycles [⟨"@p", ["@q"]⟩, ⟨"@q", []⟩] = .ok () := by
  refine ⟨?_, ?_⟩
  · have h := (claim_C5_cycle_rejection.1 "@x" none "@x" 7).1 rfl
    simpa using h
  · exact claim_C5_cycle_rejection.2.2.1
      [⟨"@p", ["@q"]⟩, ⟨"@q", []⟩] (by decide)


/-! ## The peephole optimizer `CodeGenerator._optimize` (claim C4)

Three in-place passes over the IR instruction list:

1. condense chains of unconditional jumps (`while True` chase through
   `Ju` targets, then convert a `Ju` that lands on `Xx` into `Xx`);
2. delete unreachable instructions (explicit work-stack from
   instruction 0, following fall-through and jump edges);
3. delete unconditional jumps to the textually-next instruction,
   migrating the deleted jump's labels onto that instruction
   (`opcode = None` marks deletion; modelled by the sentinel `""`,
   which real instructions never use).

`label_to_instruction` is a dict built by iterating instructions in
order, so a duplicated label resolves to its last occurrence
(`labelIdxAux`).  The unbounded Python recursions carry explicit fuel;
the theorem's hypotheses make the fuel sufficient.
-/

/-- Indexing with an out-of-range default (real instructions never
have an empty opcode, so the default is recognizable). -/
def getIns (L : List IRInstruction) (i : ℕ) : IRInstruction :=
  L.getD i ⟨"", PyVal.none, []⟩

/-- `opcode in ('Jn', 'Jz', 'Ju')`. -/
def isJump (op : String) : Bool :=
  op = "Jn" || op = "Jz" || op = "Ju"

/-- Helper for `labelIdx`: the index of the last instruction at or
after position `s` carrying label `l`. -/
def labelIdxAux : ℕ → List IRInstruction → PyVal → Option ℕ
  | _, [], _ => none
  | s, ins :: rest, l =>
    match labelIdxAux (s + 1) rest l with
    | some j => some j
    | none => if l ∈ ins.labels then some s else none

/-- `label_to_instruction[l][0]`: the dict comprehension maps each
label to the position of the last instruction carrying it. -/
def labelIdx (L : List IRInstruction) (l : PyVal) : Option ℕ :=
  labelIdxAux 0 L l

/-- The `while True` chase of pass 1: follow `Ju` targets until a
non-`Ju` instruction, returning the final target label (the net value
of the repeated `instruction.param = target_label` assignments). -/
def chase (L : List IRInstruction) : ℕ → PyVal → PyVal
  | 0, l => l
  | fuel + 1, l =>
    match labelIdx L l with
    | none => l
    | some t =>
      if (getIns L t).opcode = "Ju" then chase L fuel (getIns L t).param
      else l

/-- One iteration of pass 1's `for instruction in instructions` loop:
chase the jump's target, then convert `Ju`-to-`Xx` into `Xx` (param
cleared), else rewrite the param to the chased label.  Mutation is
visible to later iterations, so the evolving list is threaded. -/
def pass1Step (cur : List IRInstruction) (i : ℕ) : List IRInstruction :=
  let ins := getIns cur i
  if isJump ins.opcode then
    let fl := chase cur (cur.length + 1) ins.param
    if ins.opcode = "Ju" ∧
        ((labelIdx cur fl).map
          (fun t => (getIns cur t).opcode)) = some "Xx" then
      cur.set i { ins with opcode := "Xx", param := .none }
    else
      cur.set i { ins with param := fl }
  else cur

/-- Pass 1: condense chains of unconditional jumps. -/
def pass1 (L : List IRInstruction) : List IRInstruction :=
  (List.range L.length).foldl pass1Step L

/-- What pass 2 appends to the work stack when marking `i`: nothing for
`Xx`; the jump target for `Jn`/`Jz`/`Ju`; the next instruction except
after `Ju`.  Python appends target then `i+1`, so `i+1` is popped
first: the head of the returned list is the top. -/
def succPushes (L : List IRInstruction) (i : ℕ) : List ℕ :=
  let ins := getIns L i
  if ins.opcode = "Xx" then []
  else
    (if ins.opcode = "Ju" then [] else [i + 1])
      ++ (if isJump ins.opcode then [(labelIdx L ins.param).getD 0] else [])

/-- Pass 2's `while queue` loop (`queue.pop()` pops the most recently
appended entry), with fuel: each iteration pops one entry and pushes at
most two, and pushes only on a fresh mark, so `2n + 2` pops always
empty the stack. -/
def pass2Loop (L : List IRInstruction) : ℕ → List Bool → List ℕ → List Bool
  | 0, marks, _ => marks
  | _ + 1, marks, [] => marks
  | fuel + 1, marks, i :: rest =>
    if marks.getD i false then pass2Loop L fuel marks rest
    else pass2Loop L fuel (marks.set i true) (succPushes L i ++ rest)

/-- Pass 2: mark everything reachable from instruction 0 and keep only
marked instructions (`enumerate`-comprehension filter). -/
def pass2 (L : List IRInstruction) : List IRInstruction :=
  let marks := pass2Loop L (2 * L.length + 2) (List.replicate L.length false) [0]
  (L.enum.filter (fun p => marks.getD p.1 false)).map (fun p => p.2)

/-- One iteration of pass 3's loop: an unconditional jump to the
textually-next instruction has its labels appended onto that
instruction's and its opcode cleared (`None`, modelled `""`).  `lm` is
the label map built before the loop. -/
def pass3Step (lm : PyVal → Option ℕ) (cur : List IRInstruction) (i : ℕ) :
    List IRInstruction :=
  let ins := getIns cur i
  if ins.opcode = "Ju" ∧ lm ins.param = some (i + 1) then
    let tgt := getIns cur (i + 1)
    (cur.set (i + 1) { tgt with labels := tgt.labels ++ ins.labels }).set i
      { ins with opcode := "" }
  else cur

/-- Pass 3: delete unconditional jumps to the next instruction. -/
def pass3 (L : List IRInstruction) : List IRInstruction :=
  ((List.range L.length).foldl (pass3Step (labelIdx L)) L).filter
    (fun ins => ins.opcode ≠ "")

/-- `CodeGenerator._optimize`: the three passes in order. -/
def optimizeInstructions (L : List IRInstruction) : List IRInstruction :=
  pass3 (pass2 (pass1 L))

/-- The claimed invariant: no `Ju` targets the instruction immediately
following it, with targets resolved through the final label positions
(out-of-range indices hold the default instruction, whose opcode is not
`Ju`). -/
def noJuToNext (L : List IRInstruction) : Prop :=
  ∀ i, (getIns L i).opcode = "Ju" →
    labelIdx L ((getIns L i).param) ≠ some (i + 1)


theorem getIns_cons_succ (a : IRInstruction) (L : List IRInstruction) (k : ℕ) :
    getIns (a :: L) (k + 1) = getIns L k := by
  simp [getIns, List.getD_cons_succ]

theorem getIns_cons_zero (a : IRInstruction) (L : List IRInstruction) :
    getIns (a :: L) 0 = a := rfl

theorem getIns_of_le (L : List IRInstruction) (i : ℕ) (h : L.length ≤ i) :
    getIns L i = ⟨"", PyVal.none, []⟩ := by
  rw [getIns, List.getD_eq_getElem?_getD, List.getElem?_eq_none h]
  rfl

theorem getIns_eq_getElem (L : List IRInstruction) (j : ℕ) (h : j < L.length) :
    getIns L j = L[j] := by
  rw [getIns, List.getD_eq_getElem?_getD, List.getElem?_eq_getElem h]
  rfl

theorem labelIdxAux_mem :
    ∀ (L : List IRInstruction) (s : ℕ) (l : PyVal) (j : ℕ),
    labelIdxAux s L l = some j →
    s ≤ j ∧ j < s + L.length ∧ l ∈ (getIns L (j - s)).labels := by
  intro L
  induction L with
  | nil => intro s l j h; simp [labelIdxAux] at h
  | cons ins rest ih =>
    intro s l j h
    rw [labelIdxAux] at h
    cases hrec : labelIdxAux (s + 1) rest l with
    | some j' =>
      rw [hrec] at h
      injection h with h
      subst h
      obtain ⟨h1, h2, h3⟩ := ih (s + 1) l j' hrec
      refine ⟨by omega, by simp only [List.length_cons]; omega, ?_⟩
      have he : j' - s = (j' - (s + 1)) + 1 := by omega
      rw [he, getIns_cons_succ]
      exact h3
    | none =>
      rw [hrec] at h
      by_cases hm : l ∈ ins.labels
      · rw [if_pos hm] at h
        injection h with h
        subst h
        exact ⟨le_refl _, by simp only [List.length_cons]; omega,
          by simpa [getIns_cons_zero] using hm⟩
      · rw [if_neg hm] at h
        cases h

theorem labelIdxAux_isSome_of_mem :
    ∀ (L : List IRInstruction) (s : ℕ) (l : PyVal) (j : ℕ),
    j < L.length → l ∈ (getIns L j).labels →
    (labelIdxAux s L l).isSome := by
  intro L
  induction L with
  | nil => intro s l j h; simp at h
  | cons ins rest ih =>
    intro s l j hj hm
    rw [labelIdxAux]
    cases hrec : labelIdxAux (s + 1) rest l with
    | some j' => rfl
    | none =>
      cases j with
      | zero =>
        rw [getIns_cons_zero] at hm
        show (if l ∈ ins.labels then some s else none).isSome = true
        rw [if_pos hm]
        rfl
      | succ j =>
        rw [getIns_cons_succ] at hm
        have hlt : j < rest.length := by
          simp only [List.length_cons] at hj
          omega
        have hs := ih (s + 1) l j hlt hm
        rw [hrec] at hs
        simp at hs

theorem labelIdxAux_unique :
    ∀ (L : List IRInstruction) (s : ℕ) (l : PyVal) (j : ℕ),
    j < L.length → l ∈ (getIns L j).labels →
    (∀ j', j' < L.length → l ∈ (getIns L j').labels → j' = j) →
    labelIdxAux s L l = some (s + j) := by
  intro L
  induction L with
  | nil => intro s l j h; simp at h
  | cons ins rest ih =>
    intro s l j hj hm huniq
    rw [labelIdxAux]
    cases j with
    | zero =>
      have hrec : labelIdxAux (s + 1) rest l = none := by
        cases hrec : labelIdxAux (s + 1) rest l with
        | none => rfl
        | some j' =>
          obtain ⟨h1, h2, h3⟩ := labelIdxAux_mem rest (s + 1) l j' hrec
          have he : j' - s = (j' - (s + 1)) + 1 := by omega
          have heq := huniq (j' - s) (by simp only [List.length_cons]; omega)
            (by rw [he, getIns_cons_succ]; exact h3)
          omega
      rw [hrec]
      rw [getIns_cons_zero] at hm
      show (if l ∈ ins.labels then some s else none) = some (s + 0)
      rw [if_pos hm]
      rfl
    | succ j =>
      have hlt : j < rest.length := by
        simp only [List.length_cons] at hj
        omega
      have hrec := ih (s + 1) l j hlt
        (by rw [getIns_cons_succ] at hm; exact hm)
        (by
          intro j' hj' hm'
          have := huniq (j' + 1) (by simp only [List.length_cons]; omega)
            (by rw [getIns_cons_succ]; exact hm')
          omega)
      rw [hrec]
      show some (s + 1 + j) = some (s + (j + 1))
      congr 1
      omega

theorem labelIdx_mem (L : List IRInstruction) (l : PyVal) (j : ℕ)
    (h : labelIdx L l = some j) :
    j < L.length ∧ l ∈ (getIns L j).labels := by
  obtain ⟨h1, h2, h3⟩ := labelIdxAux_mem L 0 l j h
  rw [Nat.zero_add] at h2
  rw [Nat.sub_zero] at h3
  exact ⟨h2, h3⟩

theorem labelIdx_isSome_of_mem (L : List IRInstruction) (l : PyVal) (j : ℕ)
    (hj : j < L.length) (hm : l ∈ (getIns L j).labels) :
    (labelIdx L l).isSome :=
  labelIdxAux_isSome_of_mem L 0 l j hj hm

theorem labelIdx_unique (L : List IRInstruction) (l : PyVal) (j : ℕ)
    (hj : j < L.length) (hm : l ∈ (getIns L j).labels)
    (huniq : ∀ j', j' < L.length → l ∈ (getIns L j').labels → j' = j) :
    labelIdx L l = some j := by
  have := labelIdxAux_unique L 0 l j hj hm huniq
  rwa [Nat.zero_add] at this

def flatLabels (L : List IRInstruction) : List PyVal :=
  (L.map (fun ins => ins.labels)).flatten

theorem mem_labels_unique (L : List IRInstruction)
    (h : (flatLabels L).Nodup) (l : PyVal) (j j' : ℕ)
    (hj : j < L.length) (hj' : j' < L.length)
    (hm : l ∈ (getIns L j).labels) (hm' : l ∈ (getIns L j').labels) :
    j = j' := by
  rw [flatLabels, List.nodup_flatten] at h
  by_contra hne
  rw [getIns_eq_getElem L j hj] at hm
  rw [getIns_eq_getElem L j' hj'] at hm'
  rcases Nat.lt_or_ge j j' with hlt | hge
  · have hd := (List.pairwise_iff_getElem.mp h.2) j j'
      (by simpa using hj) (by simpa using hj') hlt
    rw [List.getElem_map, List.getElem_map] at hd
    exact hd hm hm'
  · have hlt : j' < j := by omega
    have hd := (List.pairwise_iff_getElem.mp h.2) j' j
      (by simpa using hj') (by simpa using hj) hlt
    rw [List.getElem_map, List.getElem_map] at hd
    exact hd hm' hm

def keepFilterAux {α : Type} (keep : ℕ → Bool) : ℕ → List α → List α
  | _, [] => []
  | s, a :: as =>
    if keep s then a :: keepFilterAux keep (s + 1) as
    else keepFilterAux keep (s + 1) as

def countKeep (keep : ℕ → Bool) (s j : ℕ) : ℕ :=
  ((List.range' s j).filter keep).length

theorem countKeep_zero (keep : ℕ → Bool) (s : ℕ) : countKeep keep s 0 = 0 :=
  rfl

theorem countKeep_succ_left (keep : ℕ → Bool) (s j : ℕ) :
    countKeep keep s (j + 1)
      = (if keep s then 1 else 0) + countKeep keep (s + 1) j := by
  rw [countKeep, countKeep, List.range'_succ, List.filter_cons]
  by_cases h : keep s
  · rw [if_pos h, if_pos h, List.length_cons]
    omega
  · rw [if_neg h, if_neg h]
    omega

theorem countKeep_split (keep : ℕ → Bool) (s a b : ℕ) :
    countKeep keep s (a + b)
      = countKeep keep s a + countKeep keep (s + a) b := by
  induction a generalizing s with
  | zero => simp [countKeep_zero]
  | succ a ih =>
    have h2 : a + 1 + b = (a + b) + 1 := by omega
    rw [h2, countKeep_succ_left, countKeep_succ_left, ih (s + 1)]
    have h3 : s + (a + 1) = s + 1 + a := by omega
    rw [h3]
    omega

theorem countKeep_one (keep : ℕ → Bool) (s : ℕ) :
    countKeep keep s 1 = if keep s then 1 else 0 := by
  rw [countKeep, List.range'_one, List.filter_cons]
  by_cases h : keep s
  · rw [if_pos h, if_pos h]
    rfl
  · rw [if_neg h, if_neg h]
    rfl

theorem countKeep_succ_right (keep : ℕ → Bool) (s j : ℕ) :
    countKeep keep s (j + 1)
      = countKeep keep s j + (if keep (s + j) then 1 else 0) := by
  rw [countKeep_split keep s j 1, countKeep_one]

theorem countKeep_mono (keep : ℕ → Bool) (s : ℕ) {j j' : ℕ} (h : j ≤ j') :
    countKeep keep s j ≤ countKeep keep s j' := by
  obtain ⟨d, rfl⟩ := Nat.exists_eq_add_of_le h
  rw [countKeep_split]
  omega

theorem countKeep_eq_zero (keep : ℕ → Bool) (s m : ℕ)
    (h : countKeep keep s m = 0) :
    ∀ t, s ≤ t → t < s + m → keep t = false := by
  intro t h1 h2
  rw [countKeep, List.length_eq_zero] at h
  by_contra hk
  have hmem : t ∈ (List.range' s m).filter keep := by
    rw [List.mem_filter]
    refine ⟨List.mem_range'_1.mpr ⟨h1, h2⟩, ?_⟩
    cases hkt : keep t
    · exact absurd hkt hk
    · rfl
  rw [h] at hmem
  cases hmem

theorem kfa_length {α : Type} (keep : ℕ → Bool) :
    ∀ (L : List α) (s : ℕ),
    (keepFilterAux keep s L).length = countKeep keep s L.length := by
  intro L
  induction L with
  | nil => intro s; rfl
  | cons a as ih =>
    intro s
    rw [keepFilterAux, List.length_cons, countKeep_succ_left]
    by_cases h : keep s
    · rw [if_pos h, if_pos h, List.length_cons, ih (s + 1)]
      omega
    · rw [if_neg h, if_neg h, ih (s + 1)]
      omega

theorem kfa_getD {α : Type} (keep : ℕ → Bool) :
    ∀ (L : List α) (s j : ℕ) (d : α),
    j < L.length → keep (s + j) = true →
    (keepFilterAux keep s L).getD (countKeep keep s j) d = L.getD j d := by
  intro L
  induction L with
  | nil => intro s j d h; simp at h
  | cons a as ih =>
    intro s j d hj hk
    rw [keepFilterAux]
    cases j with
    | zero =>
      rw [Nat.add_zero] at hk
      rw [if_pos hk, countKeep_zero]
      rfl
    | succ j =>
      have hlt : j < as.length := by
        simp only [List.length_cons] at hj
        omega
      have hk' : keep (s + 1 + j) = true := by
        rw [show s + 1 + j = s + (j + 1) from by omega]
        exact hk
      rw [countKeep_succ_left]
      by_cases h : keep s
      · rw [if_pos h, if_pos h]
        have he : 1 + countKeep keep (s + 1) j
            = countKeep keep (s + 1) j + 1 := by omega
        rw [he, List.getD_cons_succ, List.getD_cons_succ]
        exact ih (s + 1) j d hlt hk'
      · rw [if_neg h, if_neg h, Nat.zero_add, List.getD_cons_succ]
        exact ih (s + 1) j d hlt hk'

theorem kfa_surj {α : Type} (keep : ℕ → Bool) :
    ∀ (L : List α) (s p : ℕ),
    p < (keepFilterAux keep s L).length →
    ∃ j, j < L.length ∧ keep (s + j) = true ∧ countKeep keep s j = p := by
  intro L
  induction L with
  | nil => intro s p h; simp [keepFilterAux] at h
  | cons a as ih =>
    intro s p hp
    rw [keepFilterAux] at hp
    by_cases h : keep s
    · rw [if_pos h, List.length_cons] at hp
      cases p with
      | zero =>
        refine ⟨0, by simp [List.length_cons], ?_, countKeep_zero keep s⟩
        rw [Nat.add_zero]
        exact h
      | succ p =>
        obtain ⟨j, hj, hk, hc⟩ := ih (s + 1) p (by omega)
        refine ⟨j + 1, by simp only [List.length_cons]; omega, ?_, ?_⟩
        · rw [show s + (j + 1) = s + 1 + j from by omega]
          exact hk
        · rw [countKeep_succ_left, if_pos h, hc]
          omega
    · rw [if_neg h] at hp
      obtain ⟨j, hj, hk, hc⟩ := ih (s + 1) p hp
      refine ⟨j + 1, by simp only [List.length_cons]; omega, ?_, ?_⟩
      · rw [show s + (j + 1) = s + 1 + j from by omega]
        exact hk
      · rw [countKeep_succ_left, if_neg h, hc]
        omega

theorem enumFrom_filter_map_eq_kfa {α : Type} (f : ℕ → Bool) :
    ∀ (L : List α) (s : ℕ),
    ((List.enumFrom s L).filter (fun p => f p.1)).map (fun p => p.2)
      = keepFilterAux f s L := by
  intro L
  induction L with
  | nil => intro s; rfl
  | cons a as ih =>
    intro s
    rw [List.enumFrom_cons, List.filter_cons, keepFilterAux]
    by_cases h : f s
    · rw [if_pos (by simpa using h), if_pos h, List.map_cons, ih (s + 1)]
    · rw [if_neg (by simpa using h), if_neg h, ih (s + 1)]

theorem filter_eq_kfa {α : Type} (P : α → Bool) (f : ℕ → Bool) (d : α) :
    ∀ (L : List α) (s : ℕ),
    (∀ j, j < L.length → P (L.getD j d) = f (s + j)) →
    L.filter P = keepFilterAux f s L := by
  intro L
  induction L with
  | nil => intro s h; rfl
  | cons a as ih =>
    intro s hPt
    rw [List.filter_cons, keepFilterAux]
    have h0 := hPt 0 (by simp [List.length_cons])
    rw [Nat.add_zero] at h0
    rw [List.getD_cons_zero] at h0
    have hrest := ih (s + 1) (fun j hj => by
      have hstep := hPt (j + 1) (by simp only [List.length_cons]; omega)
      rw [List.getD_cons_succ] at hstep
      rw [hstep]
      congr 1
      omega)
    by_cases h : f s
    · rw [if_pos (by rw [h0]; exact h), if_pos h, hrest]
    · rw [if_neg (by rw [h0]; simpa using h), if_neg h, hrest]


theorem getIns_set_self (cur : List IRInstruction) (i : ℕ)
    (x : IRInstruction) (h : i < cur.length) :
    getIns (cur.set i x) i = x := by
  rw [getIns, List.getD_eq_getElem?_getD, List.getElem?_set_self h]
  rfl

theorem getIns_set_ne (cur : List IRInstruction) (i k : ℕ)
    (x : IRInstruction) (h : k ≠ i) :
    getIns (cur.set i x) k = getIns cur k := by
  rw [getIns, getIns, List.getD_eq_getElem?_getD, List.getD_eq_getElem?_getD,
    List.getElem?_set_ne (fun he => h he.symm)]

theorem labelIdxAux_congr :
    ∀ (A B : List IRInstruction), A.length = B.length →
    (∀ k, (getIns A k).labels = (getIns B k).labels) →
    ∀ (s : ℕ) (l : PyVal), labelIdxAux s A l = labelIdxAux s B l := by
  intro A
  induction A with
  | nil =>
    intro B hlen _ s l
    cases B with
    | nil => rfl
    | cons b bs => simp at hlen
  | cons a as ih =>
    intro B hlen hpt s l
    cases B with
    | nil => simp at hlen
    | cons b bs =>
      rw [labelIdxAux, labelIdxAux]
      have hrec := ih bs (by simpa using hlen)
        (fun k => by
          have := hpt (k + 1)
          rwa [getIns_cons_succ, getIns_cons_succ] at this)
        (s + 1) l
      rw [hrec]
      have hhd : a.labels = b.labels := by
        have := hpt 0
        rwa [getIns_cons_zero, getIns_cons_zero] at this
      rw [hhd]

theorem labelIdx_congr (A B : List IRInstruction) (hlen : A.length = B.length)
    (hpt : ∀ k, (getIns A k).labels = (getIns B k).labels) (l : PyVal) :
    labelIdx A l = labelIdx B l :=
  labelIdxAux_congr A B hlen hpt 0 l

theorem chase_spec (L : List IRInstruction) (rank : ℕ → ℕ)
    (hres : ∀ i, (getIns L i).opcode = "Ju" →
      (labelIdx L ((getIns L i).param)).isSome)
    (hrank : ∀ i t, (getIns L i).opcode = "Ju" →
      labelIdx L ((getIns L i).param) = some t →
      (getIns L t).opcode = "Ju" → rank t < rank i) :
    ∀ (fuel : ℕ) (l : PyVal) (t : ℕ), labelIdx L l = some t →
    ((getIns L t).opcode ≠ "Ju" ∨ rank t < fuel) →
    ∃ t', labelIdx L (chase L fuel l) = some t'
      ∧ (getIns L t').opcode ≠ "Ju" := by
  intro fuel
  induction fuel with
  | zero =>
    intro l t hlt hcase
    rcases hcase with h | h
    · exact ⟨t, hlt, h⟩
    · omega
  | succ fuel ih =>
    intro l t hlt hcase
    by_cases hJu : (getIns L t).opcode = "Ju"
    · have hstep : chase L (fuel + 1) l = chase L fuel (getIns L t).param := by
        rw [chase, hlt]
        dsimp only
        rw [if_pos hJu]
      rw [hstep]
      have hs := hres t hJu
      cases hlt2 : labelIdx L ((getIns L t).param) with
      | none => rw [hlt2] at hs; simp at hs
      | some t2 =>
        refine ih ((getIns L t).param) t2 hlt2 ?_
        by_cases hJu2 : (getIns L t2).opcode = "Ju"
        · right
          have hr := hrank t t2 hJu hlt2 hJu2
          have : rank t < fuel + 1 := by
            rcases hcase with h | h
            · exact absurd hJu h
            · exact h
          omega
        · exact Or.inl hJu2
    · have hstep : chase L (fuel + 1) l = l := by
        rw [chase, hlt]
        dsimp only
        rw [if_neg hJu]
      rw [hstep]
      exact ⟨t, hlt, hJu⟩

def pass1Inv (L0 : List IRInstruction) (rank : ℕ → ℕ)
    (cur : List IRInstruction) : Prop :=
  cur.length = L0.length ∧
  (∀ k, (getIns cur k).labels = (getIns L0 k).labels) ∧
  (∀ k, (getIns cur k).opcode = (getIns L0 k).opcode ∨
    ((getIns L0 k).opcode = "Ju" ∧ (getIns cur k).opcode = "Xx")) ∧
  (∀ i, isJump (getIns cur i).opcode = true →
    (labelIdx cur ((getIns cur i).param)).isSome) ∧
  (∀ i t, (getIns cur i).opcode = "Ju" →
    labelIdx cur ((getIns cur i).param) = some t →
    (getIns cur t).opcode = "Ju" → rank t < rank i)

def established (cur : List IRInstruction) (k : ℕ) : Prop :=
  isJump (getIns cur k).opcode = true →
  ∃ t, labelIdx cur ((getIns cur k).param) = some t
    ∧ (getIns cur t).opcode ≠ "Ju"


theorem lt_length_of_isJump (cur : List IRInstruction) (i : ℕ)
    (h : isJump (getIns cur i).opcode = true) : i < cur.length := by
  by_contra hge
  rw [getIns_of_le cur i (by omega)] at h
  simp [isJump] at h

theorem pass1Step_eq (cur : List IRInstruction) (i : ℕ) :
    pass1Step cur i =
      if isJump (getIns cur i).opcode then
        (if (getIns cur i).opcode = "Ju" ∧
            ((labelIdx cur (chase cur (cur.length + 1)
                (getIns cur i).param)).map
              (fun t => (getIns cur t).opcode)) = some "Xx" then
          cur.set i
            { getIns cur i with opcode := "Xx", param := .none }
        else
          cur.set i
            { getIns cur i with
                param := chase cur (cur.length + 1) (getIns cur i).param })
      else cur := rfl

theorem pass1Step_length (cur : List IRInstruction) (i : ℕ) :
    (pass1Step cur i).length = cur.length := by
  rw [pass1Step_eq]
  split
  · split
    · rw [List.length_set]
    · rw [List.length_set]
  · rfl

theorem pass1Step_getIns_ne (cur : List IRInstruction) (i k : ℕ)
    (h : k ≠ i) : getIns (pass1Step cur i) k = getIns cur k := by
  rw [pass1Step_eq]
  split
  · split
    · rw [getIns_set_ne cur i k _ h]
    · rw [getIns_set_ne cur i k _ h]
  · rfl

theorem pass1Step_labels (cur : List IRInstruction) (i : ℕ) :
    ∀ k, (getIns (pass1Step cur i) k).labels = (getIns cur k).labels := by
  intro k
  by_cases hk : k = i
  · subst hk
    rw [pass1Step_eq]
    split
    · rename_i hj
      have hlt := lt_length_of_isJump cur k hj
      split
      · rw [getIns_set_self cur k _ hlt]
      · rw [getIns_set_self cur k _ hlt]
    · rfl
  · rw [pass1Step_getIns_ne cur i k hk]

theorem pass1Step_opcode (cur : List IRInstruction) (i : ℕ) :
    ∀ k, (getIns (pass1Step cur i) k).opcode = (getIns cur k).opcode ∨
      ((getIns cur k).opcode = "Ju" ∧
        (getIns (pass1Step cur i) k).opcode = "Xx") := by
  intro k
  by_cases hk : k = i
  · subst hk
    rw [pass1Step_eq]
    split
    · rename_i hj
      have hlt := lt_length_of_isJump cur k hj
      split
      · rename_i hcond
        rw [getIns_set_self cur k _ hlt]
        exact Or.inr ⟨hcond.1, rfl⟩
      · rw [getIns_set_self cur k _ hlt]
        exact Or.inl rfl
    · exact Or.inl rfl
  · rw [pass1Step_getIns_ne cur i k hk]
    exact Or.inl rfl

theorem pass1Step_labelIdx (cur : List IRInstruction) (i : ℕ) (l : PyVal) :
    labelIdx (pass1Step cur i) l = labelIdx cur l :=
  labelIdx_congr _ cur (pass1Step_length cur i) (pass1Step_labels cur i) l

theorem pass1Step_nonJu (cur : List IRInstruction) (i k : ℕ)
    (h : (getIns cur k).opcode ≠ "Ju") :
    (getIns (pass1Step cur i) k).opcode ≠ "Ju" := by
  rcases pass1Step_opcode cur i k with hc | ⟨hc, hx⟩
  · rw [hc]
    exact h
  · rw [hx]
    simp

theorem pass1Step_at_i (L0 : List IRInstruction) (rank : ℕ → ℕ)
    (hbound : ∀ j, rank j < L0.length)
    (cur : List IRInstruction) (i : ℕ) (hInv : pass1Inv L0 rank cur)
    (hj : isJump (getIns cur i).opcode = true) :
    (getIns (pass1Step cur i) i).opcode = "Xx" ∨
    ((getIns (pass1Step cur i) i).opcode = (getIns cur i).opcode ∧
      ∃ t', labelIdx cur ((getIns (pass1Step cur i) i).param) = some t'
        ∧ (getIns cur t').opcode ≠ "Ju") := by
  obtain ⟨hlen, hlab, hop, hres, hrank⟩ := hInv
  have hlt := lt_length_of_isJump cur i hj
  have hsome := hres i hj
  cases hlt0 : labelIdx cur ((getIns cur i).param) with
  | none => rw [hlt0] at hsome; simp at hsome
  | some t0 =>
    have hchase := chase_spec cur rank
      (fun i' hJu' => hres i' (by rw [isJump]; simp [hJu']))
      hrank (cur.length + 1) ((getIns cur i).param) t0 hlt0
      (by
        by_cases hJu0 : (getIns cur t0).opcode = "Ju"
        · right
          have := hbound t0
          omega
        · exact Or.inl hJu0)
    obtain ⟨t', hlt', hnJu'⟩ := hchase
    rw [pass1Step_eq, if_pos hj]
    split
    · left
      rw [getIns_set_self cur i _ hlt]
    · right
      rw [getIns_set_self cur i _ hlt]
      exact ⟨rfl, t', hlt', hnJu'⟩

theorem pass1Step_establishes (L0 : List IRInstruction) (rank : ℕ → ℕ)
    (hbound : ∀ j, rank j < L0.length)
    (cur : List IRInstruction) (i : ℕ) (hInv : pass1Inv L0 rank cur) :
    established (pass1Step cur i) i := by
  intro hj'
  by_cases hj : isJump (getIns cur i).opcode = true
  · rcases pass1Step_at_i L0 rank hbound cur i hInv hj with hx | ⟨hsame, t', hlt', hnJu'⟩
    · rw [hx] at hj'
      simp [isJump] at hj'
    · refine ⟨t', ?_, ?_⟩
      · rw [pass1Step_labelIdx]
        exact hlt'
      · exact pass1Step_nonJu cur i t' hnJu'
  · rw [pass1Step_eq, if_neg hj] at hj'
    exact absurd hj' hj

theorem pass1Step_preserves (cur : List IRInstruction) (i k : ℕ)
    (hk : k ≠ i) (hE : established cur k) :
    established (pass1Step cur i) k := by
  intro hj'
  rw [pass1Step_getIns_ne cur i k hk] at hj'
  obtain ⟨t, hlt, hnJu⟩ := hE hj'
  refine ⟨t, ?_, pass1Step_nonJu cur i t hnJu⟩
  rw [pass1Step_labelIdx, pass1Step_getIns_ne cur i k hk]
  exact hlt

theorem pass1Step_inv (L0 : List IRInstruction) (rank : ℕ → ℕ)
    (hbound : ∀ j, rank j < L0.length)
    (cur : List IRInstruction) (i : ℕ) (hInv : pass1Inv L0 rank cur) :
    pass1Inv L0 rank (pass1Step cur i) := by
  obtain ⟨hlen, hlab, hop, hres, hrank⟩ := hInv
  refine ⟨by rw [pass1Step_length]; exact hlen,
    fun k => by rw [pass1Step_labels]; exact hlab k,
    ?_, ?_, ?_⟩
  · intro k
    rcases pass1Step_opcode cur i k with hc | ⟨hc, hx⟩
    · rw [hc]
      exact hop k
    · rcases hop k with hc0 | ⟨hc0, hx0⟩
      · rw [hx, ← hc0]
        exact Or.inr ⟨hc, rfl⟩
      · rw [hx]
        exact Or.inr ⟨hc0, rfl⟩
  · intro i' hj'
    rw [pass1Step_labelIdx]
    by_cases hk : i' = i
    · subst hk
      by_cases hj : isJump (getIns cur i').opcode = true
      · rcases pass1Step_at_i L0 rank hbound cur i'
            ⟨hlen, hlab, hop, hres, hrank⟩ hj with hx | ⟨hsame, t', hlt', _⟩
        · rw [hx] at hj'
          simp [isJump] at hj'
        · rw [hlt']
          rfl
      · rw [pass1Step_eq, if_neg hj] at hj' ⊢
        exact hres i' hj'
    · rw [pass1Step_getIns_ne cur i i' hk]
      rw [pass1Step_getIns_ne cur i i' hk] at hj'
      exact hres i' hj'
  · intro i' t hJu' hlt' hJut
    have hJuold : ∀ m, (getIns (pass1Step cur i) m).opcode = "Ju" →
        (getIns cur m).opcode = "Ju" := by
      intro m hm
      rcases pass1Step_opcode cur i m with hc | ⟨hc, hx⟩
      · rw [← hc]
        exact hm
      · rw [hm] at hx
        simp at hx
    rw [pass1Step_labelIdx] at hlt'
    by_cases hk : i' = i
    · subst hk
      by_cases hj : isJump (getIns cur i').opcode = true
      · rcases pass1Step_at_i L0 rank hbound cur i'
            ⟨hlen, hlab, hop, hres, hrank⟩ hj with hx | ⟨hsame, t', hlt2, hnJu2⟩
        · rw [hx] at hJu'
          simp at hJu'
        · rw [hlt2] at hlt'
          injection hlt' with hlt'
          subst hlt'
          exact absurd (hJuold _ hJut) hnJu2
      · rw [pass1Step_eq, if_neg hj] at hJu' hlt'
        exact hrank i' t hJu' hlt' (hJuold t hJut)
    · rw [pass1Step_getIns_ne cur i i' hk] at hJu' hlt'
      exact hrank i' t hJu' hlt' (hJuold t hJut)


theorem pass1_fold (L0 : List IRInstruction) (rank : ℕ → ℕ)
    (hbound : ∀ j, rank j < L0.length) :
    ∀ (ms : List ℕ) (cur : List IRInstruction), pass1Inv L0 rank cur →
    pass1Inv L0 rank (ms.foldl pass1Step cur) ∧
    (∀ k, k ∈ ms → established (ms.foldl pass1Step cur) k) ∧
    (∀ k, established cur k → established (ms.foldl pass1Step cur) k) := by
  intro ms
  induction ms with
  | nil =>
    intro cur hInv
    exact ⟨hInv, fun k hk => absurd hk (List.not_mem_nil k), fun k hE => hE⟩
  | cons m ms ih =>
    intro cur hInv
    rw [List.foldl_cons]
    have hInv' := pass1Step_inv L0 rank hbound cur m hInv
    obtain ⟨hI, hMem, hPres⟩ := ih (pass1Step cur m) hInv'
    refine ⟨hI, ?_, ?_⟩
    · intro k hk
      rcases List.mem_cons.mp hk with hk | hk
      · subst hk
        exact hPres k (pass1Step_establishes L0 rank hbound cur k hInv)
      · exact hMem k hk
    · intro k hE
      by_cases hkm : k = m
      · subst hkm
        exact hPres k (pass1Step_establishes L0 rank hbound cur k hInv)
      · exact hPres k (pass1Step_preserves cur m k hkm hE)

theorem pass1_spec (L0 : List IRInstruction) (rank : ℕ → ℕ)
    (hbound : ∀ j, rank j < L0.length) (hInv0 : pass1Inv L0 rank L0) :
    pass1Inv L0 rank (pass1 L0) ∧ ∀ k, established (pass1 L0) k := by
  obtain ⟨hI, hMem, _⟩ :=
    pass1_fold L0 rank hbound (List.range L0.length) L0 hInv0
  rw [pass1] at *
  refine ⟨hI, ?_⟩
  intro k
  by_cases hk : k < L0.length
  · exact hMem k (List.mem_range.mpr hk)
  · intro hj
    have hlen : ((List.range L0.length).foldl pass1Step L0).length
        = L0.length := hI.1
    have := lt_length_of_isJump _ k hj
    omega


def edgeTo (L : List IRInstruction) (q k : ℕ) : Prop :=
  q < L.length ∧ (getIns L q).opcode ≠ "Xx" ∧
  ((isJump (getIns L q).opcode = true ∧
      labelIdx L ((getIns L q).param) = some k) ∨
   ((getIns L q).opcode ≠ "Ju" ∧ k = q + 1))

def p2Just (L : List IRInstruction) (marks : List Bool) (j : ℕ) : Prop :=
  j = 0 ∨ ∃ q, marks.getD q false = true ∧ edgeTo L q j

def p2Inv (L : List IRInstruction) (marks : List Bool)
    (queue : List ℕ) : Prop :=
  (∀ j ∈ queue, j < L.length) ∧
  (∀ j ∈ queue, p2Just L marks j) ∧
  (∀ i, marks.getD i false = true → i < L.length) ∧
  (∀ i, marks.getD i false = true → p2Just L marks i) ∧
  (∀ i, marks.getD i false = true → isJump (getIns L i).opcode = true →
    ∀ t, labelIdx L ((getIns L i).param) = some t →
      (marks.getD t false = true ∨ t ∈ queue))

theorem bset_getD_self (marks : List Bool) (i : ℕ) (h : i < marks.length) :
    (marks.set i true).getD i false = true := by
  rw [List.getD_eq_getElem?_getD, List.getElem?_set_self h]
  rfl

theorem bset_getD_ne (marks : List Bool) (i k : ℕ) (h : k ≠ i) :
    (marks.set i true).getD k false = marks.getD k false := by
  rw [List.getD_eq_getElem?_getD, List.getD_eq_getElem?_getD,
    List.getElem?_set_ne (fun he => h he.symm)]

theorem bset_mono (marks : List Bool) (i k : ℕ)
    (h : marks.getD k false = true) :
    (marks.set i true).getD k false = true := by
  by_cases hk : k = i
  · subst hk
    by_cases hlt : k < marks.length
    · exact bset_getD_self marks k hlt
    · exfalso
      rw [List.getD_eq_getElem?_getD,
        List.getElem?_eq_none (by omega : marks.length ≤ k)] at h
      simp at h
  · rw [bset_getD_ne marks i k hk]
    exact h

theorem breplicate_getD (n k : ℕ) :
    (List.replicate n false).getD k false = false := by
  rw [List.getD_eq_getElem?_getD]
  cases h : (List.replicate n false)[k]? with
  | none => rfl
  | some b =>
    have := List.getElem?_mem h
    rw [List.eq_of_mem_replicate this]
    rfl

theorem bfalse_of_getD (marks : List Bool) (i : ℕ) (hi : i < marks.length)
    (h : marks.getD i false = false) : marks[i] = false := by
  rw [List.getD_eq_getElem?_getD, List.getElem?_eq_getElem hi] at h
  exact h

theorem falseCount_set (marks : List Bool) (i : ℕ)
    (hi : i < marks.length) (hf : marks.getD i false = false) :
    (marks.set i true).count false + 1 = marks.count false := by
  rw [List.count_set true false marks i hi]
  rw [bfalse_of_getD marks i hi hf]
  have hpos : 0 < marks.count false := by
    have hm : marks[i] ∈ marks := List.getElem_mem hi
    rw [bfalse_of_getD marks i hi hf] at hm
    exact List.count_pos_iff.mpr hm
  rw [if_pos (show (false == false) = true from rfl),
    if_neg (show ¬((true == false) = true) by simp)]
  omega

theorem p2Just_mono (L : List IRInstruction) (marks marks' : List Bool)
    (hmono : ∀ k, marks.getD k false = true → marks'.getD k false = true)
    (j : ℕ) (h : p2Just L marks j) : p2Just L marks' j := by
  rcases h with h | ⟨q, hq, he⟩
  · exact Or.inl h
  · exact Or.inr ⟨q, hmono q hq, he⟩

theorem succPushes_length (L : List IRInstruction) (i : ℕ) :
    (succPushes L i).length ≤ 2 := by
  rw [succPushes]
  split
  · simp
  · split <;> split <;> simp

theorem succPushes_edge (L : List IRInstruction) (i : ℕ)
    (hres : ∀ i', i' < L.length → isJump (getIns L i').opcode = true →
      (labelIdx L ((getIns L i').param)).isSome)
    (hi : i < L.length) :
    ∀ j ∈ succPushes L i, edgeTo L i j := by
  intro j hj
  rw [succPushes] at hj
  split at hj
  · simp at hj
  · rename_i hXx
    rw [List.mem_append] at hj
    rcases hj with hj | hj
    · split at hj
      · simp at hj
      · rename_i hJu
        rw [List.mem_singleton] at hj
        exact ⟨hi, hXx, Or.inr ⟨hJu, hj⟩⟩
    · split at hj
      · rename_i hjump
        rw [List.mem_singleton] at hj
        have hs := hres i hi hjump
        cases hlt : labelIdx L ((getIns L i).param) with
        | none => rw [hlt] at hs; simp at hs
        | some t =>
          rw [hlt] at hj
          subst hj
          exact ⟨hi, hXx, Or.inl ⟨hjump, hlt⟩⟩
      · simp at hj

theorem edgeTo_lt (L : List IRInstruction)
    (hlast : (getIns L (L.length - 1)).opcode = "Xx")
    (q k : ℕ) (he : edgeTo L q k) : k < L.length := by
  obtain ⟨hq, hXx, hcase⟩ := he
  rcases hcase with ⟨_, hlt⟩ | ⟨hJu, hk⟩
  · exact (labelIdx_mem L _ k hlt).1
  · subst hk
    by_cases hq1 : q = L.length - 1
    · subst hq1
      exact absurd hlast hXx
    · omega

theorem succPushes_jump_mem (L : List IRInstruction) (i t : ℕ)
    (hjump : isJump (getIns L i).opcode = true)
    (hlt : labelIdx L ((getIns L i).param) = some t) :
    t ∈ succPushes L i := by
  have hXx : (getIns L i).opcode ≠ "Xx" := by
    intro h
    rw [h] at hjump
    simp [isJump] at hjump
  rw [succPushes]
  rw [if_neg hXx, List.mem_append]
  right
  rw [if_pos hjump, hlt]
  exact List.mem_singleton.mpr rfl

theorem pass2Loop_spec (L : List IRInstruction)
    (hres : ∀ i', i' < L.length → isJump (getIns L i').opcode = true →
      (labelIdx L ((getIns L i').param)).isSome)
    (hlast : (getIns L (L.length - 1)).opcode = "Xx") :
    ∀ (fuel : ℕ) (marks : List Bool) (queue : List ℕ),
    marks.length = L.length →
    2 * marks.count false + queue.length < fuel →
    p2Inv L marks queue →
    (∀ i, marks.getD i false = true →
      (pass2Loop L fuel marks queue).getD i false = true) ∧
    (∀ j ∈ queue, (pass2Loop L fuel marks queue).getD j false = true) ∧
    (pass2Loop L fuel marks queue).length = L.length ∧
    (∀ i, (pass2Loop L fuel marks queue).getD i false = true →
      i < L.length) ∧
    (∀ i, (pass2Loop L fuel marks queue).getD i false = true →
      p2Just L (pass2Loop L fuel marks queue) i) ∧
    (∀ i, (pass2Loop L fuel marks queue).getD i false = true →
      isJump (getIns L i).opcode = true →
      ∀ t, labelIdx L ((getIns L i).param) = some t →
        (pass2Loop L fuel marks queue).getD t false = true) := by
  intro fuel
  induction fuel with
  | zero =>
    intro marks queue _ hfuel
    omega
  | succ fuel ih =>
    intro marks queue hmlen hfuel hInv
    obtain ⟨hI1, hI2, hI3, hI4, hI5⟩ := hInv
    cases queue with
    | nil =>
      rw [pass2Loop]
      refine ⟨fun i h => h, fun j hj => absurd hj (List.not_mem_nil j),
        hmlen, hI3, hI4, ?_⟩
      intro i hi hjump t ht
      rcases hI5 i hi hjump t ht with h | h
      · exact h
      · exact absurd h (List.not_mem_nil t)
    | cons i rest =>
      rw [pass2Loop]
      by_cases hmi : marks.getD i false = true
      · rw [if_pos hmi]
        have hInv' : p2Inv L marks rest := by
          refine ⟨fun j hj => hI1 j (List.mem_cons_of_mem i hj),
            fun j hj => hI2 j (List.mem_cons_of_mem i hj), hI3, hI4, ?_⟩
          intro i' hi' hjump t ht
          rcases hI5 i' hi' hjump t ht with h | h
          · exact Or.inl h
          · rcases List.mem_cons.mp h with h | h
            · subst h
              exact Or.inl hmi
            · exact Or.inr h
        have hrec := ih marks rest hmlen
          (by simp only [List.length_cons] at hfuel; omega) hInv'
        obtain ⟨c1, c2, c3, c4, c5, c6⟩ := hrec
        refine ⟨c1, ?_, c3, c4, c5, c6⟩
        intro j hj
        rcases List.mem_cons.mp hj with hj | hj
        · subst hj
          exact c1 j hmi
        · exact c2 j hj
      · rw [if_neg hmi]
        have hiq : i < L.length := hI1 i (List.mem_cons_self i rest)
        have hilen : i < marks.length := by omega
        have hffalse : marks.getD i false = false := by
          cases h : marks.getD i false
          · rfl
          · exact absurd h hmi
        have hcount := falseCount_set marks i hilen hffalse
        have hmono : ∀ k, marks.getD k false = true →
            (marks.set i true).getD k false = true :=
          fun k hk => bset_mono marks i k hk
        have hInv' : p2Inv L (marks.set i true) (succPushes L i ++ rest) := by
          refine ⟨?_, ?_, ?_, ?_, ?_⟩
          · intro j hj
            rcases List.mem_append.mp hj with hj | hj
            · exact edgeTo_lt L hlast i j (succPushes_edge L i hres hiq j hj)
            · exact hI1 j (List.mem_cons_of_mem i hj)
          · intro j hj
            rcases List.mem_append.mp hj with hj | hj
            · exact Or.inr ⟨i, bset_getD_self marks i hilen,
                succPushes_edge L i hres hiq j hj⟩
            · exact p2Just_mono L marks _ hmono j
                (hI2 j (List.mem_cons_of_mem i hj))
          · intro k hk
            by_cases hki : k = i
            · subst hki
              exact hiq
            · rw [bset_getD_ne marks i k hki] at hk
              exact hI3 k hk
          · intro k hk
            by_cases hki : k = i
            · subst hki
              exact p2Just_mono L marks _ hmono k
                (hI2 k (List.mem_cons_self _ _))
            · rw [bset_getD_ne marks i k hki] at hk
              exact p2Just_mono L marks _ hmono k (hI4 k hk)
          · intro k hk hjump t ht
            by_cases hki : k = i
            · subst hki
              exact Or.inr (List.mem_append.mpr
                (Or.inl (succPushes_jump_mem L k t hjump ht)))
            · rw [bset_getD_ne marks i k hki] at hk
              rcases hI5 k hk hjump t ht with h | h
              · exact Or.inl (hmono t h)
              · rcases List.mem_cons.mp h with h | h
                · subst h
                  exact Or.inl (bset_getD_self marks t hilen)
                · exact Or.inr (List.mem_append.mpr (Or.inr h))
        have hrec := ih (marks.set i true) (succPushes L i ++ rest)
          (by rw [List.length_set]; exact hmlen)
          (by
            have hsp := succPushes_length L i
            rw [List.length_append]
            simp only [List.length_cons] at hfuel
            omega)
          hInv'
        obtain ⟨c1, c2, c3, c4, c5, c6⟩ := hrec
        refine ⟨?_, ?_, c3, c4, c5, c6⟩
        · intro k hk
          exact c1 k (hmono k hk)
        · intro j hj
          rcases List.mem_cons.mp hj with hj | hj
          · subst hj
            exact c1 j (bset_getD_self marks j hilen)
          · exact c2 j (List.mem_append.mpr (Or.inr hj))


def reachMarks (L : List IRInstruction) : List Bool :=
  pass2Loop L (2 * L.length + 2) (List.replicate L.length false) [0]

theorem pass2_eq_kfa (L : List IRInstruction) :
    pass2 L
      = keepFilterAux (fun i => (reachMarks L).getD i false) 0 L := by
  show (L.enum.filter (fun p => (reachMarks L).getD p.1 false)).map
      (fun p => p.2) = _
  rw [show L.enum = List.enumFrom 0 L from rfl]
  exact enumFrom_filter_map_eq_kfa (fun i => (reachMarks L).getD i false) L 0

theorem length_pos_of_last_Xx (L : List IRInstruction)
    (hlast : (getIns L (L.length - 1)).opcode = "Xx") : 0 < L.length := by
  by_contra h
  have hnil : L.length = 0 := by omega
  rw [getIns_of_le L (L.length - 1) (by omega)] at hlast
  simp at hlast

theorem pass2_marks_spec (L : List IRInstruction)
    (hres : ∀ i', i' < L.length → isJump (getIns L i').opcode = true →
      (labelIdx L ((getIns L i').param)).isSome)
    (hlast : (getIns L (L.length - 1)).opcode = "Xx") :
    (reachMarks L).getD 0 false = true ∧
    (reachMarks L).length = L.length ∧
    (∀ i, (reachMarks L).getD i false = true → i < L.length) ∧
    (∀ i, (reachMarks L).getD i false = true →
      p2Just L (reachMarks L) i) ∧
    (∀ i, (reachMarks L).getD i false = true →
      isJump (getIns L i).opcode = true →
      ∀ t, labelIdx L ((getIns L i).param) = some t →
        (reachMarks L).getD t false = true) := by
  have hn := length_pos_of_last_Xx L hlast
  have hspec := pass2Loop_spec L hres hlast (2 * L.length + 2)
    (List.replicate L.length false) [0]
    (by rw [List.length_replicate])
    (by
      rw [List.count_replicate]
      rw [if_pos (show (false == false) = true from rfl)]
      simp only [List.length_cons, List.length_nil]
      omega)
    (by
      refine ⟨?_, ?_, ?_, ?_, ?_⟩
      · intro j hj
        rw [List.mem_singleton] at hj
        omega
      · intro j hj
        rw [List.mem_singleton] at hj
        exact Or.inl hj
      · intro i hi
        rw [breplicate_getD] at hi
        cases hi
      · intro i hi
        rw [breplicate_getD] at hi
        cases hi
      · intro i hi
        rw [breplicate_getD] at hi
        cases hi)
  obtain ⟨c1, c2, c3, c4, c5, c6⟩ := hspec
  exact ⟨c2 0 (List.mem_singleton.mpr rfl), c3, c4, c5, c6⟩

theorem flatLabels_kfa_sublist (keep : ℕ → Bool) :
    ∀ (L : List IRInstruction) (s : ℕ),
    List.Sublist (flatLabels (keepFilterAux keep s L)) (flatLabels L) := by
  intro L
  induction L with
  | nil => intro s; exact List.Sublist.refl _
  | cons a as ih =>
    intro s
    rw [keepFilterAux]
    by_cases h : keep s
    · rw [if_pos h]
      show List.Sublist
          (a.labels ++ flatLabels (keepFilterAux keep (s + 1) as))
          (a.labels ++ flatLabels as)
      exact List.Sublist.append_left (ih (s + 1)) a.labels
    · rw [if_neg h]
      show List.Sublist (flatLabels (keepFilterAux keep (s + 1) as))
          (a.labels ++ flatLabels as)
      exact (ih (s + 1)).trans (List.sublist_append_right a.labels _)

theorem kfa_sublist {α : Type} (keep : ℕ → Bool) :
    ∀ (L : List α) (s : ℕ), List.Sublist (keepFilterAux keep s L) L := by
  intro L
  induction L with
  | nil => intro s; exact List.Sublist.refl _
  | cons a as ih =>
    intro s
    rw [keepFilterAux]
    by_cases h : keep s
    · rw [if_pos h]
      exact List.Sublist.cons₂ a (ih (s + 1))
    · rw [if_neg h]
      exact List.Sublist.cons a (ih (s + 1))

theorem labelIdx_kfa (L : List IRInstruction) (keep : ℕ → Bool)
    (hnd : (flatLabels L).Nodup) (l : PyVal) (j : ℕ)
    (hj : j < L.length) (hkj : keep j = true)
    (hm : l ∈ (getIns L j).labels) :
    labelIdx (keepFilterAux keep 0 L) l = some (countKeep keep 0 j) := by
  have hlen : (keepFilterAux keep 0 L).length = countKeep keep 0 L.length :=
    kfa_length keep L 0
  have hget : getIns (keepFilterAux keep 0 L) (countKeep keep 0 j)
      = getIns L j := by
    rw [getIns, getIns]
    exact kfa_getD keep L 0 j _ hj (by rw [Nat.zero_add]; exact hkj)
  have hlt : countKeep keep 0 j < countKeep keep 0 L.length := by
    have h1 : countKeep keep 0 (j + 1) = countKeep keep 0 j + 1 := by
      rw [countKeep_succ_right, Nat.zero_add, hkj]
      simp
    have h2 := countKeep_mono keep 0 (show j + 1 ≤ L.length by omega)
    omega
  refine labelIdx_unique _ l _ (by omega) (by rw [hget]; exact hm) ?_
  intro p' hp' hm'
  rw [hlen] at hp'
  obtain ⟨j', hj', hkj', hc'⟩ := kfa_surj keep L 0 p' (by omega)
  rw [Nat.zero_add] at hkj'
  have hget' : getIns (keepFilterAux keep 0 L) p' = getIns L j' := by
    rw [← hc', getIns, getIns]
    exact kfa_getD keep L 0 j' _ hj' (by rw [Nat.zero_add]; exact hkj')
  rw [hget'] at hm'
  have := mem_labels_unique L hnd l j' j hj' hj hm' hm
  rw [← hc', this]

def pass2Good (L2 : List IRInstruction) : Prop :=
  (∀ i t, isJump (getIns L2 i).opcode = true →
    labelIdx L2 ((getIns L2 i).param) = some t →
    (getIns L2 t).opcode ≠ "Ju") ∧
  (∀ k, 0 < k → k < L2.length →
    ((getIns L2 (k - 1)).opcode ≠ "Ju" ∧
      (getIns L2 (k - 1)).opcode ≠ "Xx") ∨
    (∃ q, isJump (getIns L2 q).opcode = true ∧
      labelIdx L2 ((getIns L2 q).param) = some k)) ∧
  (∀ i, isJump (getIns L2 i).opcode = true →
    (labelIdx L2 ((getIns L2 i).param)).isSome) ∧
  (flatLabels L2).Nodup ∧
  (∀ ins ∈ L2, ins.opcode ≠ "")


theorem getIns_kfa (L : List IRInstruction) (keep : ℕ → Bool) (j : ℕ)
    (hj : j < L.length) (hkj : keep j = true) :
    getIns (keepFilterAux keep 0 L) (countKeep keep 0 j) = getIns L j := by
  rw [getIns, getIns]
  exact kfa_getD keep L 0 j _ hj (by rw [Nat.zero_add]; exact hkj)

theorem countKeep_lt_of_keep (keep : ℕ → Bool) (j n : ℕ)
    (hj : j < n) (hk : keep j = true) :
    countKeep keep 0 j < countKeep keep 0 n := by
  have h1 : countKeep keep 0 (j + 1) = countKeep keep 0 j + 1 := by
    rw [countKeep_succ_right, Nat.zero_add, hk]
    simp
  have h2 := countKeep_mono keep 0 (show j + 1 ≤ n by omega)
  omega

theorem pass2_good (L : List IRInstruction)
    (hres : ∀ i', i' < L.length → isJump (getIns L i').opcode = true →
      (labelIdx L ((getIns L i').param)).isSome)
    (hlast : (getIns L (L.length - 1)).opcode = "Xx")
    (hnd : (flatLabels L).Nodup)
    (hsent : ∀ ins ∈ L, ins.opcode ≠ "")
    (hEst : ∀ k, established L k) :
    pass2Good (pass2 L) := by
  obtain ⟨m0, mlen, mbound, mjust, mclosure⟩ := pass2_marks_spec L hres hlast
  rw [pass2_eq_kfa]
  set keep : ℕ → Bool := fun i => (reachMarks L).getD i false with hkeep
  have hL2len : (keepFilterAux keep 0 L).length
      = countKeep keep 0 L.length := kfa_length keep L 0
  have hsurj : ∀ p, p < (keepFilterAux keep 0 L).length →
      ∃ j, j < L.length ∧ keep j = true ∧ countKeep keep 0 j = p := by
    intro p hp
    obtain ⟨j, hj, hk, hc⟩ := kfa_surj keep L 0 p hp
    rw [Nat.zero_add] at hk
    exact ⟨j, hj, hk, hc⟩
  have hjump_core : ∀ i, isJump (getIns (keepFilterAux keep 0 L) i).opcode
        = true →
      ∃ t0, t0 < L.length ∧ keep t0 = true ∧
        (getIns L t0).opcode ≠ "Ju" ∧
        labelIdx (keepFilterAux keep 0 L)
          ((getIns (keepFilterAux keep 0 L) i).param)
          = some (countKeep keep 0 t0) := by
    intro i hjump
    have hi := lt_length_of_isJump _ i hjump
    obtain ⟨j, hjn, hkj, hcj⟩ := hsurj i hi
    have hgj : getIns (keepFilterAux keep 0 L) i = getIns L j := by
      rw [← hcj]
      exact getIns_kfa L keep j hjn hkj
    rw [hgj] at hjump ⊢
    obtain ⟨t0, hlt0, hnJu0⟩ := hEst j hjump
    have hmark_t0 := mclosure j hkj hjump t0 hlt0
    obtain ⟨ht0n, hmemt0⟩ := labelIdx_mem L _ t0 hlt0
    refine ⟨t0, ht0n, hmark_t0, hnJu0, ?_⟩
    exact labelIdx_kfa L keep hnd _ t0 ht0n hmark_t0 hmemt0
  refine ⟨?_, ?_, ?_, ?_, ?_⟩
  · intro i t hjump hlt
    obtain ⟨t0, ht0n, hkt0, hnJu0, hlidx⟩ := hjump_core i hjump
    rw [hlidx] at hlt
    injection hlt with hlt
    subst hlt
    rw [getIns_kfa L keep t0 ht0n hkt0]
    exact hnJu0
  · intro k hk0 hkn
    obtain ⟨j, hjn, hkj, hcj⟩ := hsurj k hkn
    have hj0 : j ≠ 0 := by
      intro h
      subst h
      rw [countKeep_zero] at hcj
      omega
    rcases mjust j hkj with h | ⟨q, hqmark, hq_n, hqXx, hcase⟩
    · exact absurd h hj0
    · rcases hcase with ⟨hqjump, hqlt⟩ | ⟨hqJu, hj_eq⟩
      · right
        refine ⟨countKeep keep 0 q, ?_, ?_⟩
        · rw [getIns_kfa L keep q hq_n hqmark]
          exact hqjump
        · rw [getIns_kfa L keep q hq_n hqmark]
          obtain ⟨hjn', hmemj⟩ := labelIdx_mem L _ j hqlt
          rw [labelIdx_kfa L keep hnd _ j hjn' hkj hmemj, hcj]
      · left
        subst hj_eq
        have hkq : keep q = true := hqmark
        have hstep : countKeep keep 0 (q + 1) = countKeep keep 0 q + 1 := by
          rw [countKeep_succ_right, Nat.zero_add, hkq]
          simp
        have hk1 : k - 1 = countKeep keep 0 q := by omega
        rw [hk1, getIns_kfa L keep q hq_n hqmark]
        exact ⟨hqJu, hqXx⟩
  · intro i hjump
    obtain ⟨t0, _, _, _, hlidx⟩ := hjump_core i hjump
    rw [hlidx]
    rfl
  · exact List.Nodup.sublist (flatLabels_kfa_sublist keep L 0) hnd
  · intro ins hins
    exact hsent ins (List.Sublist.subset (kfa_sublist keep L 0) hins)


def p3del (L : List IRInstruction) (i : ℕ) : Bool :=
  decide ((getIns L i).opcode = "Ju" ∧
    labelIdx L ((getIns L i).param) = some (i + 1))

theorem p3del_iff (L : List IRInstruction) (i : ℕ) :
    p3del L i = true ↔ ((getIns L i).opcode = "Ju" ∧
      labelIdx L ((getIns L i).param) = some (i + 1)) := by
  rw [p3del, decide_eq_true_eq]

theorem p3del_lt (L : List IRInstruction) (i : ℕ)
    (h : p3del L i = true) : i < L.length ∧ i + 1 < L.length := by
  obtain ⟨hJu, hlt⟩ := (p3del_iff L i).mp h
  constructor
  · by_contra hge
    rw [getIns_of_le L i (by omega)] at hJu
    simp at hJu
  · exact (labelIdx_mem L _ (i + 1) hlt).1

theorem p3del_sparse (L : List IRInstruction)
    (hA : ∀ i t, isJump (getIns L i).opcode = true →
      labelIdx L ((getIns L i).param) = some t →
      (getIns L t).opcode ≠ "Ju")
    (i : ℕ) (h : p3del L i = true) : p3del L (i + 1) = false := by
  obtain ⟨hJu, hlt⟩ := (p3del_iff L i).mp h
  have hnJu := hA i (i + 1) (by rw [isJump]; simp [hJu]) hlt
  cases hd : p3del L (i + 1) with
  | false => rfl
  | true => exact absurd ((p3del_iff L (i + 1)).mp hd).1 hnJu

theorem pass3Step_eq (lm : PyVal → Option ℕ) (cur : List IRInstruction)
    (i : ℕ) :
    pass3Step lm cur i =
      if (getIns cur i).opcode = "Ju" ∧
          lm ((getIns cur i).param) = some (i + 1) then
        (cur.set (i + 1)
          { getIns cur (i + 1) with
              labels := (getIns cur (i + 1)).labels
                ++ (getIns cur i).labels }).set i
          { getIns cur i with opcode := "" }
      else cur := rfl

theorem pass3_fold_char (L : List IRInstruction)
    (hA : ∀ i t, isJump (getIns L i).opcode = true →
      labelIdx L ((getIns L i).param) = some t →
      (getIns L t).opcode ≠ "Ju") :
    ∀ m : ℕ,
    ((List.range m).foldl (pass3Step (labelIdx L)) L).length = L.length ∧
    (∀ k, (getIns ((List.range m).foldl (pass3Step (labelIdx L)) L) k).opcode
      = (if p3del L k = true ∧ k < m then "" else (getIns L k).opcode)) ∧
    (∀ k, (getIns ((List.range m).foldl (pass3Step (labelIdx L)) L) k).param
      = (getIns L k).param) ∧
    (∀ k, (getIns ((List.range m).foldl (pass3Step (labelIdx L)) L) k).labels
      = (getIns L k).labels ++
        (if 0 < k ∧ k ≤ m ∧ p3del L (k - 1) = true
          then (getIns L (k - 1)).labels else [])) := by
  intro m
  induction m with
  | zero =>
    rw [List.range_zero]
    refine ⟨rfl, fun k => ?_, fun k => rfl, fun k => ?_⟩
    · rw [List.foldl_nil, if_neg]
      rintro ⟨_, hk⟩
      omega
    · rw [List.foldl_nil, if_neg, List.append_nil]
      rintro ⟨h1, h2, _⟩
      omega
  | succ m ih =>
    obtain ⟨ihlen, ihop, ihpar, ihlab⟩ := ih
    rw [List.range_succ, List.foldl_append, List.foldl_cons, List.foldl_nil]
    set Cm := (List.range m).foldl (pass3Step (labelIdx L)) L with hCm
    have hopm : (getIns Cm m).opcode = (getIns L m).opcode := by
      rw [ihop m, if_neg]
      rintro ⟨_, hk⟩
      omega
    have hparm : (getIns Cm m).param = (getIns L m).param := ihpar m
    have hcond : ((getIns Cm m).opcode = "Ju" ∧
        labelIdx L ((getIns Cm m).param) = some (m + 1))
        ↔ p3del L m = true := by
      rw [hopm, hparm, p3del_iff]
    by_cases hd : p3del L m = true
    · have hm2 := p3del_lt L m hd
      have hdprev : ∀ hm0 : 0 < m, p3del L (m - 1) = false := by
        intro hm0
        cases hp : p3del L (m - 1) with
        | false => rfl
        | true =>
          have hsp := p3del_sparse L hA (m - 1) hp
          rw [show m - 1 + 1 = m from by omega] at hsp
          rw [hd] at hsp
          cases hsp
      have hlabm : (getIns Cm m).labels = (getIns L m).labels := by
        rw [ihlab m, if_neg, List.append_nil]
        rintro ⟨h1, h2, h3⟩
        rw [hdprev h1] at h3
        cases h3
      rw [pass3Step_eq, if_pos (hcond.mpr hd)]
      have hlen1 : Cm.length = L.length := ihlen
      have hm1lt : m + 1 < Cm.length := by omega
      have hmlt : m < ((Cm.set (m + 1)
          { getIns Cm (m + 1) with
              labels := (getIns Cm (m + 1)).labels
                ++ (getIns Cm m).labels }).length) := by
        rw [List.length_set]
        omega
      refine ⟨by rw [List.length_set, List.length_set]; exact ihlen,
        fun k => ?_, fun k => ?_, fun k => ?_⟩
      · by_cases hk : k = m
        · subst hk
          rw [getIns_set_self _ k _ hmlt]
          rw [if_pos ⟨hd, by omega⟩]
        · rw [getIns_set_ne _ m k _ hk]
          by_cases hk1 : k = m + 1
          · subst hk1
            rw [getIns_set_self _ (m + 1) _ hm1lt]
            have h2 : ¬(p3del L (m + 1) = true ∧ m + 1 < m + 1) := by
              rintro ⟨_, hlt⟩
              omega
            rw [if_neg h2]
            have hio := ihop (m + 1)
            rw [if_neg (by rintro ⟨_, hlt⟩; omega)] at hio
            exact hio
          · rw [getIns_set_ne _ (m + 1) k _ hk1, ihop k]
            have hiff : (p3del L k = true ∧ k < m + 1)
                ↔ (p3del L k = true ∧ k < m) := by
              constructor
              · rintro ⟨h1, h2⟩
                refine ⟨h1, ?_⟩
                rcases Nat.lt_or_ge k m with h | h
                · exact h
                · exact absurd (show k = m by omega) hk
              · rintro ⟨h1, h2⟩
                exact ⟨h1, by omega⟩
            rw [if_congr hiff rfl rfl]
      · by_cases hk : k = m
        · subst hk
          rw [getIns_set_self _ k _ hmlt]
          exact hparm
        · rw [getIns_set_ne _ m k _ hk]
          by_cases hk1 : k = m + 1
          · subst hk1
            rw [getIns_set_self _ (m + 1) _ hm1lt]
            exact ihpar (m + 1)
          · rw [getIns_set_ne _ (m + 1) k _ hk1]
            exact ihpar k
      · by_cases hk : k = m
        · subst hk
          rw [getIns_set_self _ k _ hmlt]
          show (getIns Cm k).labels = _
          rw [hlabm, if_neg, List.append_nil]
          rintro ⟨h1, h2, h3⟩
          rw [hdprev h1] at h3
          cases h3
        · rw [getIns_set_ne _ m k _ hk]
          by_cases hk1 : k = m + 1
          · subst hk1
            rw [getIns_set_self _ (m + 1) _ hm1lt]
            show (getIns Cm (m + 1)).labels ++ (getIns Cm m).labels = _
            rw [hlabm, ihlab (m + 1), if_neg, List.append_nil,
              if_pos ⟨by omega, le_refl (m + 1),
                by rw [show m + 1 - 1 = m from by omega]; exact hd⟩]
            · rw [show m + 1 - 1 = m from by omega]
            · rintro ⟨h1, h2, h3⟩
              omega
          · rw [getIns_set_ne _ (m + 1) k _ hk1, ihlab k]
            have hiff : (0 < k ∧ k ≤ m + 1 ∧ p3del L (k - 1) = true)
                ↔ (0 < k ∧ k ≤ m ∧ p3del L (k - 1) = true) := by
              constructor
              · rintro ⟨h1, h2, h3⟩
                refine ⟨h1, ?_, h3⟩
                rcases Nat.lt_or_ge k (m + 1) with h | h
                · omega
                · exact absurd (show k = m + 1 by omega) hk1
              · rintro ⟨h1, h2, h3⟩
                exact ⟨h1, by omega, h3⟩
            rw [if_congr hiff rfl rfl]
    · rw [pass3Step_eq, if_neg (fun hc => hd (hcond.mp hc))]
      refine ⟨ihlen, fun k => ?_, ihpar, fun k => ?_⟩
      · rw [ihop k]
        have hiff : (p3del L k = true ∧ k < m + 1)
            ↔ (p3del L k = true ∧ k < m) := by
          constructor
          · rintro ⟨h1, h2⟩
            refine ⟨h1, ?_⟩
            rcases Nat.lt_or_ge k m with h | h
            · exact h
            · have hkm : k = m := by omega
              rw [hkm] at h1
              exact absurd h1 hd
          · rintro ⟨h1, h2⟩
            exact ⟨h1, by omega⟩
        rw [if_congr hiff rfl rfl]
      · rw [ihlab k]
        have hiff : (0 < k ∧ k ≤ m + 1 ∧ p3del L (k - 1) = true)
            ↔ (0 < k ∧ k ≤ m ∧ p3del L (k - 1) = true) := by
          constructor
          · rintro ⟨h1, h2, h3⟩
            refine ⟨h1, ?_, h3⟩
            rcases Nat.lt_or_ge k (m + 1) with h | h
            · omega
            · have hkm : k - 1 = m := by omega
              rw [hkm] at h3
              exact absurd h3 hd
          · rintro ⟨h1, h2, h3⟩
            exact ⟨h1, by omega, h3⟩
        rw [if_congr hiff rfl rfl]


theorem pass3_eq_kfa (L : List IRInstruction)
    (hA : ∀ i t, isJump (getIns L i).opcode = true →
      labelIdx L ((getIns L i).param) = some t →
      (getIns L t).opcode ≠ "Ju")
    (hsent : ∀ ins ∈ L, ins.opcode ≠ "") :
    pass3 L = keepFilterAux (fun i => !(p3del L i)) 0
      ((List.range L.length).foldl (pass3Step (labelIdx L)) L) := by
  obtain ⟨hClen, hCop, _, _⟩ := pass3_fold_char L hA L.length
  rw [pass3]
  refine filter_eq_kfa _ _ ⟨"", PyVal.none, []⟩ _ 0 ?_
  intro j hj
  rw [hClen] at hj
  have hgd : ((List.range L.length).foldl (pass3Step (labelIdx L)) L).getD j
      ⟨"", PyVal.none, []⟩
      = getIns ((List.range L.length).foldl (pass3Step (labelIdx L)) L) j :=
    rfl
  rw [hgd, Nat.zero_add]
  cases hd : p3del L j with
  | true =>
    rw [hCop j, if_pos ⟨hd, hj⟩]
    simp
  | false =>
    rw [hCop j, if_neg (by rintro ⟨h1, _⟩; rw [hd] at h1; cases h1)]
    have hne : (getIns L j).opcode ≠ "" := by
      refine hsent _ ?_
      rw [getIns_eq_getElem L j hj]
      exact List.getElem_mem hj
    simp [hne]

theorem pass3_noJuToNext (L : List IRInstruction)
    (hA : ∀ i t, isJump (getIns L i).opcode = true →
      labelIdx L ((getIns L i).param) = some t →
      (getIns L t).opcode ≠ "Ju")
    (hB : ∀ k, 0 < k → k < L.length →
      ((getIns L (k - 1)).opcode ≠ "Ju" ∧
        (getIns L (k - 1)).opcode ≠ "Xx") ∨
      (∃ q, isJump (getIns L q).opcode = true ∧
        labelIdx L ((getIns L q).param) = some k))
    (hres : ∀ i, isJump (getIns L i).opcode = true →
      (labelIdx L ((getIns L i).param)).isSome)
    (hnd : (flatLabels L).Nodup)
    (hsent : ∀ ins ∈ L, ins.opcode ≠ "") :
    noJuToNext (pass3 L) := by
  intro p hJu hlteq
  obtain ⟨hClen, hCop, hCpar, hClab⟩ := pass3_fold_char L hA L.length
  set C := (List.range L.length).foldl (pass3Step (labelIdx L)) L with hC
  set keep3 : ℕ → Bool := fun i => !(p3del L i) with hkeep3
  rw [pass3_eq_kfa L hA hsent] at hJu hlteq
  have hkeep_del : ∀ t, keep3 t = true → p3del L t = false := by
    intro t h
    cases hpt : p3del L t with
    | false => rfl
    | true =>
      rw [hkeep3] at h
      simp only [hpt] at h
      cases h
  have hdel_keep : ∀ t, keep3 t = false → p3del L t = true := by
    intro t h
    cases hpt : p3del L t with
    | true => rfl
    | false =>
      rw [hkeep3] at h
      simp only [hpt] at h
      cases h
  have hp : p < (keepFilterAux keep3 0 C).length := by
    refine lt_length_of_isJump _ p ?_
    rw [hJu]
    rfl
  obtain ⟨i, hiC, hki, hci⟩ := kfa_surj keep3 C 0 p hp
  rw [Nat.zero_add] at hki
  have hin : i < L.length := by rw [← hClen]; exact hiC
  have hFi : getIns (keepFilterAux keep3 0 C) p = getIns C i := by
    rw [← hci]
    exact getIns_kfa C keep3 i hiC hki
  have hdelI : p3del L i = false := hkeep_del i hki
  have hopI : (getIns L i).opcode = "Ju" := by
    have := hCop i
    rw [if_neg (by rintro ⟨h1, _⟩; rw [hdelI] at h1; cases h1)] at this
    rw [hFi, this] at hJu
    exact hJu
  have hparI : (getIns C i).param = (getIns L i).param := hCpar i
  have hjumpI : isJump (getIns L i).opcode = true := by
    rw [isJump, hopI]
    rfl
  have hsomeI := hres i hjumpI
  cases hlt0 : labelIdx L ((getIns L i).param) with
  | none => rw [hlt0] at hsomeI; simp at hsomeI
  | some j0 =>
    obtain ⟨hj0n, hmem0⟩ := labelIdx_mem L _ j0 hlt0
    cases hdj0 : p3del L j0 with
    | true =>
      exact absurd ((p3del_iff L j0).mp hdj0).1 (hA i j0 hjumpI hlt0)
    | false =>
      have hkj0 : keep3 j0 = true := by
        rw [hkeep3]
        simp only [hdj0]
        rfl
      have hj0C : j0 < C.length := by rw [hClen]; exact hj0n
      have hFlen : (keepFilterAux keep3 0 C).length
          = countKeep keep3 0 L.length := by
        rw [kfa_length, hClen]
      have hlidxF : labelIdx (keepFilterAux keep3 0 C)
          ((getIns L i).param) = some (countKeep keep3 0 j0) := by
        refine labelIdx_unique _ _ _ ?_ ?_ ?_
        · rw [hFlen]
          exact countKeep_lt_of_keep keep3 j0 L.length hj0n hkj0
        · rw [getIns_kfa C keep3 j0 hj0C hkj0, hClab j0]
          exact List.mem_append_left _ hmem0
        · intro p' hp' hm'
          obtain ⟨i', hi'C, hki', hci'⟩ := kfa_surj keep3 C 0 p' hp'
          rw [Nat.zero_add] at hki'
          have hi'n : i' < L.length := by rw [← hClen]; exact hi'C
          rw [← hci', getIns_kfa C keep3 i' hi'C hki', hClab i'] at hm'
          rcases List.mem_append.mp hm' with hm' | hm'
          · have := mem_labels_unique L hnd _ i' j0 hi'n hj0n hm' hmem0
            rw [← hci', this]
          · by_cases hcnd : 0 < i' ∧ i' ≤ L.length ∧ p3del L (i' - 1) = true
            · rw [if_pos hcnd] at hm'
              have hprev : i' - 1 < L.length := by omega
              have := mem_labels_unique L hnd _ (i' - 1) j0 hprev hj0n
                hm' hmem0
              rw [this] at hcnd
              rw [hcnd.2.2] at hdj0
              cases hdj0
            · rw [if_neg hcnd] at hm'
              cases hm'
    -- now derive the contradiction from positions
      have hparF : (getIns (keepFilterAux keep3 0 C) p).param
          = (getIns L i).param := by
        rw [hFi, hparI]
      rw [hparF, hlidxF] at hlteq
      injection hlteq with hlteq
      rw [← hci] at hlteq
      rcases Nat.lt_or_ge i j0 with hij | hij
      · rcases Nat.lt_or_ge (i + 1) j0 with hij2 | hij2
        · -- j0 ≥ i + 2 : every index in (i, j0) is deleted
          have hstep : countKeep keep3 0 (i + 1)
              = countKeep keep3 0 i + 1 := by
            rw [countKeep_succ_right, Nat.zero_add, hki]
            simp
          have hsplit : countKeep keep3 0 j0
              = countKeep keep3 0 (i + 1)
                + countKeep keep3 (i + 1) (j0 - (i + 1)) := by
            have hsp := countKeep_split keep3 0 (i + 1) (j0 - (i + 1))
            rw [Nat.zero_add] at hsp
            rw [show i + 1 + (j0 - (i + 1)) = j0 from by omega] at hsp
            exact hsp
          have hzero : countKeep keep3 (i + 1) (j0 - (i + 1)) = 0 := by
            omega
          have hk1 : keep3 (i + 1) = false :=
            countKeep_eq_zero keep3 (i + 1) _ hzero (i + 1) (le_refl _)
              (by omega)
          have hd1 : p3del L (i + 1) = true := hdel_keep (i + 1) hk1
          have hopJ1 : (getIns L (i + 1)).opcode = "Ju" :=
            ((p3del_iff L (i + 1)).mp hd1).1
          have hbound1 : i + 1 < L.length := (p3del_lt L (i + 1) hd1).1
          rcases hB (i + 1) (by omega) hbound1 with ⟨hnJu, _⟩ | ⟨q, hqj, hql⟩
          · rw [show i + 1 - 1 = i from by omega] at hnJu
            exact absurd hopI hnJu
          · exact absurd hopJ1 (hA q (i + 1) hqj hql)
        · -- j0 = i + 1 : then p3del i would be true
          have hj0e : j0 = i + 1 := by omega
          rw [hj0e] at hlt0
          have : p3del L i = true :=
            (p3del_iff L i).mpr ⟨hopI, hlt0⟩
          rw [hdelI] at this
          cases this
      · -- j0 ≤ i : positions cannot increase
        have := countKeep_mono keep3 0 hij
        omega


theorem flatLabels_congr (A B : List IRInstruction)
    (hlen : A.length = B.length)
    (hpt : ∀ k, (getIns A k).labels = (getIns B k).labels) :
    flatLabels A = flatLabels B := by
  rw [flatLabels, flatLabels]
  congr 1
  refine List.ext_getElem (by rw [List.length_map, List.length_map, hlen]) ?_
  intro k h1 h2
  rw [List.getElem_map, List.getElem_map]
  have hk := hpt k
  rw [getIns_eq_getElem A k (by rw [List.length_map] at h1; exact h1),
    getIns_eq_getElem B k (by rw [List.length_map] at h2; exact h2)] at hk
  exact hk

/-- **C4**: for any instruction list that is well formed the way
`generate_code` emits it — every jump's label is defined, the last
instruction is `Xx`, labels are allocated uniquely, no opcode is the
empty sentinel, and chains of `Ju` jumps are acyclic (witnessed by a
bounded rank function strictly decreasing along `Ju`-to-`Ju` edges) —
the list produced by the three peephole passes contains no `Ju`
instruction whose target (resolved through the final label positions)
is the instruction immediately following it. -/
theorem claim_C4_optimizer_no_jump_to_next (L0 : List IRInstruction)
    (hres : ∀ i, i < L0.length → isJump (getIns L0 i).opcode = true →
      (labelIdx L0 ((getIns L0 i).param)).isSome)
    (hlast : (getIns L0 (L0.length - 1)).opcode = "Xx")
    (hnd : (flatLabels L0).Nodup)
    (hsent : ∀ ins ∈ L0, ins.opcode ≠ "")
    (hrank : ∃ rank : ℕ → ℕ, (∀ j, rank j < L0.length) ∧
      ∀ i, i < L0.length → ∀ t, t < L0.length →
        ((getIns L0 i).opcode = "Ju" →
          labelIdx L0 ((getIns L0 i).param) = some t →
          (getIns L0 t).opcode = "Ju" → rank t < rank i)) :
    noJuToNext (optimizeInstructions L0) := by
  obtain ⟨rank, hbound, hrk⟩ := hrank
  have hInv0 : pass1Inv L0 rank L0 := by
    refine ⟨rfl, fun k => rfl, fun k => Or.inl rfl, ?_, ?_⟩
    · intro i hj
      exact hres i (lt_length_of_isJump L0 i hj) hj
    · intro i t hJu hlt hJut
      have hi : i < L0.length := by
        by_contra h
        rw [getIns_of_le L0 i (by omega)] at hJu
        simp at hJu
      exact hrk i hi t (labelIdx_mem L0 _ t hlt).1 hJu hlt hJut
  obtain ⟨hInv1, hEst1⟩ := pass1_spec L0 rank hbound hInv0
  obtain ⟨hlen1, hlab1, hop1, hres1, _⟩ := hInv1
  have hlast1 : (getIns (pass1 L0) ((pass1 L0).length - 1)).opcode
      = "Xx" := by
    rw [hlen1]
    rcases hop1 (L0.length - 1) with hc | ⟨_, hc⟩
    · rw [hc]
      exact hlast
    · exact hc
  have hnd1 : (flatLabels (pass1 L0)).Nodup := by
    rw [flatLabels_congr (pass1 L0) L0 hlen1 hlab1]
    exact hnd
  have hsent1 : ∀ ins ∈ pass1 L0, ins.opcode ≠ "" := by
    intro ins hins
    obtain ⟨k, hk, rfl⟩ := List.mem_iff_getElem.mp hins
    rw [← getIns_eq_getElem (pass1 L0) k hk]
    rcases hop1 k with hc | ⟨_, hc⟩
    · rw [hc]
      refine hsent _ ?_
      rw [getIns_eq_getElem L0 k (by rw [← hlen1]; exact hk)]
      exact List.getElem_mem _
    · rw [hc]
      simp
  have hres1' : ∀ i', i' < (pass1 L0).length →
      isJump (getIns (pass1 L0) i').opcode = true →
      (labelIdx (pass1 L0) ((getIns (pass1 L0) i').param)).isSome :=
    fun i' _ hj => hres1 i' hj
  obtain ⟨hA2, hB2, hres2, hnd2, hsent2⟩ :=
    pass2_good (pass1 L0) hres1' hlast1 hnd1 hsent1 hEst1
  exact pass3_noJuToNext (pass2 (pass1 L0)) hA2 hB2 hres2 hnd2 hsent2

/-- A concrete program for the C4 witness: `Jz` into a `Ju` chain, dead
code at index 2, a label-1 `Ju` chained to label 2, and a terminating
`Xx`. -/
def optExample : List IRInstruction :=
  [⟨"Jz", .int 1, []⟩,
   ⟨"Lo", .none, []⟩,
   ⟨"Ju", .int 2, []⟩,
   ⟨"Ju", .int 2, [.int 1]⟩,
   ⟨"St", .str "x", [.int 2]⟩,
   ⟨"Xx", .none, []⟩]

/-- Witness for C4: a six-instruction program with a conditional jump
into a `Ju` chain, an unreachable `Ju`, and a `Ju` to the (eventually)
next instruction; all hypotheses hold by computation and the trivial
rank function works because no `Ju` targets another `Ju`. -/
theorem claim_C4_optimizer_no_jump_to_next_witness :
    noJuToNext (optimizeInstructions optExample) :=
  claim_C4_optimizer_no_jump_to_next optExample
    (by decide) (by decide) (by decide) (by decide)
    ⟨fun _ => 0, fun _ => by show (0:ℕ) < optExample.length; decide,
      by decide⟩

end Abysmal
